import Mathlib

/-!
# ATmega8 in-system programmer: a shallow embedding of `atmega8-programmer.c`

The C program keeps two process-wide byte arrays (`tx_buf`, `rx_buf`), talks to
the target through one `ioctl` per SPI transfer, sleeps with `nanosleep` and
leaves the process through `print_error_end_exit`.  Here

* a `World` carries the two arrays, the state of whatever sits at the other end
  of the SPI bus, and the trace of everything the program did to the outside;
* a C function becomes a function `World σ → Result σ α`; `Result.exit` is the
  call of `print_error_end_exit` (or an access outside an array) and keeps the
  world as it was at that moment;
* C `int` values that are never negative (`len`, `i`, `j`, `page`) are natural
  numbers, which is exact as long as no `int` expression leaves the range of
  `int` (in `write_flash`, where `i += page_size_in_bytes` may pass `len`, that
  is `len ≤ 2^31 - 64`); `uint8_t` and `uint16_t` stores reduce modulo `2^8`
  and `2^16`;
* the `#ifdef DEBUG` block of `send_data` is not compiled and is left out.
-/

namespace Atmega8

/-! ## Constants -/

/-- `#define flash_size (1024 * 8)` -/
def flash_size : Nat := 1024 * 8

/-- `#define page_size_in_words 32` -/
def page_size_in_words : Nat := 32

/-- `#define page_size_in_bytes 64` -/
def page_size_in_bytes : Nat := 64

/-- `#define instruction_size 4` -/
def instruction_size : Nat := 4

/-- `#define buffer_size (page_size_in_bytes * instruction_size)` -/
def buffer_size : Nat := page_size_in_bytes * instruction_size

/-! ## The outside world -/

/-- Reasons for which the process ends early: the messages handed to
`print_error_end_exit` (and to `perror` before `exit(-1)`); `out_of_bounds`
stands for an array access outside the array, which C leaves undefined. -/
inductive Err
  /-- "sleep error" -/
  | sleep_error
  /-- "sending instruction failed" -/
  | sending_failed
  /-- "unable to enter programming mode" -/
  | handshake
  /-- " : not matching ATmega8!" -/
  | signature_mismatch
  /-- an index outside `tx_buf`, `rx_buf` or a caller's buffer -/
  | out_of_bounds
  /-- "unable to open file" -/
  | file_open_failed
  /-- "file is larger than flash size" -/
  | file_too_large
  /-- "cannot open spi device" -/
  | spi_open_failed
  /-- "setting spi read mode failed" -/
  | spi_read_mode_failed
  /-- "setting spi write mode failed" -/
  | spi_write_mode_failed
  /-- "setting spi write max speed failed" -/
  | spi_write_speed_failed
  /-- "setting spi read max speed failed" -/
  | spi_read_speed_failed
  deriving DecidableEq, Repr

/-- What the program does that can be seen from outside, in order. -/
inductive Event
  /-- one `ioctl(spi_fd, SPI_IOC_MESSAGE(1), ..)`: bytes sent, bytes received -/
  | transfer (tx rx : List Nat)
  /-- one `nanosleep` of `ms` milliseconds -/
  | delay (ms : Nat)
  /-- one `gpio_set(pin, value)` -/
  | gpio (pin : Int) (value : Nat)
  /-- one `printf`/`puts`: the format string and its arguments -/
  | print (text : String) (args : List Nat)
  /-- one `gpio_init_out(pin)` -/
  | gpio_init (pin : Int)
  deriving DecidableEq, Repr

/-- The other end of the SPI bus and the clock, as the program sees them:
`transfer` answers one `SPI_IOC_MESSAGE` (`none` when `ioctl` returns `-1`),
`sleep` answers one `nanosleep` (`none` when it returns non-zero). -/
structure Target (σ : Type) where
  transfer : σ → List Nat → Option (σ × List Nat)
  sleep : σ → Nat → Option σ

/-- The two static arrays of the program, the state of the target and the
trace so far. -/
structure World (σ : Type) where
  tx_buf : Nat → Nat
  rx_buf : Nat → Nat
  dev : σ
  trace : List Event

/-- Outcome of running a C function: it returns `value`, or the process ends
with `e`; either way `w` is the world at that point. -/
inductive Result (σ : Type) (α : Type)
  | ok (value : α) (w : World σ)
  | exit (e : Err) (w : World σ)

/-- Sequencing of two statements: the second runs only if the first returned. -/
def Result.andThen {σ α β : Type} (r : Result σ α) (f : α → World σ → Result σ β) :
    Result σ β :=
  match r with
  | .ok a w => f a w
  | .exit e w => .exit e w

/-- The world in which a run ended. -/
def Result.world {σ α : Type} : Result σ α → World σ
  | .ok _ w => w
  | .exit _ w => w

/-- Modelled from the spec: `print_error_end_exit` is declared in the source
(`extern noreturn void print_error_end_exit(char * error)`) but defined elsewhere; the spec has
such an error "abort the current operation immediately", and `noreturn` says the call never
comes back, so a call ends the run with the error named by the message. -/
def print_error_end_exit {σ α : Type} (error : Err) (w : World σ) : Result σ α :=
  .exit error w

/-- A C `bool` used as an integer. -/
def b2n (b : Bool) : Nat := if b then 1 else 0

/-- The `len` bytes the kernel stores into `rx_buf`: exactly `len` of them,
each a `uint8_t`. -/
def received (len : Nat) (rx : List Nat) : List Nat :=
  (List.range len).map (fun k => rx.getD k 0 % 256)

/-! ## The functions of the program -/

/-- `void delay(int ms)` -/
def delay {σ : Type} (t : Target σ) (ms : Nat) (w : World σ) : Result σ Unit :=
  match t.sleep w.dev ms with
  | some d => .ok () { w with dev := d, trace := w.trace ++ [Event.delay ms] }
  | none => print_error_end_exit .sleep_error w

/-- `void send_data(int len)`: one transfer of the first `len` bytes of
`tx_buf`; the `len` bytes of the answer land in `rx_buf`. -/
def send_data {σ : Type} (t : Target σ) (len : Nat) (w : World σ) : Result σ Unit :=
  if len ≤ buffer_size then
    let tx := (List.range len).map w.tx_buf
    match t.transfer w.dev tx with
    | some (d, rx) =>
        let rx := received len rx
        .ok () { w with
          rx_buf := fun k => if k < len then rx.getD k 0 else w.rx_buf k,
          dev := d,
          trace := w.trace ++ [Event.transfer tx rx] }
    | none => print_error_end_exit .sending_failed w
  else .exit .out_of_bounds w

/-- `static void set_instruction(int offset, uint8_t byte1, .., uint8_t byte4)` -/
def set_instruction {σ : Type} (offset byte1 byte2 byte3 byte4 : Nat) (w : World σ) :
    Result σ Unit :=
  if offset + 3 < buffer_size then
    .ok () { w with tx_buf := (fun k =>
      if k = offset + 3 then byte4 % 256
      else if k = offset + 2 then byte3 % 256
      else if k = offset + 1 then byte2 % 256
      else if k = offset + 0 then byte1 % 256
      else w.tx_buf k) }
  else .exit .out_of_bounds w

/-- `uint8_t read_signature_byte(uint8_t addr)` -/
def read_signature_byte {σ : Type} (t : Target σ) (addr : Nat) (w : World σ) :
    Result σ Nat :=
  (set_instruction 0 0x30 0x00 addr 0x00 w).andThen fun _ w =>
  (send_data t 4 w).andThen fun _ w =>
  .ok (w.rx_buf 3) w

/-- `uint8_t read_fuse_bits(bool high)` -/
def read_fuse_bits {σ : Type} (t : Target σ) (high : Bool) (w : World σ) : Result σ Nat :=
  (set_instruction 0 (0x50 ||| (b2n high <<< 3)) 0x00 0x00 0x00 w).andThen fun _ w =>
  (send_data t 4 w).andThen fun _ w =>
  .ok (w.rx_buf 3) w

/-- `void enable_programming()` -/
def enable_programming {σ : Type} (t : Target σ) (w : World σ) : Result σ Unit :=
  (set_instruction 0 0xAC 0x53 0x00 0x00 w).andThen fun _ w =>
  (send_data t 4 w).andThen fun _ w =>
  if w.rx_buf 2 ≠ 0x53 then print_error_end_exit .handshake w else .ok () w

/-- `printf` and `puts` only leave a line in the trace. -/
def printf {σ : Type} (text : String) (args : List Nat) (w : World σ) : Result σ Unit :=
  .ok () { w with trace := w.trace ++ [Event.print text args] }

/-- `void check_signature()` -/
def check_signature {σ : Type} (t : Target σ) (w : World σ) : Result σ Unit :=
  (read_signature_byte t 0x00 w).andThen fun b1 w =>
  (read_signature_byte t 0x01 w).andThen fun b2 w =>
  (read_signature_byte t 0x02 w).andThen fun b3 w =>
  (printf "device signature: 0x%.2X 0x%.2X 0x%.2X" [b1, b2, b3] w).andThen fun _ w =>
  if b1 = 0x1E ∧ b2 = 0x93 ∧ b3 = 0x07 then printf " | ATmega8\n" [] w
  else print_error_end_exit .signature_mismatch w

/-- `void show_progress(const char * message, const char * units, int count, int limit)` -/
def show_progress {σ : Type} (message units : String) (count limit : Nat) (w : World σ) :
    Result σ Unit :=
  (printf "\r" [] w).andThen fun _ w =>
  (printf (message ++ " \t%d/%d " ++ units ++ " ") [count, limit] w).andThen fun _ w =>
  if count = limit then printf "\n" [] w else .ok () w

/-- The first `for (int j = 0; j < bytes_for_current_read; j++)` of
`read_program_memory`; `k` counts the iterations still to run, the value
returned is `high` as the loop leaves it. -/
def read_program_memory_fill {σ : Type} (word_addres i : Nat) :
    Nat → Nat → Bool → World σ → Result σ Bool
  | 0, _, high, w => .ok high w
  | k + 1, j, high, w =>
      let addr := (word_addres + (i + j) / 2) % 65536
      (set_instruction (j * 4) (0x20 ||| (b2n high <<< 3)) (addr >>> 8) (addr &&& 0xFF) 0x00 w).andThen
        fun _ w => read_program_memory_fill word_addres i k (j + 1) (!high) w

/-- The second `for (int j = 0; j < bytes_for_current_read; j++)` of
`read_program_memory`: `buffer[i + j] = rx_buf[j * 4 + 3]`. -/
def read_program_memory_copy {σ : Type} (i : Nat) :
    Nat → Nat → List Nat → World σ → Result σ (List Nat)
  | 0, _, buffer, w => .ok buffer w
  | k + 1, j, buffer, w =>
      if j * 4 + 3 < buffer_size ∧ i + j < buffer.length then
        read_program_memory_copy i k (j + 1) (buffer.set (i + j) (w.rx_buf (j * 4 + 3))) w
      else .exit .out_of_bounds w

/-- The outer `for (int i = 0; i < len;)` of `read_program_memory`, entered
with the current `i`, `high` and contents of `buffer`. -/
def read_program_memory_chunks {σ : Type} (t : Target σ) (word_addres len : Nat)
    (progress : Bool) (i : Nat) (high : Bool) (buffer : List Nat) (w : World σ) :
    Result σ (List Nat) :=
  if _h : i < len then
    let bytes_to_read_in_each_message := buffer_size / 4
    let bytes_for_current_read :=
      if len - i > bytes_to_read_in_each_message then bytes_to_read_in_each_message else len - i
    (read_program_memory_fill word_addres i bytes_for_current_read 0 high w).andThen fun high w =>
    (send_data t (bytes_for_current_read * 4) w).andThen fun _ w =>
    (read_program_memory_copy i bytes_for_current_read 0 buffer w).andThen fun buffer w =>
    (if progress then show_progress " # reading flash" "bytes" (i + bytes_for_current_read) len w
     else .ok () w).andThen fun _ w =>
    read_program_memory_chunks t word_addres len progress (i + bytes_for_current_read) high buffer w
  else .ok buffer w
termination_by len - i
decreasing_by
  simp only [buffer_size, page_size_in_bytes, instruction_size]
  split <;> omega

/-- `void read_program_memory(uint16_t word_addres, uint8_t buffer[], int len, bool progress)`;
the value returned is `buffer` as the function leaves it. -/
def read_program_memory {σ : Type} (t : Target σ) (word_addres : Nat) (buffer : List Nat)
    (len : Nat) (progress : Bool) (w : World σ) : Result σ (List Nat) :=
  read_program_memory_chunks t word_addres len progress 0 false buffer w

/-- `void erase_chip()` -/
def erase_chip {σ : Type} (t : Target σ) (w : World σ) : Result σ Unit :=
  (printf " # performing chip erase\n" [] w).andThen fun _ w =>
  (set_instruction 0 0xAC 0x80 0x00 0x00 w).andThen fun _ w =>
  (send_data t 4 w).andThen fun _ w =>
  delay t 10 w

/-- `void write_program_memory_page(int page_number)` -/
def write_program_memory_page {σ : Type} (t : Target σ) (page_number : Nat) (w : World σ) :
    Result σ Unit :=
  let hb := (page_number >>> 3) &&& 0xFF
  let lb := (page_number <<< 5) &&& 0xFF
  (set_instruction 0 0x4C hb lb 0x00 w).andThen fun _ w =>
  (send_data t 4 w).andThen fun _ w =>
  delay t 10 w

/-- `void write_fuse_bits(uint8_t value, bool high)` -/
def write_fuse_bits {σ : Type} (t : Target σ) (value : Nat) (high : Bool) (w : World σ) :
    Result σ Unit :=
  (set_instruction 0 0xAC (0xA0 ||| (b2n high <<< 3)) 0 value w).andThen fun _ w =>
  (send_data t 4 w).andThen fun _ w =>
  (printf (" # writting fuse " ++ (if high then "high" else "low") ++ ": 0x%.2X\n") [value] w).andThen
    fun _ w =>
  delay t 10 w

/-- The `for (int j = 0; j < bytes_for_current_page; j++)` of `write_flash`;
`k` counts the iterations still to run. -/
def write_flash_fill {σ : Type} (data : List Nat) (i : Nat) :
    Nat → Nat → Bool → World σ → Result σ Unit
  | 0, _, _, w => .ok () w
  | k + 1, j, high, w =>
      match data[i + j]? with
      | some d =>
          (set_instruction (j * 4) (0x40 ||| (b2n high <<< 3)) 0x00 (j / 2) d w).andThen
            fun _ w => write_flash_fill data i k (j + 1) (!high) w
      | none => .exit .out_of_bounds w

/-- The `for (int i = 0, page = 0; i < len;)` of `write_flash`, entered with
the current `i` and `page`. -/
def write_flash_pages {σ : Type} (t : Target σ) (data : List Nat) (len : Nat)
    (progress : Bool) (i page : Nat) (w : World σ) : Result σ Unit :=
  if _h : i < len then
    let bytes_for_current_page :=
      if len - i > page_size_in_bytes then page_size_in_bytes else len - i
    (write_flash_fill data i bytes_for_current_page 0 false w).andThen fun _ w =>
    (if progress then show_progress " # writting flash" "bytes" (i + bytes_for_current_page) len w
     else .ok () w).andThen fun _ w =>
    (send_data t (bytes_for_current_page * 4) w).andThen fun _ w =>
    (write_program_memory_page t page w).andThen fun _ w =>
    write_flash_pages t data len progress (i + page_size_in_bytes) (page + 1) w
  else .ok () w
termination_by len - i
decreasing_by
  simp only [page_size_in_bytes]
  omega

/-- `void write_flash(uint8_t data[], int len, bool progress)` -/
def write_flash {σ : Type} (t : Target σ) (data : List Nat) (len : Nat) (progress : Bool)
    (w : World σ) : Result σ Unit :=
  write_flash_pages t data len progress 0 0 w

/-- Modelled from the spec: `gpio_set` comes from `gpio.h`, which is not part of the source;
the spec has the transport adapter drive the reset line with `set_reset_pin(high: bool)` and
names no failure for it, so a call only leaves its pin and level in the trace. -/
def gpio_set {σ : Type} (pin : Int) (value : Nat) (w : World σ) : Result σ Unit :=
  .ok () { w with trace := w.trace ++ [Event.gpio pin value] }

/-- Modelled from the spec: `gpio_init_out` comes from `gpio.h`, which is not part of the
source; the spec counts "configuring a pin as output" among the simple I/O wrappers and names
no failure for it, so a call only leaves its pin in the trace. -/
def gpio_init_out {σ : Type} (pin : Int) (w : World σ) : Result σ Unit :=
  .ok () { w with trace := w.trace ++ [Event.gpio_init pin] }

/-- `void reset_short_pulse()`; the pin is `conn_params.reset_gpio_pin`. -/
def reset_short_pulse {σ : Type} (t : Target σ) (reset_gpio_pin : Int) (w : World σ) :
    Result σ Unit :=
  (gpio_set reset_gpio_pin 1 w).andThen fun _ w =>
  (delay t 100 w).andThen fun _ w =>
  gpio_set reset_gpio_pin 0 w

/-- What the operating system answers to the calls of `main` and
`write_flash_from_file` that do not go to the target: whether `open` of the SPI
device and each of the four configuration `ioctl`s succeed, the `st_size` that
`stat` reports for a path (`none` when `stat` fails) and the bytes `fopen` and
`fread` deliver for it (`none` when `fopen` fails). -/
structure Host where
  open_spi : Bool
  rd_mode : Bool
  wr_mode : Bool
  wr_max_speed : Bool
  rd_max_speed : Bool
  stat : String → Option Nat
  fopen : String → Option (List Nat)

/-- The loop `for (int i = 0; !feof(fileptr);) { int r = fread(file_data + i, 1, 1024, fileptr);
i += r; }` with `stream` the bytes of the file not read yet: one `fread` stores the next
`min 1024 stream.length` bytes from `file_data[i]` on and sets the end-of-file mark when
fewer than 1024 were left.  The value is `file_data` as the loop leaves it, `none` when a
byte would land outside the array.  Read errors are not modelled. -/
def write_flash_from_file_fread (stream : List Nat) (i : Nat) (file_data : List Nat) :
    Option (List Nat) :=
  let r := if stream.length < 1024 then stream.length else 1024
  if i + r ≤ file_data.length then
    let file_data := file_data.take i ++ stream.take r ++ file_data.drop (i + r)
    if stream.length < 1024 then some file_data
    else write_flash_from_file_fread (stream.drop 1024) (i + r) file_data
  else none
termination_by stream.length
decreasing_by
  simp only [List.length_drop]
  omega

/-- The loop `for (int i = 0; i < file_len; i++)` of `write_flash_from_file`; `k` counts the
iterations still to run, the value returned is `mismatch` as the loop leaves it. -/
def write_flash_from_file_compare {σ : Type} (file_data flash_data : List Nat) :
    Nat → Nat → Bool → World σ → Result σ Bool
  | 0, _, mismatch, w => .ok mismatch w
  | k + 1, i, mismatch, w =>
      match file_data[i]?, flash_data[i]? with
      | some expected, some got =>
          if expected ≠ got then
            (printf "data mismatch at byte %d: expected %.2X, got %.2X\n" [i, expected, got] w).andThen
              fun _ w => write_flash_from_file_compare file_data flash_data k (i + 1) true w
          else write_flash_from_file_compare file_data flash_data k (i + 1) mismatch w
      | _, _ => .exit .out_of_bounds w

/-- The verification pass that ends `write_flash_from_file`: the comparison loop and the
final `puts`. -/
def write_flash_from_file_verify {σ : Type} (file_data flash_data : List Nat) (file_len : Nat)
    (w : World σ) : Result σ Unit :=
  (write_flash_from_file_compare file_data flash_data file_len 0 false w).andThen fun mismatch w =>
  if mismatch then printf "flash programming faild: data mismatch\n" [] w
  else printf "flash programming OK!\n" [] w

/-- `void write_flash_from_file(const char *path)`.  The two local arrays are not
initialised in C; here they start filled with zeros. -/
def write_flash_from_file {σ : Type} (host : Host) (t : Target σ) (reset_gpio_pin : Int)
    (path : String) (w : World σ) : Result σ Unit :=
  match host.stat path with
  | none => print_error_end_exit .file_open_failed w
  | some file_len =>
      if file_len > flash_size then print_error_end_exit .file_too_large w
      else
        match host.fopen path with
        | none => print_error_end_exit .file_open_failed w
        | some stream =>
            match write_flash_from_file_fread stream 0 (List.replicate flash_size 0) with
            | none => .exit .out_of_bounds w
            | some file_data =>
                (erase_chip t w).andThen fun _ w =>
                (write_flash t file_data file_len true w).andThen fun _ w =>
                (reset_short_pulse t reset_gpio_pin w).andThen fun _ w =>
                (enable_programming t w).andThen fun _ w =>
                (read_program_memory t 0 (List.replicate flash_size 0) file_len true w).andThen
                  fun flash_data w =>
                write_flash_from_file_verify file_data flash_data file_len w

/-- `OP_WRITE_FUSE_LOW = 1` -/
def OP_WRITE_FUSE_LOW : Nat := 1

/-- `OP_WRITE_FUSE_HIGH = 2` -/
def OP_WRITE_FUSE_HIGH : Nat := 2

/-- `OP_WRITE_FLASH = 4` -/
def OP_WRITE_FLASH : Nat := 4

/-- The fields of `op_params` and `conn_params` that `main` reads after `parse_cmd_line`
has returned. -/
structure Params where
  enabled_operations_bitset : Nat
  fuse_low : Nat
  fuse_high : Nat
  flash_file : String
  reset_gpio_pin : Int

/-- `int main(int argc, char ** argv)` from the return of `parse_cmd_line` on. -/
def main {σ : Type} (params : Params) (host : Host) (t : Target σ) (w : World σ) :
    Result σ Int :=
  (gpio_init_out params.reset_gpio_pin w).andThen fun _ w =>
  if host.open_spi = false then .exit .spi_open_failed w
  else if host.rd_mode = false then print_error_end_exit .spi_read_mode_failed w
  else if host.wr_mode = false then print_error_end_exit .spi_write_mode_failed w
  else if host.wr_max_speed = false then print_error_end_exit .spi_write_speed_failed w
  else if host.rd_max_speed = false then print_error_end_exit .spi_read_speed_failed w
  else
  (reset_short_pulse t params.reset_gpio_pin w).andThen fun _ w =>
  (enable_programming t w).andThen fun _ w =>
  (check_signature t w).andThen fun _ w =>
  (read_fuse_bits t false w).andThen fun lfuse w =>
  (read_fuse_bits t true w).andThen fun hfuse w =>
  (printf "fuses: h:0x%.2X  l:0x%.2X \n" [hfuse, lfuse] w).andThen fun _ w =>
  (if params.enabled_operations_bitset &&& OP_WRITE_FUSE_LOW ≠ 0 then
      write_fuse_bits t params.fuse_low false w
    else .ok () w).andThen fun _ w =>
  (if params.enabled_operations_bitset &&& OP_WRITE_FUSE_HIGH ≠ 0 then
      write_fuse_bits t params.fuse_high true w
    else .ok () w).andThen fun _ w =>
  (if params.enabled_operations_bitset &&& OP_WRITE_FLASH ≠ 0 then
      write_flash_from_file host t params.reset_gpio_pin params.flash_file w
    else .ok () w).andThen fun _ w =>
  (reset_short_pulse t params.reset_gpio_pin w).andThen fun _ w =>
  (gpio_set params.reset_gpio_pin 1 w).andThen fun _ w =>
  .ok 0 w

/-! ## Observing a run -/

/-- How a run ended: `none` when the function returned, `some e` when the
process ended with `e`. -/
def Result.error {σ α : Type} : Result σ α → Option Err
  | .ok _ _ => none
  | .exit e _ => some e

/-- The SPI transfers of a trace, oldest first: bytes sent and bytes received. -/
def transfers : List Event → List (List Nat × List Nat)
  | [] => []
  | Event.transfer tx rx :: es => (tx, rx) :: transfers es
  | Event.delay _ :: es => transfers es
  | Event.gpio _ _ :: es => transfers es
  | Event.print _ _ :: es => transfers es
  | Event.gpio_init _ :: es => transfers es

/-- The transfers a run added to the trace of the world `w` it started from. -/
def issued {σ α : Type} (w : World σ) (r : Result σ α) : List (List Nat × List Nat) :=
  (transfers r.world.trace).drop (transfers w.trace).length

/-- The byte sequences a run sent, one per transfer, in order. -/
def sent {σ α : Type} (w : World σ) (r : Result σ α) : List (List Nat) :=
  (issued w r).map Prod.fst

/-- The bytes of one transfer cut into 4-byte frames. -/
def frames : List Nat → List (List Nat)
  | a :: b :: c :: d :: rest => [a, b, c, d] :: frames rest
  | _ => []

/-- All the 4-byte instruction frames a run sent, in order. -/
def instructions {σ α : Type} (w : World σ) (r : Result σ α) : List (List Nat) :=
  (sent w r).flatMap frames

/-- The frame that starts at byte `4 * j` of a buffer. -/
def frame_at (buf : Nat → Nat) (j : Nat) : List Nat :=
  [buf (4 * j), buf (4 * j + 1), buf (4 * j + 2), buf (4 * j + 3)]

/-- A target that answers every transfer and never fails to sleep. -/
def Target.reliable {σ : Type} (t : Target σ) : Prop :=
  (∀ s tx, (t.transfer s tx).isSome = true) ∧ ∀ s ms, (t.sleep s ms).isSome = true

/-- A caller's buffer holds `uint8_t` values. -/
def is_bytes (data : List Nat) : Prop := ∀ b ∈ data, b < 256

/-- The events a run added to the trace of the world `w` it started from. -/
def added {σ α : Type} (w : World σ) (r : Result σ α) : List Event :=
  r.world.trace.drop w.trace.length

/-- A run from `w` that only appended events satisfying `P` to the trace, ended the process
only with an error satisfying `E` and, if it returned, returned a value satisfying `Q`. -/
def Run {σ α : Type} (P : Event → Prop) (E : Err → Prop) (Q : α → Prop) (w : World σ)
    (r : Result σ α) : Prop :=
  (∃ evs, r.world.trace = w.trace ++ evs ∧ ∀ e ∈ evs, P e) ∧
    (∀ e, r.error = some e → E e) ∧ ∀ a w1, r = .ok a w1 → Q a

/-- A property of errors that holds of the four errors of the bus functions: a failed
wait, a failed transfer, a failed handshake, a wrong signature. -/
def BusErr (E : Err → Prop) : Prop :=
  E Err.sleep_error ∧ E Err.sending_failed ∧ E Err.handshake ∧ E Err.signature_mismatch

/-- A transfer fits the transfer buffer and is made of whole 4-byte instructions; other
events are not concerned. -/
def fits : Event → Prop
  | Event.transfer tx _ => tx.length ≤ buffer_size ∧ tx.length % instruction_size = 0
  | _ => True

/-- A property of events that holds of every wait, every printed line and every transfer
that fits the transfer buffer with whole instructions. -/
def BusOnly (P : Event → Prop) : Prop :=
  (∀ ms, P (Event.delay ms)) ∧ (∀ text args, P (Event.print text args)) ∧
    ∀ tx rx, tx.length ≤ buffer_size → tx.length % instruction_size = 0 → P (Event.transfer tx rx)

/-- An event that does not touch the reset line. -/
def quiet : Event → Prop
  | Event.gpio _ _ => False
  | Event.gpio_init _ => False
  | _ => True

/-- Where a programming session stands: `fresh` from the start and from every change of the
reset line until an enable-programming handshake succeeds, `enabled` from then on. -/
inductive Phase
  | fresh
  | enabled
  deriving DecidableEq, Repr

/-- One event of a session that keeps to the order reset, enable, commands: `none` when the
event is a transfer sent in phase `fresh` that is not the enable-programming frame on its
own.  A handshake succeeds when byte 2 of the response is `0x53`. -/
def protocol_step : Phase → Event → Option Phase
  | _, Event.gpio _ _ => some Phase.fresh
  | _, Event.gpio_init _ => some Phase.fresh
  | p, Event.delay _ => some p
  | p, Event.print _ _ => some p
  | Phase.enabled, Event.transfer _ _ => some Phase.enabled
  | Phase.fresh, Event.transfer tx rx =>
      if tx = [0xAC, 0x53, 0x00, 0x00] then
        (if rx.getD 2 0 = 0x53 then some Phase.enabled else some Phase.fresh)
      else none

/-- The phase a sequence of events leads to, `none` if one of them breaks the order. -/
def protocol : Phase → List Event → Option Phase
  | p, [] => some p
  | p, e :: es => (protocol_step p e).bind (fun q => protocol q es)

/-- A run from `w` whose added events keep to the protocol from phase `p` on and, if the run
returned, lead to phase `q`. -/
def Obeys {σ α : Type} (p q : Phase) (w : World σ) (r : Result σ α) : Prop :=
  ∃ evs, r.world.trace = w.trace ++ evs ∧ (protocol p evs).isSome = true ∧
    (r.error = none → protocol p evs = some q)

/-- A target on which no handshake fails: whenever it answers the enable-programming
frame, byte 2 of the answer is `0x53`. -/
def Target.acks {σ : Type} (t : Target σ) : Prop :=
  ∀ s d rx, t.transfer s [0xAC, 0x53, 0x00, 0x00] = some (d, rx) → rx.getD 2 0 % 256 = 0x53

/-- A target that answers the three read-signature frames with the signature of the
ATmega8. -/
def Target.signed {σ : Type} (t : Target σ) : Prop :=
  (∀ s d rx, t.transfer s [0x30, 0x00, 0x00, 0x00] = some (d, rx) → rx.getD 3 0 % 256 = 0x1E) ∧
  (∀ s d rx, t.transfer s [0x30, 0x00, 0x01, 0x00] = some (d, rx) → rx.getD 3 0 % 256 = 0x93) ∧
  (∀ s d rx, t.transfer s [0x30, 0x00, 0x02, 0x00] = some (d, rx) → rx.getD 3 0 % 256 = 0x07)

/-! ## Test targets -/

/-- A target that answers the successive transfers with the given responses,
whatever is sent, and fails once they are used up. -/
def scripted : Target (List (List Nat)) where
  transfer := fun s _ =>
    match s with
    | [] => none
    | r :: rest => some (rest, r)
  sleep := fun s _ => some s

/-- The scripted target about to give the first of `responses`, before the program has run. -/
def script (responses : List (List Nat)) : World (List (List Nat)) :=
  { tx_buf := fun _ => 0, rx_buf := fun _ => 0, dev := responses, trace := [] }

/-- State of the simulated ATmega8: the flash, byte by byte, and the
temporary page buffer (`none` where nothing was loaded since the last commit). -/
structure Sim where
  flash : Nat → Nat
  page_buf : Nat → Option Nat

/-- One instruction on the simulated target: the new state and the 4th byte of
the response.  `0x40`/`0x48` load the low/high byte of a word of the page
buffer, `0x4C` stores the loaded bytes into the page of the given word address,
`0x20`/`0x28` read the low/high byte of a flash word; word addresses have the
12 bits of a 4096-word flash. -/
def sim_instruction (s : Sim) (b1 b2 b3 b4 : Nat) : Sim × Nat :=
  if b1 = 0x40 then
    ({ s with page_buf := fun a => if a = 2 * (b3 % 32) then some b4 else s.page_buf a }, 0)
  else if b1 = 0x48 then
    ({ s with page_buf := fun a => if a = 2 * (b3 % 32) + 1 then some b4 else s.page_buf a }, 0)
  else if b1 = 0x4C then
    let page := ((b2 * 256 + b3) % 4096) / 32
    ({ flash := fun a => if a / 64 = page then (s.page_buf (a % 64)).getD (s.flash a) else s.flash a,
       page_buf := fun _ => none }, 0)
  else if b1 = 0x20 then (s, s.flash (2 * ((b2 * 256 + b3) % 4096)))
  else if b1 = 0x28 then (s, s.flash (2 * ((b2 * 256 + b3) % 4096) + 1))
  else (s, 0)

/-- One transfer on the simulated target: the frames are executed in order;
the response to a frame repeats its first two bytes after a zero byte, as SPI
does, and ends with the result of the instruction. -/
def sim_transfer : Sim → List Nat → Sim × List Nat
  | s, b1 :: b2 :: b3 :: b4 :: rest =>
      let r := sim_instruction s b1 b2 b3 b4
      let rs := sim_transfer r.1 rest
      (rs.1, 0 :: b1 :: b2 :: r.2 :: rs.2)
  | s, rest => (s, rest.map (fun _ => 0))

/-- The simulated ATmega8 as a target. -/
def sim : Target Sim where
  transfer := fun s tx => some (sim_transfer s tx)
  sleep := fun s _ => some s

/-- The answer of the blank target to one transfer: frame by frame, a zero byte, the first
two bytes of the frame and then the signature byte asked for by `0x30`, `0xFF` for every
other instruction. -/
def blank_transfer : List Nat → List Nat
  | b1 :: b2 :: b3 :: _ :: rest =>
      0 :: b1 :: b2 ::
        (if b1 = 0x30 then (if b3 = 0 then 0x1E else if b3 = 1 then 0x93 else 0x07) else 0xFF) ::
        blank_transfer rest
  | rest => rest.map (fun _ => 0)

/-- An ATmega8 whose flash reads `0xFF` whatever was written to it. -/
def blank : Target Unit where
  transfer := fun s tx => some (s, blank_transfer tx)
  sleep := fun s _ => some s

/-- The blank target before the program has run. -/
def blank0 : World Unit :=
  { tx_buf := fun _ => 0, rx_buf := fun _ => 0, dev := (), trace := [] }

/-- A host on which every call succeeds and the only file, `image.bin`, holds `image`. -/
def host_with (image : List Nat) : Host where
  open_spi := true
  rd_mode := true
  wr_mode := true
  wr_max_speed := true
  rd_max_speed := true
  stat := fun path => if path = "image.bin" then some image.length else none
  fopen := fun path => if path = "image.bin" then some image else none

/-! ## Buffers and transfers the proofs refer to -/

/-- The buffer after the four stores of `set_instruction`. -/
def put4 (buf : Nat → Nat) (offset b1 b2 b3 b4 : Nat) : Nat → Nat := fun k =>
  if k = offset + 3 then b4 % 256
  else if k = offset + 2 then b3 % 256
  else if k = offset + 1 then b2 % 256
  else if k = offset + 0 then b1 % 256
  else buf k

/-- The load instruction `write_flash` is expected to build for byte `m` of the
page that starts at byte `i` of `data`. -/
def load_frame (data : List Nat) (i m : Nat) : List Nat :=
  [if m % 2 = 0 then 0x40 else 0x48, 0x00, m / 2, data.getD (i + m) 0 % 256]

/-- The bytes of the load transfer of a page of `n` bytes that starts at byte `i`. -/
def load_tx (data : List Nat) (i n : Nat) : List Nat :=
  (List.range n).flatMap (load_frame data i)

/-- The bytes of the page-commit transfer of `write_program_memory_page`. -/
def commit_frame (page : Nat) : List Nat :=
  [0x4C, (page >>> 3) &&& 0xFF, (page <<< 5) &&& 0xFF, 0x00]

/-- The read instruction `read_program_memory` is expected to build for the
byte at offset `x`. -/
def read_frame (word_addres x : Nat) : List Nat :=
  [if x % 2 = 0 then 0x20 else 0x28, ((word_addres + x / 2) % 65536) >>> 8,
   ((word_addres + x / 2) % 65536) &&& 0xFF, 0x00]

/-- The bytes of the read transfer of a chunk of `n` bytes that starts at byte `i`. -/
def read_tx (word_addres i n : Nat) : List Nat :=
  (List.range n).flatMap (fun m => read_frame word_addres (i + m))

/-- A simulated target with erased flash, before the program has run. -/
def sim0 : World Sim :=
  { tx_buf := fun _ => 0, rx_buf := fun _ => 0,
    dev := { flash := fun _ => 0xFF, page_buf := fun _ => none }, trace := [] }

/-! ## Lemmas -/

section Basics

variable {σ : Type}

theorem transfers_append (xs ys : List Event) :
    transfers (xs ++ ys) = transfers xs ++ transfers ys := by
  induction xs with
  | nil => rfl
  | cons e es ih => cases e <;> simp [transfers, ih]

theorem set_instruction_ok (offset b1 b2 b3 b4 : Nat) (w : World σ) (h : offset + 3 < 256) :
    set_instruction offset b1 b2 b3 b4 w =
      .ok () { w with tx_buf := (fun k =>
        if k = offset + 3 then b4 % 256
        else if k = offset + 2 then b3 % 256
        else if k = offset + 1 then b2 % 256
        else if k = offset + 0 then b1 % 256
        else w.tx_buf k) } := by
  simp [set_instruction, buffer_size, page_size_in_bytes, instruction_size, h]


theorem range4 (f : Nat → Nat) : (List.range 4).map f = [f 0, f 1, f 2, f 3] := by
  simp [List.range_succ]

theorem send_data_some (t : Target σ) (len : Nat) (w : World σ) (d : σ) (rx : List Nat)
    (hlen : len ≤ 256)
    (h : t.transfer w.dev ((List.range len).map w.tx_buf) = some (d, rx)) :
    send_data t len w = .ok () { w with
          rx_buf := fun k => if k < len then (received len rx).getD k 0 else w.rx_buf k,
          dev := d,
          trace := w.trace ++ [Event.transfer ((List.range len).map w.tx_buf) (received len rx)] } := by
  simp [send_data, buffer_size, page_size_in_bytes, instruction_size, hlen, h]

theorem read_signature_byte_some (t : Target σ) (addr : Nat) (w : World σ) (d : σ)
    (rx : List Nat) (ha : addr < 256)
    (h : t.transfer w.dev [0x30, 0x00, addr, 0x00] = some (d, rx)) :
    ∃ w1, read_signature_byte t addr w = .ok ((received 4 rx).getD 3 0) w1 ∧ w1.dev = d ∧
      w1.trace = w.trace ++ [Event.transfer [0x30, 0x00, addr, 0x00] (received 4 rx)] := by
  have hm : addr % 256 = addr := Nat.mod_eq_of_lt ha
  have hs := send_data_some t 4 { w with tx_buf := (fun k =>
        if k = 0 + 3 then 0x00 % 256
        else if k = 0 + 2 then addr % 256
        else if k = 0 + 1 then 0x00 % 256
        else if k = 0 + 0 then 0x30 % 256
        else w.tx_buf k) } d rx (by norm_num) (by simpa [range4, hm] using h)
  simp only [read_signature_byte, set_instruction_ok 0 _ _ _ _ w (by norm_num), Result.andThen, hs]
  refine ⟨_, rfl, rfl, ?_⟩
  simp [range4, hm]

theorem and_255 (x : Nat) : x &&& 0xFF = x % 256 :=
  Nat.and_pow_two_sub_one_eq_mod x 8

theorem shr_8 (x : Nat) : x >>> 8 = x / 256 :=
  Nat.shiftRight_eq_div_pow x 8

theorem load_op (j : Nat) :
    (0x40 ||| (b2n (decide (j % 2 = 1)) <<< 3)) % 256 = if j % 2 = 0 then 0x40 else 0x48 := by
  rcases Nat.mod_two_eq_zero_or_one j with h | h <;> simp [h, b2n]

theorem read_op (j : Nat) :
    (0x20 ||| (b2n (decide (j % 2 = 1)) <<< 3)) % 256 = if j % 2 = 0 then 0x20 else 0x28 := by
  rcases Nat.mod_two_eq_zero_or_one j with h | h <;> simp [h, b2n]

theorem parity_succ (j : Nat) : (!decide (j % 2 = 1)) = decide ((j + 1) % 2 = 1) := by
  rcases Nat.mod_two_eq_zero_or_one j with h | h <;> simp [h, Nat.add_mod]


theorem set_instruction_put4 (offset b1 b2 b3 b4 : Nat) (w : World σ) (h : offset + 3 < 256) :
    set_instruction offset b1 b2 b3 b4 w =
      .ok () { w with tx_buf := put4 w.tx_buf offset b1 b2 b3 b4 } :=
  set_instruction_ok offset b1 b2 b3 b4 w h

theorem put4_below (buf : Nat → Nat) (offset b1 b2 b3 b4 x : Nat) (h : x < offset) :
    put4 buf offset b1 b2 b3 b4 x = buf x := by
  unfold put4
  split_ifs <;> first | rfl | omega

theorem frame_at_put4 (buf : Nat → Nat) (j b1 b2 b3 b4 : Nat) :
    frame_at (put4 buf (j * 4) b1 b2 b3 b4) j = [b1 % 256, b2 % 256, b3 % 256, b4 % 256] := by
  simp [frame_at, put4, Nat.mul_comm 4 j]

theorem frame_at_congr (f g : Nat → Nat) (j : Nat) (h : ∀ x, x < 4 * (j + 1) → f x = g x) :
    frame_at f j = frame_at g j := by
  simp only [frame_at]
  rw [h (4 * j) (by omega), h (4 * j + 1) (by omega), h (4 * j + 2) (by omega),
    h (4 * j + 3) (by omega)]

theorem write_flash_fill_ok (data : List Nat) (i k : Nat) :
    ∀ (j : Nat) (w : World σ), j + k ≤ 64 → i + j + k ≤ data.length →
    ∃ tb : Nat → Nat,
      write_flash_fill data i k j (decide (j % 2 = 1)) w = .ok () { w with tx_buf := tb } ∧
      (∀ x, x < 4 * j → tb x = w.tx_buf x) ∧
      (∀ m, m < k → frame_at tb (j + m) =
         [if (j + m) % 2 = 0 then 0x40 else 0x48, 0, (j + m) / 2,
          data.getD (i + j + m) 0 % 256]) := by
  induction k with
  | zero =>
      intro j w _ _
      exact ⟨w.tx_buf, rfl, fun _ _ => rfl, fun m hm => absurd hm (Nat.not_lt_zero m)⟩
  | succ k ih =>
      intro j w hj hd
      have hlt : i + j < data.length := by omega
      have hget : data[i + j]? = some (data.getD (i + j) 0) := by
        simp [List.getD, List.getElem?_eq_getElem hlt]
      obtain ⟨tb, he, hlow, hfr⟩ := ih (j + 1)
        { w with tx_buf := (put4 w.tx_buf (j * 4) (0x40 ||| (b2n (decide (j % 2 = 1)) <<< 3)) 0x00
            (j / 2) (data.getD (i + j) 0)) } (by omega) (by omega)
      dsimp only at he hlow
      refine ⟨tb, ?_, ?_, ?_⟩
      · simp only [write_flash_fill, hget, set_instruction_put4 (j * 4) _ _ _ _ w (by omega),
          Result.andThen, parity_succ]
        exact he
      · intro x hx
        rw [hlow x (by omega), put4_below _ _ _ _ _ _ _ (by omega)]
      · intro m hm
        cases m with
        | zero =>
            have hdiv : j / 2 % 256 = j / 2 := Nat.mod_eq_of_lt (by omega)
            rw [Nat.add_zero, Nat.add_zero, frame_at_congr tb _ j hlow, frame_at_put4, load_op, hdiv]
        | succ m =>
            have := hfr m (by omega)
            have e : j + (m + 1) = j + 1 + m := by omega
            have e2 : i + j + (m + 1) = i + (j + 1) + m := by omega
            rw [e, e2]
            exact this


theorem sent_frames (tb : Nat → Nat) (f : Nat → List Nat) (n : Nat)
    (h : ∀ m, m < n → frame_at tb m = f m) :
    (List.range (n * 4)).map tb = (List.range n).flatMap f := by
  induction n with
  | zero => simp
  | succ n ih =>
      have e : (n + 1) * 4 = n * 4 + 1 + 1 + 1 + 1 := by omega
      rw [e, List.range_succ, List.range_succ, List.range_succ, List.range_succ, List.range_succ,
        List.flatMap_append]
      simp only [List.map_append, List.append_assoc, List.map_cons, List.map_nil,
        List.flatMap_cons, List.flatMap_nil, List.append_nil]
      rw [ih (fun m hm => h m (by omega)), ← h n (by omega)]
      simp [frame_at, Nat.mul_comm 4 n]

theorem frames_flatMap (f : Nat → List Nat) (l : List Nat) (h : ∀ m, (f m).length = 4) :
    frames (l.flatMap f) = l.map f := by
  induction l with
  | nil => rfl
  | cons a l ih =>
      have h4 := h a
      rcases hf : f a with _ | ⟨x0, _ | ⟨x1, _ | ⟨x2, _ | ⟨x3, _ | ⟨x4, r⟩⟩⟩⟩⟩ <;>
        rw [hf] at h4 <;> simp at h4
      simp [List.flatMap_cons, hf, frames, ih]

theorem show_progress_ok (message units : String) (count limit : Nat) (w : World σ) :
    ∃ evs, show_progress message units count limit w = .ok () { w with trace := w.trace ++ evs } ∧
      transfers evs = [] := by
  unfold show_progress
  by_cases h : count = limit
  · exact ⟨[Event.print "\r" [], Event.print (message ++ " \t%d/%d " ++ units ++ " ") [count, limit],
      Event.print "\n" []], by simp [printf, Result.andThen, h], rfl⟩
  · exact ⟨[Event.print "\r" [], Event.print (message ++ " \t%d/%d " ++ units ++ " ") [count, limit]],
      by simp [printf, Result.andThen, h], rfl⟩

theorem delay_some (t : Target σ) (ms : Nat) (w : World σ) (d : σ) (h : t.sleep w.dev ms = some d) :
    delay t ms w = .ok () { w with dev := d, trace := w.trace ++ [Event.delay ms] } := by
  simp [delay, h]

theorem commit_bytes (page : Nat) :
    ((page >>> 3) &&& 0xFF) % 256 = (page >>> 3) &&& 0xFF ∧
      ((page <<< 5) &&& 0xFF) % 256 = (page <<< 5) &&& 0xFF := by
  simp only [and_255, Nat.mod_mod]
  exact ⟨trivial, trivial⟩

theorem write_program_memory_page_some (t : Target σ) (page : Nat) (w : World σ) (d1 d2 : σ)
    (rx : List Nat)
    (h1 : t.transfer w.dev [0x4C, (page >>> 3) &&& 0xFF, (page <<< 5) &&& 0xFF, 0x00] = some (d1, rx))
    (h2 : t.sleep d1 10 = some d2) :
    ∃ w1, write_program_memory_page t page w = .ok () w1 ∧ w1.dev = d2 ∧
      w1.trace = w.trace ++
        [Event.transfer [0x4C, (page >>> 3) &&& 0xFF, (page <<< 5) &&& 0xFF, 0x00] (received 4 rx),
         Event.delay 10] := by
  have hs := send_data_some t 4
    { w with tx_buf := put4 w.tx_buf 0 0x4C ((page >>> 3) &&& 0xFF) ((page <<< 5) &&& 0xFF) 0x00 }
    d1 rx (by norm_num)
    (by simpa [range4, put4, (commit_bytes page).1, (commit_bytes page).2] using h1)
  simp only [write_program_memory_page, set_instruction_put4 0 _ _ _ _ w (by norm_num),
    Result.andThen, hs]
  rw [delay_some t 10 _ d2 h2]
  refine ⟨_, rfl, rfl, ?_⟩
  simp [range4, put4, (commit_bytes page).1, (commit_bytes page).2]


theorem write_flash_pages_step (t : Target σ) (hrel : t.reliable) (data : List Nat)
    (len : Nat) (progress : Bool) (i page : Nat) (w : World σ) (h : i < len)
    (hd : len ≤ data.length) :
    ∃ (w1 : World σ) (d1 : σ) (rx1 : List Nat) (d2 : σ) (rx2 : List Nat),
      t.transfer w.dev (load_tx data i (min (len - i) 64)) = some (d1, rx1) ∧
      t.transfer d1 (commit_frame page) = some (d2, rx2) ∧
      t.sleep d2 10 = some w1.dev ∧
      transfers w1.trace = transfers w.trace ++
        [(load_tx data i (min (len - i) 64), received (min (len - i) 64 * 4) rx1),
         (commit_frame page, received 4 rx2)] ∧
      write_flash_pages t data len progress i page w =
        write_flash_pages t data len progress (i + 64) (page + 1) w1 := by
  have hn : (if len - i > page_size_in_bytes then page_size_in_bytes else len - i)
      = min (len - i) 64 := by
    simp only [page_size_in_bytes]; split <;> omega
  generalize hnn : min (len - i) 64 = n at hn
  have hn64 : n ≤ 64 := by omega
  have hin : i + n ≤ data.length := by omega
  -- the load instructions
  obtain ⟨tb, hfill, -, hfr⟩ := write_flash_fill_ok data i n 0 w (by omega) (by omega)
  have hsent : (List.range (n * 4)).map tb = load_tx data i n :=
    sent_frames tb (load_frame data i) n (fun m hm => by
      have := hfr m hm
      simpa [load_frame, Nat.add_assoc] using this)
  -- the progress line
  obtain ⟨evs, hprog, hevs⟩ : ∃ evs,
      (if progress then show_progress " # writting flash" "bytes" (i + n) len
          ({ w with tx_buf := tb } : World σ)
        else .ok () { w with tx_buf := tb }) =
        .ok () { w with tx_buf := tb, trace := w.trace ++ evs } ∧ transfers evs = [] := by
    cases progress with
    | true => exact show_progress_ok _ _ _ _ _
    | false => exact ⟨[], by simp, rfl⟩
  -- the two transfers and the wait
  obtain ⟨⟨d1, rx1⟩, h1⟩ := Option.isSome_iff_exists.mp (hrel.1 w.dev (load_tx data i n))
  obtain ⟨⟨d2, rx2⟩, h2⟩ := Option.isSome_iff_exists.mp (hrel.1 d1 (commit_frame page))
  obtain ⟨d3, h3⟩ := Option.isSome_iff_exists.mp (hrel.2 d2 10)
  obtain ⟨w2, hsend, hdev2, htrace2⟩ : ∃ w2 : World σ,
      send_data t (n * 4) { w with tx_buf := tb, trace := w.trace ++ evs } = .ok () w2 ∧
        w2.dev = d1 ∧ w2.trace = w.trace ++ evs ++
          [Event.transfer (load_tx data i n) (received (n * 4) rx1)] :=
    ⟨_, send_data_some t (n * 4) { w with tx_buf := tb, trace := w.trace ++ evs } d1 rx1
      (by omega) (by rw [hsent]; exact h1), rfl, by rw [← hsent]⟩
  obtain ⟨w1, hcommit, hdev, htrace⟩ := write_program_memory_page_some t page w2 d2 d3 rx2
    (by rw [hdev2]; exact h2) h3
  refine ⟨w1, d1, rx1, d2, rx2, h1, h2, hdev ▸ h3, ?_, ?_⟩
  · rw [htrace, htrace2]
    simp [transfers_append, transfers, hevs, commit_frame]
  · rw [write_flash_pages]
    simp only [h, dite_true, hn]
    simp only [Nat.zero_mod, show decide ((0 : Nat) = 1) = false from rfl] at hfill
    rw [hfill]
    simp only [Result.andThen]
    rw [hprog]
    simp only []
    rw [hsend]
    simp only []
    rw [hcommit]
    simp only [page_size_in_bytes]

theorem write_flash_pages_done (t : Target σ) (data : List Nat) (len : Nat) (progress : Bool)
    (i page : Nat) (w : World σ) (h : len ≤ i) :
    write_flash_pages t data len progress i page w = .ok () w := by
  rw [write_flash_pages]
  simp [Nat.not_lt.mpr h]


theorem range_flatMap_succ {β : Type} (f : Nat → List β) (n : Nat) :
    (List.range (n + 1)).flatMap f = f 0 ++ (List.range n).flatMap (fun q => f (q + 1)) := by
  rw [List.range_succ_eq_map, List.flatMap_cons]
  congr 1
  induction (List.range n) with
  | nil => rfl
  | cons a l ih => simp [List.flatMap_cons, ih]

theorem write_flash_pages_run (t : Target σ) (hrel : t.reliable) (data : List Nat) (len : Nat)
    (progress : Bool) (hd : len ≤ data.length) :
    ∀ (n i page : Nat) (w : World σ), (len - i + 63) / 64 = n →
    ∃ w1, write_flash_pages t data len progress i page w = .ok () w1 ∧
      (transfers w1.trace).map Prod.fst = (transfers w.trace).map Prod.fst ++
        (List.range n).flatMap (fun q =>
          [load_tx data (i + 64 * q) (min (len - (i + 64 * q)) 64), commit_frame (page + q)]) := by
  intro n
  induction n with
  | zero =>
      intro i page w hn
      exact ⟨w, write_flash_pages_done t data len progress i page w (by omega), by simp⟩
  | succ n ih =>
      intro i page w hn
      have hi : i < len := by omega
      obtain ⟨w1, d1, rx1, d2, rx2, -, -, -, htr, hstep⟩ :=
        write_flash_pages_step t hrel data len progress i page w hi hd
      obtain ⟨w2, hrun, htr2⟩ := ih (i + 64) (page + 1) w1 (by omega)
      refine ⟨w2, by rw [hstep, hrun], ?_⟩
      have e1 : ∀ q, i + 64 + 64 * q = i + 64 * (q + 1) := fun q => by omega
      have e2 : ∀ q, page + 1 + q = page + (q + 1) := fun q => by omega
      simp only [e1, e2] at htr2
      rw [htr2, htr, range_flatMap_succ]
      simp


theorem sent_of_transfers {α : Type} (w : World σ) (r : Result σ α) (xs : List (List Nat))
    (h : (transfers r.world.trace).map Prod.fst = (transfers w.trace).map Prod.fst ++ xs) :
    sent w r = xs := by
  have hl : ((transfers w.trace).map Prod.fst).length = (transfers w.trace).length := by simp
  rw [sent, issued, List.map_drop, h, ← hl, List.drop_left]

theorem write_flash_sent (t : Target σ) (hrel : t.reliable) (data : List Nat) (len : Nat)
    (progress : Bool) (w : World σ) (hd : len ≤ data.length) :
    (write_flash t data len progress w).error = none ∧
      sent w (write_flash t data len progress w) =
        (List.range ((len + 63) / 64)).flatMap (fun q =>
          [load_tx data (64 * q) (min (len - 64 * q) 64), commit_frame q]) := by
  obtain ⟨w1, hrun, htr⟩ :=
    write_flash_pages_run t hrel data len progress hd ((len + 63) / 64) 0 0 w (by simp)
  simp only [Nat.zero_add] at htr
  unfold write_flash
  rw [hrun]
  exact ⟨rfl, sent_of_transfers w _ _ htr⟩

theorem pairs_length {β : Type} (f g : Nat → β) (n : Nat) :
    ((List.range n).flatMap (fun q => [f q, g q])).length = 2 * n := by
  induction n with
  | zero => rfl
  | succ n ih =>
      rw [List.range_succ, List.flatMap_append, List.length_append, ih]
      simp
      omega

theorem pairs_getElem {β : Type} (f g : Nat → β) (n p : Nat) (hp : p < n) :
    ((List.range n).flatMap (fun q => [f q, g q]))[2 * p]? = some (f p) ∧
      ((List.range n).flatMap (fun q => [f q, g q]))[2 * p + 1]? = some (g p) := by
  induction n with
  | zero => omega
  | succ n ih =>
      rw [List.range_succ, List.flatMap_append]
      by_cases hpn : p < n
      · obtain ⟨h1, h2⟩ := ih hpn
        have hl := pairs_length f g n
        rw [List.getElem?_append_left (by omega), List.getElem?_append_left (by omega)]
        exact ⟨h1, h2⟩
      · have hpe : p = n := by omega
        subst hpe
        have hl := pairs_length f g p
        rw [List.getElem?_append_right (by omega), List.getElem?_append_right (by omega), hl]
        simp


theorem read_frame_bytes (word_addres x : Nat) :
    [(0x20 ||| (b2n (decide (x % 2 = 1)) <<< 3)) % 256,
      (((word_addres + x / 2) % 65536) >>> 8) % 256,
      (((word_addres + x / 2) % 65536) &&& 0xFF) % 256, 0x00 % 256] = read_frame word_addres x := by
  have h : (word_addres + x / 2) % 65536 < 65536 := Nat.mod_lt _ (by norm_num)
  have h1 : (((word_addres + x / 2) % 65536) >>> 8) % 256 = ((word_addres + x / 2) % 65536) >>> 8 := by
    rw [shr_8]; exact Nat.mod_eq_of_lt (by omega)
  have h2 : (((word_addres + x / 2) % 65536) &&& 0xFF) % 256
      = ((word_addres + x / 2) % 65536) &&& 0xFF := by
    rw [and_255]; exact Nat.mod_mod _ _
  rw [read_op, h1, h2, read_frame]

theorem read_program_memory_fill_ok (word_addres i k : Nat) :
    ∀ (j : Nat) (w : World σ), j + k ≤ 64 →
    ∃ tb : Nat → Nat,
      read_program_memory_fill word_addres i k j (decide ((i + j) % 2 = 1)) w =
        .ok (decide ((i + j + k) % 2 = 1)) { w with tx_buf := tb } ∧
      (∀ x, x < 4 * j → tb x = w.tx_buf x) ∧
      (∀ m, m < k → frame_at tb (j + m) = read_frame word_addres (i + j + m)) := by
  induction k with
  | zero =>
      intro j w _
      exact ⟨w.tx_buf, rfl, fun _ _ => rfl, fun m hm => absurd hm (Nat.not_lt_zero m)⟩
  | succ k ih =>
      intro j w hj
      obtain ⟨tb, he, hlow, hfr⟩ := ih (j + 1)
        { w with tx_buf := (put4 w.tx_buf (j * 4) (0x20 ||| (b2n (decide ((i + j) % 2 = 1)) <<< 3))
            (((word_addres + (i + j) / 2) % 65536) >>> 8)
            (((word_addres + (i + j) / 2) % 65536) &&& 0xFF) 0x00) } (by omega)
      dsimp only at he hlow
      refine ⟨tb, ?_, ?_, ?_⟩
      · simp only [read_program_memory_fill, set_instruction_put4 (j * 4) _ _ _ _ w (by omega),
          Result.andThen, parity_succ]
        rw [show i + j + (k + 1) = i + (j + 1) + k by omega]
        exact he
      · intro x hx
        rw [hlow x (by omega), put4_below _ _ _ _ _ _ _ (by omega)]
      · intro m hm
        cases m with
        | zero =>
            rw [Nat.add_zero, Nat.add_zero, frame_at_congr tb _ j hlow, frame_at_put4,
              read_frame_bytes]
        | succ m =>
            have := hfr m (by omega)
            rw [show j + (m + 1) = j + 1 + m by omega, show i + j + (m + 1) = i + (j + 1) + m by omega]
            exact this

theorem read_program_memory_copy_ok (i k : Nat) (w : World σ) :
    ∀ (j : Nat) (buffer : List Nat), j + k ≤ 64 → i + j + k ≤ buffer.length →
    ∃ out : List Nat,
      read_program_memory_copy i k j buffer w = .ok out w ∧ out.length = buffer.length ∧
      (∀ m, m < k → out[i + j + m]? = some (w.rx_buf ((j + m) * 4 + 3))) ∧
      (∀ x, x < i + j ∨ i + j + k ≤ x → out[x]? = buffer[x]?) := by
  induction k with
  | zero =>
      intro j buffer _ _
      exact ⟨buffer, rfl, rfl, fun m hm => absurd hm (Nat.not_lt_zero m), fun _ _ => rfl⟩
  | succ k ih =>
      intro j buffer hj hb
      obtain ⟨out, he, hlen, hval, hrest⟩ :=
        ih (j + 1) (buffer.set (i + j) (w.rx_buf (j * 4 + 3))) (by omega)
          (by rw [List.length_set]; omega)
      refine ⟨out, ?_, ?_, ?_, ?_⟩
      · have hc : j * 4 + 3 < buffer_size ∧ i + j < buffer.length := by
          constructor
          · simp only [buffer_size, page_size_in_bytes, instruction_size]; omega
          · omega
        simp only [read_program_memory_copy, hc, and_self, if_true]
        exact he
      · rw [hlen, List.length_set]
      · intro m hm
        cases m with
        | zero =>
            simp only [Nat.add_zero]
            rw [hrest (i + j) (Or.inl (by omega)), List.getElem?_set_self (by omega)]
        | succ m =>
            have := hval m (by omega)
            rw [show i + j + (m + 1) = i + (j + 1) + m by omega, show j + (m + 1) = j + 1 + m by omega]
            exact this
      · intro x hx
        rw [hrest x (by omega), List.getElem?_set_ne (by omega)]


theorem read_program_memory_chunks_step (t : Target σ) (hrel : t.reliable)
    (word_addres len : Nat) (progress : Bool) (i : Nat) (buffer : List Nat) (w : World σ)
    (h : i < len) (hb : len ≤ buffer.length) :
    ∃ (w1 : World σ) (rx1 : List Nat) (buffer1 : List Nat),
      t.transfer w.dev (read_tx word_addres i (min (len - i) 64)) = some (w1.dev, rx1) ∧
      transfers w1.trace = transfers w.trace ++
        [(read_tx word_addres i (min (len - i) 64), received (min (len - i) 64 * 4) rx1)] ∧
      buffer1.length = buffer.length ∧
      (∀ m, m < min (len - i) 64 →
        buffer1[i + m]? = some ((received (min (len - i) 64 * 4) rx1).getD (4 * m + 3) 0)) ∧
      (∀ x, x < i ∨ i + min (len - i) 64 ≤ x → buffer1[x]? = buffer[x]?) ∧
      read_program_memory_chunks t word_addres len progress i (decide (i % 2 = 1)) buffer w =
        read_program_memory_chunks t word_addres len progress (i + min (len - i) 64)
          (decide ((i + min (len - i) 64) % 2 = 1)) buffer1 w1 := by
  have hn : (if len - i > buffer_size / 4 then buffer_size / 4 else len - i)
      = min (len - i) 64 := by
    simp only [buffer_size, page_size_in_bytes, instruction_size]; split <;> omega
  generalize hnn : min (len - i) 64 = n at hn
  have hn64 : n ≤ 64 := by omega
  -- the read instructions
  obtain ⟨tb, hfill, -, hfr⟩ := read_program_memory_fill_ok word_addres i n 0 w (by omega)
  have hsent : (List.range (n * 4)).map tb = read_tx word_addres i n :=
    sent_frames tb (fun m => read_frame word_addres (i + m)) n (fun m hm => by
      have := hfr m hm
      simpa [Nat.add_assoc] using this)
  -- the transfer
  obtain ⟨⟨d1, rx1⟩, h1⟩ := Option.isSome_iff_exists.mp (hrel.1 w.dev (read_tx word_addres i n))
  obtain ⟨w2, hsend, hdev2, htrace2, hrx2⟩ : ∃ w2 : World σ,
      send_data t (n * 4) { w with tx_buf := tb } = .ok () w2 ∧ w2.dev = d1 ∧
        w2.trace = w.trace ++ [Event.transfer (read_tx word_addres i n) (received (n * 4) rx1)] ∧
        ∀ k, k < n * 4 → w2.rx_buf k = (received (n * 4) rx1).getD k 0 :=
    ⟨_, send_data_some t (n * 4) { w with tx_buf := tb } d1 rx1
      (by omega) (by rw [hsent]; exact h1), rfl, by rw [← hsent],
      fun k hk => by simp only [hk, if_true]⟩
  -- the results
  obtain ⟨out, hcopy, hlen, hval, hrest⟩ :=
    read_program_memory_copy_ok i n w2 0 buffer (by omega) (by omega)
  -- the progress line
  obtain ⟨evs, hprog, hevs⟩ : ∃ evs,
      (if progress then show_progress " # reading flash" "bytes" (i + n) len w2
        else .ok () w2) = .ok () { w2 with trace := w2.trace ++ evs } ∧ transfers evs = [] := by
    cases progress with
    | true => exact show_progress_ok _ _ _ _ _
    | false => exact ⟨[], by simp, rfl⟩
  refine ⟨{ w2 with trace := w2.trace ++ evs }, rx1, out, hdev2 ▸ h1, ?_, hlen, ?_, ?_, ?_⟩
  · simp [htrace2, transfers_append, transfers, hevs]
  · intro m hm
    have := hval m hm
    simp only [Nat.add_zero, Nat.zero_add] at this
    rw [this, hrx2 _ (by omega), Nat.mul_comm m 4]
  · intro x hx
    exact hrest x (by omega)
  · rw [read_program_memory_chunks]
    simp only [h, dite_true, hn]
    simp only [Nat.add_zero] at hfill
    rw [hfill]
    simp only [Result.andThen]
    rw [hsend]
    simp only []
    rw [hcopy]
    simp only []
    rw [hprog]

theorem read_program_memory_chunks_done (t : Target σ) (word_addres len : Nat) (progress : Bool)
    (i : Nat) (high : Bool) (buffer : List Nat) (w : World σ) (h : len ≤ i) :
    read_program_memory_chunks t word_addres len progress i high buffer w = .ok buffer w := by
  rw [read_program_memory_chunks]
  simp [Nat.not_lt.mpr h]


theorem received_length (len : Nat) (rx : List Nat) : (received len rx).length = len := by
  simp [received]

theorem read_program_memory_chunks_run (t : Target σ) (hrel : t.reliable)
    (word_addres len : Nat) (progress : Bool) :
    ∀ (n i : Nat) (buffer : List Nat) (w : World σ),
      (len - i + 63) / 64 = n → len ≤ buffer.length →
    ∃ (out : List Nat) (w1 : World σ) (rxs : List (List Nat)),
      read_program_memory_chunks t word_addres len progress i (decide (i % 2 = 1)) buffer w =
        .ok out w1 ∧
      transfers w1.trace = transfers w.trace ++ (List.range n).map (fun c =>
        (read_tx word_addres (i + 64 * c) (min (len - (i + 64 * c)) 64), rxs.getD c [])) ∧
      out.length = buffer.length ∧
      (∀ c, c < n → (rxs.getD c []).length = min (len - (i + 64 * c)) 64 * 4) ∧
      (∀ x, i ≤ x → x < len →
        out[x]? = some ((rxs.getD ((x - i) / 64) []).getD (4 * ((x - i) % 64) + 3) 0)) ∧
      (∀ x, x < i ∨ len ≤ x → out[x]? = buffer[x]?) := by
  intro n
  induction n with
  | zero =>
      intro i buffer w hn _
      refine ⟨buffer, w, [], read_program_memory_chunks_done t word_addres len progress i _ buffer w
        (by omega), by simp, rfl, fun c hc => absurd hc (Nat.not_lt_zero c), ?_, fun _ _ => rfl⟩
      intro x h1 h2
      omega
  | succ n ih =>
      intro i buffer w hn hb
      have hi : i < len := by omega
      obtain ⟨w1, rx1, buffer1, -, htr, hlen1, hval1, hrest1, hstep⟩ :=
        read_program_memory_chunks_step t hrel word_addres len progress i buffer w hi hb
      obtain ⟨out, w2, rxs, hrun, htr2, hlen2, hrl, hval2, hrest2⟩ :=
        ih (i + min (len - i) 64) buffer1 w1 (by omega) (by omega)
      have hm64 : 0 < n → min (len - i) 64 = 64 := fun h0 => by omega
      refine ⟨out, w2, received (min (len - i) 64 * 4) rx1 :: rxs, by rw [hstep, hrun], ?_,
        by rw [hlen2, hlen1], ?_, ?_, ?_⟩
      · rw [htr2, htr, List.range_succ_eq_map, List.map_cons, List.map_map, List.append_assoc]
        congr 1
        simp only [List.singleton_append, Nat.mul_zero, Nat.add_zero]
        congr 1
        apply List.map_congr_left
        intro c hc
        have hcn : c < n := List.mem_range.mp hc
        have e : i + min (len - i) 64 + 64 * c = i + 64 * (c + 1) := by
          have := hm64 (by omega); omega
        simp [e]
      · intro c hc
        cases c with
        | zero => simp [received_length]
        | succ c =>
            have e : i + min (len - i) 64 + 64 * c = i + 64 * (c + 1) := by
              have := hm64 (by omega); omega
            have := hrl c (by omega)
            rw [e] at this
            simpa using this
      · intro x hx1 hx2
        by_cases hx : x < i + min (len - i) 64
        · have e1 : (x - i) / 64 = 0 := by omega
          have e2 : (x - i) % 64 = x - i := by omega
          rw [hrest2 x (Or.inl hx), e1, e2]
          have := hval1 (x - i) (by omega)
          rw [show i + (x - i) = x by omega] at this
          simpa using this
        · have hm : min (len - i) 64 = 64 := by omega
          have := hval2 x (by omega) hx2
          rw [this, hm]
          have e1 : (x - i) / 64 = (x - (i + 64)) / 64 + 1 := by omega
          have e2 : (x - i) % 64 = (x - (i + 64)) % 64 := by omega
          rw [e1, e2]
          simp
      · intro x hx
        rw [hrest2 x (by omega), hrest1 x (by omega)]


theorem load_tx_bytes (data : List Nat) (h : is_bytes data) (i n : Nat) :
    load_tx data i n = (List.range n).flatMap (fun j =>
      [if j % 2 = 0 then 0x40 else 0x48, 0x00, j / 2, data.getD (i + j) 0]) := by
  have hb : ∀ k, data.getD k 0 % 256 = data.getD k 0 := fun k => by
    apply Nat.mod_eq_of_lt
    rw [List.getD_eq_getElem?_getD]
    by_cases hk : k < data.length
    · rw [List.getElem?_eq_getElem hk]
      exact h _ (List.getElem_mem hk)
    · rw [List.getElem?_eq_none (by omega)]
      exact Nat.zero_lt_succ _
  have e : load_frame data i = fun j =>
      [if j % 2 = 0 then 0x40 else 0x48, 0x00, j / 2, data.getD (i + j) 0] := by
    funext j
    simp only [load_frame, hb]
  rw [load_tx, e]

theorem frames_load_tx (data : List Nat) (i n : Nat) :
    frames (load_tx data i n) = (List.range n).map (load_frame data i) :=
  frames_flatMap _ _ (fun _ => rfl)

theorem frames_read_tx (word_addres i n : Nat) :
    frames (read_tx word_addres i n) = (List.range n).map (fun m => read_frame word_addres (i + m)) :=
  frames_flatMap _ _ (fun _ => rfl)

theorem load_tx_length (data : List Nat) (i n : Nat) : (load_tx data i n).length = 4 * n := by
  induction n with
  | zero => rfl
  | succ n ih =>
      rw [load_tx, List.range_succ, List.flatMap_append, List.length_append, ← load_tx, ih]
      simp [load_frame]
      omega

theorem read_tx_length (word_addres i n : Nat) : (read_tx word_addres i n).length = 4 * n := by
  induction n with
  | zero => rfl
  | succ n ih =>
      rw [read_tx, List.range_succ, List.flatMap_append, List.length_append, ← read_tx, ih]
      simp [read_frame]
      omega

theorem commit_count_page (data : List Nat) (i n page : Nat) :
    (frames (load_tx data i n) ++ frames (commit_frame page)).countP
      (fun f => decide (f.head? = some 0x4C)) = 1 := by
  rw [frames_load_tx, List.countP_append]
  have h0 : ((List.range n).map (load_frame data i)).countP
      (fun f => decide (f.head? = some 0x4C)) = 0 := by
    rw [List.countP_eq_zero]
    intro f hf
    obtain ⟨m, -, rfl⟩ := List.mem_map.mp hf
    rcases Nat.mod_two_eq_zero_or_one m with hp | hp <;> simp [load_frame, hp]
  rw [h0]
  simp [commit_frame, frames]

theorem commit_count (data : List Nat) (len n : Nat) :
    (((List.range n).flatMap (fun q =>
        [load_tx data (64 * q) (min (len - 64 * q) 64), commit_frame q])).flatMap frames).countP
      (fun f => decide (f.head? = some 0x4C)) = n := by
  induction n with
  | zero => rfl
  | succ n ih =>
      rw [List.range_succ, List.flatMap_append, List.flatMap_append, List.countP_append, ih]
      simp only [List.flatMap_cons, List.flatMap_nil, List.append_nil]
      rw [commit_count_page]

theorem write_flash_transfers (t : Target σ) (hrel : t.reliable) (data : List Nat) (len : Nat)
    (progress : Bool) (w : World σ) (hd : len ≤ data.length) (p : Nat)
    (hp : p < (len + 63) / 64) :
    (sent w (write_flash t data len progress w))[2 * p]? =
        some (load_tx data (64 * p) (min (len - 64 * p) 64)) ∧
      (sent w (write_flash t data len progress w))[2 * p + 1]? = some (commit_frame p) := by
  rw [(write_flash_sent t hrel data len progress w hd).2]
  exact pairs_getElem (fun q => load_tx data (64 * q) (min (len - 64 * q) 64)) commit_frame _ p hp


theorem issued_of_transfers {α : Type} (w : World σ) (r : Result σ α)
    (xs : List (List Nat × List Nat)) (h : transfers r.world.trace = transfers w.trace ++ xs) :
    issued w r = xs := by
  rw [issued, h, List.drop_left]

theorem read_program_memory_issued (t : Target σ) (hrel : t.reliable) (word_addres : Nat)
    (buffer : List Nat) (len : Nat) (progress : Bool) (w : World σ) (hb : len ≤ buffer.length) :
    ∃ (out : List Nat) (w1 : World σ) (rxs : List (List Nat)),
      read_program_memory t word_addres buffer len progress w = .ok out w1 ∧
      issued w (read_program_memory t word_addres buffer len progress w) =
        (List.range ((len + 63) / 64)).map (fun c =>
          (read_tx word_addres (64 * c) (min (len - 64 * c) 64), rxs.getD c [])) ∧
      out.length = buffer.length ∧
      (∀ c, c < (len + 63) / 64 → (rxs.getD c []).length = min (len - 64 * c) 64 * 4) ∧
      (∀ x, x < len → out[x]? = some ((rxs.getD (x / 64) []).getD (4 * (x % 64) + 3) 0)) ∧
      (∀ x, len ≤ x → out[x]? = buffer[x]?) := by
  obtain ⟨out, w1, rxs, hrun, htr, hlen, hrl, hval, hrest⟩ :=
    read_program_memory_chunks_run t hrel word_addres len progress ((len + 63) / 64) 0 buffer w
      (by simp) hb
  simp only [Nat.zero_add, Nat.sub_zero] at htr hrl hval
  refine ⟨out, w1, rxs, hrun, ?_, hlen, hrl, fun x hx => hval x (Nat.zero_le x) hx,
    fun x hx => hrest x (Or.inr hx)⟩
  have hrun2 : read_program_memory t word_addres buffer len progress w = .ok out w1 := hrun
  rw [hrun2]
  exact issued_of_transfers w _ _ htr


theorem read_program_memory_sent (t : Target σ) (hrel : t.reliable) (word_addres : Nat)
    (buffer : List Nat) (len : Nat) (progress : Bool) (w : World σ) (hb : len ≤ buffer.length) :
    (read_program_memory t word_addres buffer len progress w).error = none ∧
      sent w (read_program_memory t word_addres buffer len progress w) =
        (List.range ((len + 63) / 64)).map (fun c =>
          read_tx word_addres (64 * c) (min (len - 64 * c) 64)) := by
  obtain ⟨out, w1, rxs, hrun, hiss, -⟩ :=
    read_program_memory_issued t hrel word_addres buffer len progress w hb
  refine ⟨by rw [hrun]; rfl, ?_⟩
  rw [sent, hiss, List.map_map]
  rfl

theorem read_program_memory_frame (t : Target σ) (hrel : t.reliable) (word_addres : Nat)
    (buffer : List Nat) (len : Nat) (progress : Bool) (w : World σ) (hb : len ≤ buffer.length)
    (c j : Nat) (hc : c < (len + 63) / 64) (hj : j < min (len - 64 * c) 64) :
    (sent w (read_program_memory t word_addres buffer len progress w))[c]? =
        some (read_tx word_addres (64 * c) (min (len - 64 * c) 64)) ∧
      (frames (read_tx word_addres (64 * c) (min (len - 64 * c) 64)))[j]? =
        some (read_frame word_addres (64 * c + j)) := by
  constructor
  · rw [(read_program_memory_sent t hrel word_addres buffer len progress w hb).2,
      List.getElem?_map, List.getElem?_range hc]
    rfl
  · rw [frames_read_tx, List.getElem?_map, List.getElem?_range hj]
    rfl

end Basics

section Simulated

theorem sim_reliable : sim.reliable :=
  ⟨fun _ _ => rfl, fun _ _ => rfl⟩

theorem sim_transfer_nil (s : Sim) : sim_transfer s [] = (s, []) := by
  simp [sim_transfer]

theorem sim_transfer_cons4 (s : Sim) (a b c d : Nat) (rest : List Nat) :
    sim_transfer s (a :: b :: c :: d :: rest) =
      ((sim_transfer (sim_instruction s a b c d).1 rest).1,
        0 :: a :: b :: (sim_instruction s a b c d).2 ::
          (sim_transfer (sim_instruction s a b c d).1 rest).2) := by
  simp [sim_transfer]

theorem sim_transfer_append (f : Nat → List Nat) (hf : ∀ m, (f m).length = 4) (l : List Nat) :
    ∀ (s : Sim) (ys : List Nat),
      sim_transfer s (l.flatMap f ++ ys) =
        ((sim_transfer (sim_transfer s (l.flatMap f)).1 ys).1,
          (sim_transfer s (l.flatMap f)).2 ++ (sim_transfer (sim_transfer s (l.flatMap f)).1 ys).2) := by
  induction l with
  | nil => intro s ys; simp [sim_transfer_nil]
  | cons a l ih =>
      intro s ys
      have h4 := hf a
      rcases hfa : f a with _ | ⟨x0, _ | ⟨x1, _ | ⟨x2, _ | ⟨x3, _ | ⟨x4, r⟩⟩⟩⟩⟩ <;>
        rw [hfa] at h4 <;> simp at h4
      have e1 : (a :: l).flatMap f ++ ys = x0 :: x1 :: x2 :: x3 :: (l.flatMap f ++ ys) := by
        simp [List.flatMap_cons, hfa]
      have e2 : (a :: l).flatMap f = x0 :: x1 :: x2 :: x3 :: (l.flatMap f ++ []) := by
        simp [List.flatMap_cons, hfa]
      rw [e1, e2, sim_transfer_cons4, sim_transfer_cons4, ih, ih _ []]
      simp [sim_transfer_nil]

theorem load_frame_length (data : List Nat) (i m : Nat) : (load_frame data i m).length = 4 := rfl

theorem read_frame_length (word_addres x : Nat) : (read_frame word_addres x).length = 4 := rfl

theorem sim_load (s : Sim) (data : List Nat) (i n : Nat) (hn : n ≤ 64) :
    (sim_transfer s (load_tx data i n)).1 =
      { flash := s.flash,
        page_buf := fun a => if a < n then some (data.getD (i + a) 0 % 256) else s.page_buf a } := by
  induction n with
  | zero => simp [load_tx, sim_transfer_nil]
  | succ n ih =>
      have e : load_tx data i (n + 1) = (List.range n).flatMap (load_frame data i) ++
          load_frame data i n := by
        simp [load_tx, List.range_succ, List.flatMap_append]
      rw [e, sim_transfer_append _ (load_frame_length data i)]
      have ih2 := ih (by omega)
      rw [load_tx] at ih2
      simp only [ih2, load_frame, sim_transfer_cons4, sim_transfer_nil]
      rcases Nat.mod_two_eq_zero_or_one n with hp | hp
      · have hidx : 2 * (n / 2 % 32) = n := by omega
        simp only [hp, if_true, sim_instruction, hidx]
        congr 1
        funext a
        by_cases ha : a = n
        · subst ha; simp
        · have : a < n + 1 ↔ a < n := by omega
          simp [ha, this]
      · have hidx : 2 * (n / 2 % 32) + 1 = n := by omega
        simp only [hp, sim_instruction, hidx]
        simp only [show (1 : Nat) ≠ 0 by decide, if_false, show (0x48 : Nat) ≠ 0x40 by decide, if_true]
        congr 1
        funext a
        by_cases ha : a = n
        · subst ha; simp
        · have : a < n + 1 ↔ a < n := by omega
          simp [ha, this]


theorem commit_address (page : Nat) (hp : page < 128) :
    ((((page >>> 3) &&& 0xFF) * 256 + ((page <<< 5) &&& 0xFF)) % 4096) / 32 = page := by
  rw [and_255, and_255, Nat.shiftRight_eq_div_pow, Nat.shiftLeft_eq]
  norm_num
  omega

theorem sim_page (s : Sim) (data : List Nat) (page n : Nat) (hp : page < 128) (hn : n ≤ 64) :
    (∀ m, m < n →
      (sim_transfer (sim_transfer s (load_tx data (64 * page) n)).1 (commit_frame page)).1.flash
        (64 * page + m) = data.getD (64 * page + m) 0 % 256) ∧
    (∀ a, a / 64 ≠ page →
      (sim_transfer (sim_transfer s (load_tx data (64 * page) n)).1 (commit_frame page)).1.flash a
        = s.flash a) := by
  rw [sim_load s data (64 * page) n hn]
  simp only [commit_frame, sim_transfer_cons4, sim_transfer_nil, sim_instruction,
    commit_address page hp]
  simp only [show (0x4C : Nat) ≠ 0x40 by decide, show (0x4C : Nat) ≠ 0x48 by decide, if_false,
    if_true]
  constructor
  · intro m hm
    have h1 : (64 * page + m) / 64 = page := by omega
    have h2 : (64 * page + m) % 64 = m := by omega
    simp [h1, h2, hm]
  · intro a ha
    simp [ha]

theorem sim_write_flash_pages (data : List Nat) (len : Nat) (progress : Bool)
    (hd : len ≤ data.length) (hl : len ≤ 8192) :
    ∀ (n page : Nat) (w : World Sim), (len - 64 * page + 63) / 64 = n →
    ∃ w1, write_flash_pages sim data len progress (64 * page) page w = .ok () w1 ∧
      (∀ a, 64 * page ≤ a → a < len → w1.dev.flash a = data.getD a 0 % 256) ∧
      (∀ a, a < 64 * page → w1.dev.flash a = w.dev.flash a) := by
  intro n
  induction n with
  | zero =>
      intro page w hn
      refine ⟨w, write_flash_pages_done sim data len progress _ page w (by omega), ?_,
        fun _ _ => rfl⟩
      intro a h1 h2
      omega
  | succ n ih =>
      intro page w hn
      have hi : 64 * page < len := by omega
      have hp : page < 128 := by omega
      obtain ⟨w1, d1, rx1, d2, rx2, h1, h2, h3, -, hstep⟩ :=
        write_flash_pages_step sim sim_reliable data len progress (64 * page) page w hi hd
      have e1 : d1 = (sim_transfer w.dev (load_tx data (64 * page) (min (len - 64 * page) 64))).1 := by
        have := Option.some.inj h1
        rw [this]
      have e2 : d2 = (sim_transfer d1 (commit_frame page)).1 := by
        have := Option.some.inj h2
        rw [this]
      have e3 : w1.dev = d2 := (Option.some.inj h3).symm
      obtain ⟨hpage, hother⟩ := sim_page w.dev data page (min (len - 64 * page) 64) hp (by omega)
      rw [← e1, ← e2, ← e3] at hpage hother
      obtain ⟨w2, hrun, hval, hrest⟩ := ih (page + 1) w1 (by omega)
      refine ⟨w2, by rw [hstep, ← hrun, Nat.mul_add], ?_, ?_⟩
      · intro a ha1 ha2
        by_cases ha : a < 64 * (page + 1)
        · rw [hrest a ha]
          have := hpage (a - 64 * page) (by omega)
          rw [show 64 * page + (a - 64 * page) = a by omega] at this
          exact this
        · exact hval a (by omega) ha2
      · intro a ha
        rw [hrest a (by omega), hother a (by omega)]


theorem read_address (x : Nat) (hx : x < 8192) :
    ((((0 + x / 2) % 65536) >>> 8) * 256 + (((0 + x / 2) % 65536) &&& 0xFF)) % 4096 = x / 2 := by
  rw [and_255, shr_8]
  omega

theorem sim_read_frame (s : Sim) (x : Nat) (hx : x < 8192) :
    (sim_transfer s (read_frame 0 x)).1 = s ∧
      (sim_transfer s (read_frame 0 x)).2.length = 4 ∧
      (sim_transfer s (read_frame 0 x)).2.getD 3 0 = s.flash x := by
  simp only [read_frame, sim_transfer_cons4, sim_transfer_nil, sim_instruction, read_address x hx]
  rcases Nat.mod_two_eq_zero_or_one x with hp | hp
  · have e : 2 * (x / 2) = x := by omega
    simp [hp, e]
  · have e : 2 * (x / 2) + 1 = x := by omega
    simp [hp, e]

theorem sim_read (s : Sim) (i n : Nat) (hn : i + n ≤ 8192) :
    (sim_transfer s (read_tx 0 i n)).1 = s ∧
      (sim_transfer s (read_tx 0 i n)).2.length = 4 * n ∧
      ∀ m, m < n → (sim_transfer s (read_tx 0 i n)).2.getD (4 * m + 3) 0 = s.flash (i + m) := by
  induction n with
  | zero =>
      simp [read_tx, sim_transfer_nil]
  | succ n ih =>
      have e : read_tx 0 i (n + 1) = (List.range n).flatMap (fun m => read_frame 0 (i + m)) ++
          read_frame 0 (i + n) := by
        simp [read_tx, List.range_succ, List.flatMap_append]
      obtain ⟨ih1, ih2, ih3⟩ := ih (by omega)
      obtain ⟨f1, f2, f3⟩ := sim_read_frame s (i + n) (by omega)
      rw [read_tx] at ih1 ih2 ih3
      rw [e, sim_transfer_append _ (fun m => read_frame_length 0 (i + m))]
      simp only [ih1]
      refine ⟨f1, by rw [List.length_append, ih2, f2]; omega, ?_⟩
      intro m hm
      by_cases hmn : m < n
      · rw [List.getD_append _ _ _ _ (by omega)]
        exact ih3 m hmn
      · have hme : m = n := by omega
        subst hme
        rw [List.getD_append_right _ _ _ _ (by omega), ih2,
          show 4 * m + 3 - 4 * m = 3 by omega]
        exact f3

theorem received_getD (len k : Nat) (rx : List Nat) (h : k < len) :
    (received len rx).getD k 0 = rx.getD k 0 % 256 := by
  simp [received, List.getD_eq_getElem?_getD, List.getElem?_map, List.getElem?_range h]

theorem sim_read_program_memory_chunks (len : Nat) (progress : Bool) (hl : len ≤ 8192) :
    ∀ (n i : Nat) (buffer : List Nat) (w : World Sim),
      (len - i + 63) / 64 = n → len ≤ buffer.length →
    ∃ (out : List Nat) (w1 : World Sim),
      read_program_memory_chunks sim 0 len progress i (decide (i % 2 = 1)) buffer w = .ok out w1 ∧
      w1.dev = w.dev ∧
      (∀ x, i ≤ x → x < len → out[x]? = some (w.dev.flash x % 256)) ∧
      (∀ x, x < i ∨ len ≤ x → out[x]? = buffer[x]?) := by
  intro n
  induction n with
  | zero =>
      intro i buffer w hn _
      refine ⟨buffer, w, read_program_memory_chunks_done sim 0 len progress i _ buffer w
        (by omega), rfl, ?_, fun _ _ => rfl⟩
      intro x h1 h2
      omega
  | succ n ih =>
      intro i buffer w hn hb
      have hi : i < len := by omega
      obtain ⟨w1, rx1, buffer1, h1, -, hlen1, hval1, hrest1, hstep⟩ :=
        read_program_memory_chunks_step sim sim_reliable 0 len progress i buffer w hi hb
      obtain ⟨s1, s2, s3⟩ := sim_read w.dev i (min (len - i) 64) (by omega)
      have e1 : sim_transfer w.dev (read_tx 0 i (min (len - i) 64)) = (w1.dev, rx1) :=
        Option.some.inj h1
      rw [e1] at s1 s2 s3
      simp only at s1 s2 s3
      obtain ⟨out, w2, hrun, hdev2, hval2, hrest2⟩ :=
        ih (i + min (len - i) 64) buffer1 w1 (by omega) (by omega)
      refine ⟨out, w2, by rw [hstep, hrun], by rw [hdev2, s1], ?_, ?_⟩
      · intro x hx1 hx2
        by_cases hx : x < i + min (len - i) 64
        · rw [hrest2 x (Or.inl hx)]
          have := hval1 (x - i) (by omega)
          rw [show i + (x - i) = x by omega, received_getD _ _ _ (by omega),
            s3 (x - i) (by omega), show i + (x - i) = x by omega] at this
          exact this
        · rw [hval2 x (by omega) hx2, s1]
      · intro x hx
        rw [hrest2 x (by omega), hrest1 x (by omega)]


theorem is_bytes_getD (data : List Nat) (h : is_bytes data) (k : Nat) :
    data.getD k 0 % 256 = data.getD k 0 := by
  apply Nat.mod_eq_of_lt
  rw [List.getD_eq_getElem?_getD]
  by_cases hk : k < data.length
  · rw [List.getElem?_eq_getElem hk]
    exact h _ (List.getElem_mem hk)
  · rw [List.getElem?_eq_none (by omega)]
    exact Nat.zero_lt_succ _

theorem is_bytes_getElem? (data : List Nat) (k : Nat) (hk : k < data.length) :
    some (data.getD k 0) = data[k]? := by
  rw [List.getD_eq_getElem?_getD, List.getElem?_eq_getElem hk]
  rfl

theorem sim_write_then_read (data : List Nat) (len : Nat) (buffer : List Nat)
    (progress1 progress2 : Bool) (w : World Sim) (hbytes : is_bytes data)
    (hd : len ≤ data.length) (hl : len ≤ 8192) (hbuf : len ≤ buffer.length) :
    ∃ (w1 : World Sim) (out : List Nat) (w2 : World Sim),
      write_flash sim data len progress1 w = .ok () w1 ∧
      read_program_memory sim 0 buffer len progress2 w1 = .ok out w2 ∧
      ∀ i, i < len → out[i]? = data[i]? := by
  obtain ⟨w1, hw, hflash, -⟩ :=
    sim_write_flash_pages data len progress1 hd hl ((len + 63) / 64) 0 w (by simp)
  obtain ⟨out, w2, hr, -, hout, -⟩ :=
    sim_read_program_memory_chunks len progress2 hl ((len + 63) / 64) 0 buffer w1 (by simp) hbuf
  refine ⟨w1, out, w2, hw, hr, ?_⟩
  intro i hi
  rw [hout i (Nat.zero_le i) hi, hflash i (Nat.zero_le _) hi, Nat.mod_mod, is_bytes_getD data hbytes,
    is_bytes_getElem? data i (by omega)]


theorem range_is_bytes (n : Nat) (hn : n ≤ 256) : is_bytes (List.range n) := by
  intro b hb
  have := List.mem_range.mp hb
  omega

end Simulated

section Orchestration

variable {σ : Type}

theorem write_fuse_bits_some (t : Target σ) (value : Nat) (high : Bool) (w : World σ) (d1 d2 : σ)
    (rx : List Nat) (hv : value < 256)
    (h1 : t.transfer w.dev [0xAC, if high then 0xA8 else 0xA0, 0x00, value] = some (d1, rx))
    (h2 : t.sleep d1 10 = some d2) :
    ∃ w1, write_fuse_bits t value high w = .ok () w1 ∧ w1.dev = d2 ∧
      w1.trace = w.trace ++
        [Event.transfer [0xAC, if high then 0xA8 else 0xA0, 0x00, value] (received 4 rx),
         Event.print (" # writting fuse " ++ (if high then "high" else "low") ++ ": 0x%.2X\n") [value],
         Event.delay 10] := by
  have hop : (0xA0 ||| (b2n high <<< 3)) % 256 = if high then 0xA8 else 0xA0 := by
    cases high <;> rfl
  have hm : value % 256 = value := Nat.mod_eq_of_lt hv
  have hs := send_data_some t 4
    { w with tx_buf := put4 w.tx_buf 0 0xAC (0xA0 ||| (b2n high <<< 3)) 0 value }
    d1 rx (by norm_num) (by simpa [range4, put4, hop, hm] using h1)
  simp only [write_fuse_bits, set_instruction_put4 0 _ _ _ _ w (by norm_num), Result.andThen, hs,
    printf]
  rw [delay_some t 10 _ d2 h2]
  refine ⟨_, rfl, rfl, ?_⟩
  simp [range4, put4, hop, hm]

end Orchestration

section Codec

variable {σ : Type}

theorem read_fuse_bits_some (t : Target σ) (high : Bool) (w : World σ) (d : σ) (rx : List Nat)
    (h : t.transfer w.dev [if high then 0x58 else 0x50, 0x00, 0x00, 0x00] = some (d, rx)) :
    ∃ w1, read_fuse_bits t high w = .ok ((received 4 rx).getD 3 0) w1 ∧ w1.dev = d ∧
      w1.trace = w.trace ++
        [Event.transfer [if high then 0x58 else 0x50, 0x00, 0x00, 0x00] (received 4 rx)] := by
  have hop : (0x50 ||| (b2n high <<< 3)) % 256 = if high then 0x58 else 0x50 := by
    cases high <;> rfl
  have hs := send_data_some t 4
    { w with tx_buf := put4 w.tx_buf 0 (0x50 ||| (b2n high <<< 3)) 0x00 0x00 0x00 }
    d rx (by norm_num) (by simpa [range4, put4, hop] using h)
  simp only [read_fuse_bits, set_instruction_put4 0 _ _ _ _ w (by norm_num), Result.andThen, hs]
  refine ⟨_, rfl, rfl, ?_⟩
  simp [range4, put4, hop]

theorem compare_ok (file_data flash_data : List Nat) (k : Nat) :
    ∀ (i : Nat) (mismatch : Bool) (w : World σ),
      i + k ≤ file_data.length → i + k ≤ flash_data.length →
    write_flash_from_file_compare file_data flash_data k i mismatch w =
      .ok (mismatch ||
            (List.range' i k).any (fun x => file_data.getD x 0 != flash_data.getD x 0))
        { w with trace := (w.trace ++
            ((List.range' i k).filter (fun x => file_data.getD x 0 != flash_data.getD x 0)).map
              (fun x => Event.print "data mismatch at byte %d: expected %.2X, got %.2X\n"
                [x, file_data.getD x 0, flash_data.getD x 0])) } := by
  induction k with
  | zero =>
      intro i mismatch w _ _
      simp [write_flash_from_file_compare]
  | succ k ih =>
      intro i mismatch w h1 h2
      have e1 : file_data[i]? = some (file_data.getD i 0) := by
        rw [List.getD_eq_getElem?_getD, List.getElem?_eq_getElem (by omega)]; rfl
      have e2 : flash_data[i]? = some (flash_data.getD i 0) := by
        rw [List.getD_eq_getElem?_getD, List.getElem?_eq_getElem (by omega)]; rfl
      rw [write_flash_from_file_compare, e1, e2]
      simp only [List.range'_succ]
      by_cases hne : file_data.getD i 0 = flash_data.getD i 0
      · have hb : (file_data.getD i 0 != flash_data.getD i 0) = false := by
          rw [hne]; exact bne_self_eq_false _
        rw [if_neg (not_not.mpr hne), ih (i + 1) mismatch w (by omega) (by omega)]
        simp only [List.any_cons, List.filter_cons, hb, Bool.false_or]
        rfl
      · have hb : (file_data.getD i 0 != flash_data.getD i 0) = true := bne_iff_ne.mpr hne
        rw [if_pos hne]
        simp only [printf, Result.andThen]
        rw [ih (i + 1) true _ (by omega) (by omega)]
        simp only [List.any_cons, List.filter_cons, hb, Bool.true_or, Bool.or_true, if_true,
          List.map_cons, List.append_assoc, List.singleton_append]

end Codec

section Safety

variable {σ α β : Type}

theorem run_andThen {P : Event → Prop} {E : Err → Prop} {Q : α → Prop} {R : β → Prop} (w : World σ)
    (r : Result σ α) (f : α → World σ → Result σ β) (h : Run P E Q w r)
    (hf : ∀ a w1, r = .ok a w1 → Q a → Run P E R w1 (f a w1)) :
    Run P E R w (r.andThen f) := by
  cases r with
  | ok a w1 =>
      obtain ⟨⟨evs1, ht1, hp1⟩, -, hq⟩ := h
      obtain ⟨⟨evs2, ht2, hp2⟩, he2, hq2⟩ := hf a w1 rfl (hq a w1 rfl)
      refine ⟨⟨evs1 ++ evs2, ?_, ?_⟩, he2, hq2⟩
      · show (f a w1).world.trace = _
        rw [ht2, show w1.trace = w.trace ++ evs1 from ht1, List.append_assoc]
      · intro e he
        rcases List.mem_append.mp he with h1 | h2
        · exact hp1 e h1
        · exact hp2 e h2
  | exit e w1 =>
      obtain ⟨ht, he, -⟩ := h
      exact ⟨ht, he, fun a w2 hc => by cases hc⟩

theorem run_ok {P : Event → Prop} {E : Err → Prop} {Q : α → Prop} (w w1 : World σ) (a : α) (hq : Q a)
    (ht : w1.trace = w.trace) : Run P E Q w (.ok a w1) :=
  ⟨⟨[], by simp [Result.world, ht], fun _ h => by cases h⟩, (fun _ h => by cases h),
    fun b w2 h => by cases h; exact hq⟩

theorem run_exit {P : Event → Prop} {E : Err → Prop} {Q : α → Prop} (w w1 : World σ) (e : Err)
    (he : E e) (ht : w1.trace = w.trace) : Run P E Q w (.exit e w1) :=
  ⟨⟨[], by simp [Result.world, ht], fun _ h => by cases h⟩,
    fun e2 h => by simp only [Result.error, Option.some.injEq] at h; rw [← h]; exact he,
    fun b w2 h => by cases h⟩

theorem run_event {P : Event → Prop} {E : Err → Prop} {Q : α → Prop} (w w1 : World σ) (a : α) (e : Event)
    (hq : Q a) (hp : P e) (ht : w1.trace = w.trace ++ [e]) : Run P E Q w (.ok a w1) :=
  ⟨⟨[e], by simp [Result.world, ht], fun x h => by
    rw [List.mem_singleton] at h; rw [h]; exact hp⟩, (fun _ h => by cases h),
    fun b w2 h => by cases h; exact hq⟩

theorem run_weaken {P : Event → Prop} {E : Err → Prop} {Q Q2 : α → Prop} (w : World σ) (r : Result σ α)
    (h : Run P E Q w r) (hq : ∀ a, Q a → Q2 a) : Run P E Q2 w r :=
  ⟨h.1, h.2.1, fun a w1 hr => hq a (h.2.2 a w1 hr)⟩

theorem any_busErr : BusErr (fun _ => True) :=
  ⟨trivial, trivial, trivial, trivial⟩

theorem in_bounds_busErr : BusErr (fun e => e ≠ Err.out_of_bounds) :=
  ⟨by decide, by decide, by decide, by decide⟩

theorem fits_busOnly : BusOnly fits :=
  ⟨fun _ => trivial, fun _ _ => trivial, fun _ _ h1 h2 => ⟨h1, h2⟩⟩

theorem quiet_busOnly : BusOnly quiet :=
  ⟨fun _ => trivial, fun _ _ => trivial, fun _ _ _ _ => trivial⟩

theorem run_set_instruction {P : Event → Prop} {E : Err → Prop} (offset b1 b2 b3 b4 : Nat) (w : World σ)
    (h : offset + 3 < 256) : Run P E (fun _ : Unit => True) w (set_instruction offset b1 b2 b3 b4 w) := by
  rw [set_instruction_put4 offset b1 b2 b3 b4 w h]
  exact run_ok w _ () trivial rfl

theorem run_send_data {P : Event → Prop} {E : Err → Prop} (hP : BusOnly P) (hE : BusErr E) (t : Target σ) (len : Nat)
    (w : World σ) (hlen : len ≤ 256) (h4 : len % 4 = 0) :
    Run P E (fun _ : Unit => True) w (send_data t len w) := by
  rcases ht : t.transfer w.dev ((List.range len).map w.tx_buf) with _ | ⟨d, rx⟩
  · have : send_data t len w = .exit Err.sending_failed w := by
      simp [send_data, buffer_size, page_size_in_bytes, instruction_size, hlen, ht,
        print_error_end_exit]
    rw [this]
    exact run_exit w w _ hE.2.1 rfl
  · rw [send_data_some t len w d rx hlen ht]
    refine run_event w _ () _ trivial (hP.2.2 _ _ ?_ ?_) rfl
    · simpa [buffer_size, page_size_in_bytes, instruction_size] using hlen
    · simpa [instruction_size] using h4

theorem run_delay {P : Event → Prop} {E : Err → Prop} (hP : BusOnly P) (hE : BusErr E) (t : Target σ) (ms : Nat) (w : World σ) :
    Run P E (fun _ : Unit => True) w (delay t ms w) := by
  rcases ht : t.sleep w.dev ms with _ | d
  · have : delay t ms w = .exit Err.sleep_error w := by simp [delay, ht, print_error_end_exit]
    rw [this]
    exact run_exit w w _ hE.1 rfl
  · rw [delay_some t ms w d ht]
    exact run_event w _ () _ trivial (hP.1 ms) rfl

theorem run_printf {P : Event → Prop} {E : Err → Prop} (hP : BusOnly P) (text : String) (args : List Nat)
    (w : World σ) : Run P E (fun _ : Unit => True) w (printf text args w) :=
  run_event w _ () _ trivial (hP.2.1 text args) rfl

theorem run_show_progress {P : Event → Prop} {E : Err → Prop} (hP : BusOnly P) (message units : String)
    (count limit : Nat) (w : World σ) :
    Run P E (fun _ : Unit => True) w (show_progress message units count limit w) := by
  unfold show_progress
  refine run_andThen _ _ _ (run_printf hP _ _ _) (fun _ w1 _ _ => ?_)
  refine run_andThen _ _ _ (run_printf hP _ _ _) (fun _ w2 _ _ => ?_)
  split
  · exact run_printf hP _ _ _
  · exact run_ok w2 w2 () trivial rfl

theorem run_maybe_progress {P : Event → Prop} {E : Err → Prop} (hP : BusOnly P) (progress : Bool)
    (message units : String) (count limit : Nat) (w : World σ) :
    Run P E (fun _ : Unit => True) w
      (if progress then show_progress message units count limit w else .ok () w) := by
  cases progress with
  | true => exact run_show_progress hP _ _ _ _ _
  | false => exact run_ok w w () trivial rfl

theorem run_write_program_memory_page {P : Event → Prop} {E : Err → Prop} (hP : BusOnly P) (hE : BusErr E) (t : Target σ)
    (page : Nat) (w : World σ) :
    Run P E (fun _ : Unit => True) w (write_program_memory_page t page w) := by
  unfold write_program_memory_page
  refine run_andThen _ _ _ (run_set_instruction _ _ _ _ _ _ (by norm_num)) (fun _ w1 _ _ => ?_)
  refine run_andThen _ _ _ (run_send_data hP hE t 4 w1 (by norm_num) (by norm_num))
    (fun _ w2 _ _ => ?_)
  exact run_delay hP hE t 10 w2

theorem run_write_flash_fill {P : Event → Prop} {E : Err → Prop} (data : List Nat) (i k : Nat) :
    ∀ (j : Nat) (high : Bool) (w : World σ), j + k ≤ 64 → i + j + k ≤ data.length →
    Run P E (fun _ : Unit => True) w (write_flash_fill data i k j high w) := by
  induction k with
  | zero =>
      intro j high w _ _
      exact run_ok w w () trivial rfl
  | succ k ih =>
      intro j high w hj hd
      have hget : data[i + j]? = some (data.getD (i + j) 0) := by
        rw [List.getD_eq_getElem?_getD, List.getElem?_eq_getElem (by omega)]; rfl
      rw [write_flash_fill, hget]
      exact run_andThen _ _ _ (run_set_instruction _ _ _ _ _ _ (by omega))
        (fun _ w1 _ _ => ih (j + 1) (!high) w1 (by omega) (by omega))

theorem run_write_flash_pages {P : Event → Prop} {E : Err → Prop} (hP : BusOnly P) (hE : BusErr E) (t : Target σ)
    (data : List Nat) (len : Nat) (progress : Bool) (hd : len ≤ data.length) :
    ∀ (n i page : Nat) (w : World σ), len - i ≤ n →
    Run P E (fun _ : Unit => True) w (write_flash_pages t data len progress i page w) := by
  intro n
  induction n with
  | zero =>
      intro i page w hn
      rw [write_flash_pages_done t data len progress i page w (by omega)]
      exact run_ok w w () trivial rfl
  | succ n ih =>
      intro i page w hn
      by_cases hi : i < len
      · rw [write_flash_pages]
        simp only [hi, dite_true]
        have hb : (if len - i > page_size_in_bytes then page_size_in_bytes else len - i) ≤ 64 := by
          simp only [page_size_in_bytes]; split <;> omega
        have hb2 : i + (if len - i > page_size_in_bytes then page_size_in_bytes else len - i)
            ≤ data.length := by
          simp only [page_size_in_bytes]; split <;> omega
        refine run_andThen _ _ _ (run_write_flash_fill data i _ 0 false w (by omega) (by omega))
          (fun _ w1 _ _ => ?_)
        refine run_andThen _ _ _ (run_maybe_progress hP progress _ _ _ _ w1) (fun _ w2 _ _ => ?_)
        refine run_andThen _ _ _ (run_send_data hP hE t _ w2 (by omega) (by omega))
          (fun _ w3 _ _ => ?_)
        refine run_andThen _ _ _ (run_write_program_memory_page hP hE t page w3)
          (fun _ w4 _ _ => ?_)
        exact ih _ _ w4 (by simp only [page_size_in_bytes]; omega)
      · rw [write_flash_pages_done t data len progress i page w (by omega)]
        exact run_ok w w () trivial rfl

theorem run_write_flash {P : Event → Prop} {E : Err → Prop} (hP : BusOnly P) (hE : BusErr E) (t : Target σ) (data : List Nat)
    (len : Nat) (progress : Bool) (w : World σ) (hd : len ≤ data.length) :
    Run P E (fun _ : Unit => True) w (write_flash t data len progress w) :=
  run_write_flash_pages hP hE t data len progress hd len 0 0 w (by omega)

end Safety

section SafetyRead

variable {σ : Type}

theorem run_read_program_memory_fill {P : Event → Prop} {E : Err → Prop} (word_addres i k : Nat) :
    ∀ (j : Nat) (high : Bool) (w : World σ), j + k ≤ 64 →
    Run P E (fun _ : Bool => True) w (read_program_memory_fill word_addres i k j high w) := by
  induction k with
  | zero =>
      intro j high w _
      exact run_ok w w high trivial rfl
  | succ k ih =>
      intro j high w hj
      rw [read_program_memory_fill]
      exact run_andThen _ _ _ (run_set_instruction _ _ _ _ _ _ (by omega))
        (fun _ w1 _ _ => ih (j + 1) (!high) w1 (by omega))

theorem run_read_program_memory_copy {P : Event → Prop} {E : Err → Prop} (i k j : Nat) (buffer : List Nat)
    (w : World σ) (hj : j + k ≤ 64) (hb : i + j + k ≤ buffer.length) :
    Run P E (fun out : List Nat => out.length = buffer.length ∧
        ∀ x, x < i + j ∨ i + j + k ≤ x → out[x]? = buffer[x]?) w
      (read_program_memory_copy i k j buffer w) := by
  obtain ⟨out, hrun, hlen, -, hrest⟩ := read_program_memory_copy_ok i k w j buffer hj hb
  rw [hrun]
  exact run_ok w w out ⟨hlen, hrest⟩ rfl

theorem run_read_program_memory_chunks {P : Event → Prop} {E : Err → Prop} (hP : BusOnly P) (hE : BusErr E) (t : Target σ)
    (word_addres len : Nat) (progress : Bool) (buffer0 : List Nat) (hb0 : len ≤ buffer0.length) :
    ∀ (n i : Nat) (high : Bool) (buffer : List Nat) (w : World σ), len - i ≤ n →
      buffer.length = buffer0.length → (∀ x, len ≤ x → buffer[x]? = buffer0[x]?) →
    Run P E (fun out : List Nat => out.length = buffer0.length ∧
        ∀ x, len ≤ x → out[x]? = buffer0[x]?) w
      (read_program_memory_chunks t word_addres len progress i high buffer w) := by
  intro n
  induction n with
  | zero =>
      intro i high buffer w hn hl hx
      rw [read_program_memory_chunks_done t word_addres len progress i high buffer w (by omega)]
      exact run_ok w w buffer ⟨hl, hx⟩ rfl
  | succ n ih =>
      intro i high buffer w hn hl hx
      by_cases hi : i < len
      · rw [read_program_memory_chunks]
        simp only [hi, dite_true]
        have hb : (if len - i > buffer_size / 4 then buffer_size / 4 else len - i) ≤ 64 := by
          simp only [buffer_size, page_size_in_bytes, instruction_size]; split <;> omega
        have hb1 : 0 < (if len - i > buffer_size / 4 then buffer_size / 4 else len - i) := by
          simp only [buffer_size, page_size_in_bytes, instruction_size]; split <;> omega
        have hb2 : i + (if len - i > buffer_size / 4 then buffer_size / 4 else len - i) ≤ len := by
          simp only [buffer_size, page_size_in_bytes, instruction_size]; split <;> omega
        refine run_andThen _ _ _ (run_read_program_memory_fill word_addres i _ 0 high w (by omega))
          (fun high1 w1 _ _ => ?_)
        refine run_andThen _ _ _ (run_send_data hP hE t _ w1 (by omega) (by omega))
          (fun _ w2 _ _ => ?_)
        refine run_andThen _ _ _
          (run_read_program_memory_copy i _ 0 buffer w2 (by omega) (by omega))
          (fun buffer1 w3 _ hq => ?_)
        refine run_andThen _ _ _ (run_maybe_progress hP progress _ _ _ _ w3) (fun _ w4 _ _ => ?_)
        refine ih _ high1 buffer1 w4 (by omega) (by rw [hq.1, hl]) ?_
        intro x hxl
        rw [hq.2 x (by omega), hx x hxl]
      · rw [read_program_memory_chunks_done t word_addres len progress i high buffer w (by omega)]
        exact run_ok w w buffer ⟨hl, hx⟩ rfl

theorem run_read_program_memory {P : Event → Prop} {E : Err → Prop} (hP : BusOnly P) (hE : BusErr E) (t : Target σ)
    (word_addres : Nat) (buffer : List Nat) (len : Nat) (progress : Bool) (w : World σ)
    (hb : len ≤ buffer.length) :
    Run P E (fun out : List Nat => out.length = buffer.length ∧
        ∀ x, len ≤ x → out[x]? = buffer[x]?) w
      (read_program_memory t word_addres buffer len progress w) :=
  run_read_program_memory_chunks hP hE t word_addres len progress buffer hb len 0 false buffer w
    (by omega) rfl (fun _ _ => rfl)

theorem issued_of_added {α : Type} (w : World σ) (r : Result σ α) (evs : List Event)
    (h : r.world.trace = w.trace ++ evs) : issued w r = transfers evs := by
  rw [issued, h, transfers_append, List.drop_left]

theorem added_of_trace {α : Type} (w : World σ) (r : Result σ α) (evs : List Event)
    (h : r.world.trace = w.trace ++ evs) : added w r = evs := by
  rw [added, h, List.drop_left]

theorem mem_transfers (evs : List Event) (x : List Nat × List Nat) (h : x ∈ transfers evs) :
    Event.transfer x.1 x.2 ∈ evs := by
  induction evs with
  | nil => simp [transfers] at h
  | cons e es ih =>
      cases e with
      | transfer tx rx =>
          simp only [transfers, List.mem_cons] at h
          rcases h with h | h
          · rw [h]; exact List.mem_cons_self _ _
          · exact List.mem_cons_of_mem _ (ih h)
      | delay ms => exact List.mem_cons_of_mem _ (ih (by simpa [transfers] using h))
      | gpio pin v => exact List.mem_cons_of_mem _ (ih (by simpa [transfers] using h))
      | print s a => exact List.mem_cons_of_mem _ (ih (by simpa [transfers] using h))
      | gpio_init pin => exact List.mem_cons_of_mem _ (ih (by simpa [transfers] using h))

theorem run_fits_issued {α : Type} {E : Err → Prop} {Q : α → Prop} (w : World σ) (r : Result σ α)
    (h : Run fits E Q w r) :
    ∀ x ∈ issued w r, x.1.length ≤ buffer_size ∧ x.1.length % instruction_size = 0 := by
  obtain ⟨⟨evs, ht, hp⟩, -, -⟩ := h
  intro x hx
  rw [issued_of_added w r evs ht] at hx
  exact hp _ (mem_transfers evs x hx)

end SafetyRead

section Congruence

variable {σ : Type}

theorem write_flash_fill_congr (data data2 : List Nat) (len i k : Nat)
    (h : ∀ x, x < len → data[x]? = data2[x]?) :
    ∀ (j : Nat) (high : Bool) (w : World σ), i + j + k ≤ len →
    write_flash_fill data i k j high w = write_flash_fill data2 i k j high w := by
  induction k with
  | zero => intro j high w _; rfl
  | succ k ih =>
      intro j high w hk
      rw [write_flash_fill, write_flash_fill, h (i + j) (by omega)]
      cases data2[i + j]? with
      | none => rfl
      | some d =>
          simp only []
          congr 1
          funext _ w1
          exact ih (j + 1) (!high) w1 (by omega)

theorem write_flash_pages_congr (t : Target σ) (data data2 : List Nat) (len : Nat)
    (progress : Bool) (h : ∀ x, x < len → data[x]? = data2[x]?) :
    ∀ (n i page : Nat) (w : World σ), len - i ≤ n →
    write_flash_pages t data len progress i page w =
      write_flash_pages t data2 len progress i page w := by
  intro n
  induction n with
  | zero =>
      intro i page w hn
      rw [write_flash_pages_done t data len progress i page w (by omega),
        write_flash_pages_done t data2 len progress i page w (by omega)]
  | succ n ih =>
      intro i page w hn
      by_cases hi : i < len
      · conv_lhs => rw [write_flash_pages]
        conv_rhs => rw [write_flash_pages]
        simp only [hi, dite_true]
        have hb : i + 0 + (if len - i > page_size_in_bytes then page_size_in_bytes else len - i)
            ≤ len := by
          simp only [page_size_in_bytes]; split <;> omega
        rw [write_flash_fill_congr data data2 len i _ h 0 false w hb]
        congr 1
        funext _ w1
        congr 1
        funext _ w2
        congr 1
        funext _ w3
        congr 1
        funext _ w4
        exact ih _ _ w4 (by simp only [page_size_in_bytes]; omega)
      · rw [write_flash_pages_done t data len progress i page w (by omega),
          write_flash_pages_done t data2 len progress i page w (by omega)]

theorem write_flash_congr (t : Target σ) (data data2 : List Nat) (len : Nat) (progress : Bool)
    (w : World σ) (h : ∀ x, x < len → data[x]? = data2[x]?) :
    write_flash t data len progress w = write_flash t data2 len progress w :=
  write_flash_pages_congr t data data2 len progress h len 0 0 w (by omega)

theorem write_flash_take (t : Target σ) (data : List Nat) (len : Nat) (progress : Bool)
    (w : World σ) :
    write_flash t data len progress w = write_flash t (data.take len) len progress w :=
  write_flash_congr t data (data.take len) len progress w
    (fun _ hx => (List.getElem?_take_of_lt hx).symm)

end Congruence

section Files

theorem fread_length :
    ∀ (n : Nat) (stream : List Nat) (i : Nat) (file_data out : List Nat), stream.length ≤ n →
      write_flash_from_file_fread stream i file_data = some out → out.length = file_data.length := by
  intro n
  induction n with
  | zero =>
      intro stream i file_data out hn h
      rw [write_flash_from_file_fread] at h
      have hs : stream.length < 1024 := by omega
      simp only [hs, if_true] at h
      split at h
      · next hle =>
          have := Option.some.inj h
          rw [← this]
          simp only [List.length_append, List.length_take, List.length_drop]
          omega
      · cases h
  | succ n ih =>
      intro stream i file_data out hn h
      rw [write_flash_from_file_fread] at h
      by_cases hs : stream.length < 1024
      · simp only [hs, if_true] at h
        split at h
        · next hle =>
            have := Option.some.inj h
            rw [← this]
            simp only [List.length_append, List.length_take, List.length_drop]
            omega
        · cases h
      · simp only [hs, if_false] at h
        split at h
        · next hle =>
            have := ih _ _ _ _ (by simp only [List.length_drop]; omega) h
            rw [this]
            simp only [List.length_append, List.length_take, List.length_drop]
            omega
        · cases h

theorem fread_all :
    ∀ (n : Nat) (stream : List Nat) (i : Nat) (file_data : List Nat), stream.length ≤ n →
      i + stream.length ≤ file_data.length →
      write_flash_from_file_fread stream i file_data =
        some (file_data.take i ++ stream ++ file_data.drop (i + stream.length)) := by
  intro n
  induction n with
  | zero =>
      intro stream i file_data hn hle
      have hs : stream.length = 0 := by omega
      have hnil : stream = [] := List.length_eq_zero.mp hs
      subst hnil
      rw [write_flash_from_file_fread]
      have hi : i ≤ file_data.length := by simpa using hle
      simp [hi]
  | succ n ih =>
      intro stream i file_data hn hle
      rw [write_flash_from_file_fread]
      by_cases hs : stream.length < 1024
      · simp only [hs, if_true, hle]
        rw [List.take_of_length_le (Nat.le_refl _)]
      · have h1024 : 1024 ≤ stream.length := by omega
        simp only [hs, if_false]
        rw [if_pos (by omega)]
        rw [ih _ _ _ (by simp only [List.length_drop]; omega)
          (by simp only [List.length_append, List.length_take, List.length_drop]; omega)]
        congr 1
        have hl1 : (List.take i file_data).length = i := by
          rw [List.length_take]; omega
        have hl2 : (List.take 1024 stream).length = 1024 := by
          rw [List.length_take]; omega
        have e1 : List.take (i + 1024)
            (List.take i file_data ++ List.take 1024 stream ++ List.drop (i + 1024) file_data)
            = List.take i file_data ++ List.take 1024 stream := by
          rw [List.take_append_of_le_length (by
            rw [List.length_append, hl1, hl2])]
          exact List.take_of_length_le (by rw [List.length_append, hl1, hl2])
        have e2 : List.drop (i + 1024 + (List.drop 1024 stream).length)
            (List.take i file_data ++ List.take 1024 stream ++ List.drop (i + 1024) file_data)
            = List.drop (i + stream.length) file_data := by
          have hlen : (List.take i file_data ++ List.take 1024 stream).length = i + 1024 := by
            rw [List.length_append, hl1, hl2]
          have hk : i + 1024 + (List.drop 1024 stream).length
              = (List.take i file_data ++ List.take 1024 stream).length
                + (stream.length - 1024) := by
            rw [hlen, List.length_drop]
          rw [hk, List.drop_append, List.drop_drop,
            show i + 1024 + (stream.length - 1024) = i + stream.length by omega]
        rw [e1, e2, List.append_assoc (List.take i file_data), List.take_append_drop]

end Files

section Protocol

variable {σ α β : Type}

theorem protocol_append (xs ys : List Event) :
    ∀ p, protocol p (xs ++ ys) = (protocol p xs).bind (fun q => protocol q ys) := by
  induction xs with
  | nil => intro p; rfl
  | cons e es ih =>
      intro p
      simp only [List.cons_append, protocol]
      cases protocol_step p e with
      | none => rfl
      | some q => exact ih q

theorem protocol_quiet (evs : List Event) (h : ∀ e ∈ evs, quiet e) :
    protocol Phase.enabled evs = some Phase.enabled := by
  induction evs with
  | nil => rfl
  | cons e es ih =>
      have he := h e (List.mem_cons_self _ _)
      have hes := ih (fun x hx => h x (List.mem_cons_of_mem _ hx))
      cases e with
      | transfer tx rx => simp only [protocol, protocol_step, Option.bind_some]; exact hes
      | delay ms => simp only [protocol, protocol_step, Option.bind_some]; exact hes
      | gpio pin v => exact absurd he (by simp [quiet])
      | print s a => simp only [protocol, protocol_step, Option.bind_some]; exact hes
      | gpio_init pin => exact absurd he (by simp [quiet])

theorem obeys_andThen (p q q2 : Phase) (w : World σ) (r : Result σ α)
    (f : α → World σ → Result σ β) (h : Obeys p q w r)
    (hf : ∀ a w1, r = .ok a w1 → Obeys q q2 w1 (f a w1)) : Obeys p q2 w (r.andThen f) := by
  cases r with
  | ok a w1 =>
      obtain ⟨evs1, ht1, -, hq1⟩ := h
      obtain ⟨evs2, ht2, hs2, hq2⟩ := hf a w1 rfl
      have hp1 : protocol p evs1 = some q := hq1 rfl
      refine ⟨evs1 ++ evs2, ?_, ?_, ?_⟩
      · show (f a w1).world.trace = _
        rw [ht2, show w1.trace = w.trace ++ evs1 from ht1, List.append_assoc]
      · rw [protocol_append, hp1]; exact hs2
      · intro he
        rw [protocol_append, hp1]
        exact hq2 he
  | exit e w1 =>
      obtain ⟨evs1, ht1, hs1, -⟩ := h
      exact ⟨evs1, ht1, hs1, fun he => by cases he⟩

theorem obeys_of_run {E : Err → Prop} {Q : α → Prop} (w : World σ) (r : Result σ α) (h : Run quiet E Q w r) :
    Obeys Phase.enabled Phase.enabled w r := by
  obtain ⟨⟨evs, ht, hp⟩, -, -⟩ := h
  exact ⟨evs, ht, by rw [protocol_quiet evs hp]; rfl, fun _ => protocol_quiet evs hp⟩

theorem obeys_exit (p q : Phase) (w : World σ) (e : Err) :
    Obeys p q w (.exit e w : Result σ α) :=
  ⟨[], by simp [Result.world], rfl, fun he => by cases he⟩

theorem obeys_ok (p : Phase) (w w1 : World σ) (a : α) (ht : w1.trace = w.trace) :
    Obeys p p w (.ok a w1) :=
  ⟨[], by simp [Result.world, ht], rfl, fun _ => rfl⟩

theorem obeys_gpio_set (p : Phase) (pin : Int) (value : Nat) (w : World σ) :
    Obeys p Phase.fresh w (gpio_set pin value w) :=
  ⟨[Event.gpio pin value], rfl, by cases p <;> rfl, fun _ => by cases p <;> rfl⟩

theorem obeys_gpio_init_out (p : Phase) (pin : Int) (w : World σ) :
    Obeys p Phase.fresh w (gpio_init_out pin w) :=
  ⟨[Event.gpio_init pin], rfl, by cases p <;> rfl, fun _ => by cases p <;> rfl⟩

theorem obeys_delay (p : Phase) (t : Target σ) (ms : Nat) (w : World σ) :
    Obeys p p w (delay t ms w) := by
  rcases ht : t.sleep w.dev ms with _ | d
  · have : delay t ms w = .exit Err.sleep_error w := by simp [delay, ht, print_error_end_exit]
    rw [this]
    exact obeys_exit p p w _
  · rw [delay_some t ms w d ht]
    exact ⟨[Event.delay ms], rfl, by cases p <;> rfl, fun _ => by cases p <;> rfl⟩

theorem obeys_reset_short_pulse (p : Phase) (t : Target σ) (pin : Int) (w : World σ) :
    Obeys p Phase.fresh w (reset_short_pulse t pin w) := by
  unfold reset_short_pulse
  refine obeys_andThen p Phase.fresh Phase.fresh _ _ _ (obeys_gpio_set p pin 1 w)
    (fun _ w1 _ => ?_)
  refine obeys_andThen Phase.fresh Phase.fresh Phase.fresh _ _ _ (obeys_delay _ t 100 w1)
    (fun _ w2 _ => ?_)
  exact obeys_gpio_set _ pin 0 w2

theorem obeys_enable_programming (t : Target σ) (w : World σ) :
    Obeys Phase.fresh Phase.enabled w (enable_programming t w) := by
  rcases ht : t.transfer w.dev [0xAC, 0x53, 0x00, 0x00] with _ | ⟨d, rx⟩
  · have hs : send_data t 4 { w with tx_buf := put4 w.tx_buf 0 0xAC 0x53 0x00 0x00 }
        = .exit Err.sending_failed { w with tx_buf := put4 w.tx_buf 0 0xAC 0x53 0x00 0x00 } := by
      have : t.transfer w.dev (List.map (put4 w.tx_buf 0 0xAC 0x53 0x00 0x00) (List.range 4))
          = none := by simpa [range4, put4] using ht
      simp [send_data, buffer_size, page_size_in_bytes, instruction_size, this,
        print_error_end_exit]
    simp only [enable_programming, set_instruction_put4 0 _ _ _ _ w (by norm_num),
      Result.andThen, hs]
    exact ⟨[], by simp [Result.world], rfl, fun he => by cases he⟩
  · have hs := send_data_some t 4 { w with tx_buf := put4 w.tx_buf 0 0xAC 0x53 0x00 0x00 } d rx
      (by norm_num) (by simpa [range4, put4] using ht)
    have htx : List.map (put4 w.tx_buf 0 0xAC 0x53 0x00 0x00) (List.range 4)
        = [0xAC, 0x53, 0x00, 0x00] := by simp [range4, put4]
    simp only [enable_programming, set_instruction_put4 0 _ _ _ _ w (by norm_num),
      Result.andThen, hs, print_error_end_exit, htx]
    simp only [show (2 : Nat) < 4 by norm_num, if_true]
    by_cases hb : (received 4 rx).getD 2 0 = 0x53
    · rw [if_neg (not_not.mpr hb)]
      refine ⟨[Event.transfer [0xAC, 0x53, 0x00, 0x00] (received 4 rx)], rfl, ?_, fun _ => ?_⟩
      · simp only [protocol, protocol_step, if_true, hb]; rfl
      · simp only [protocol, protocol_step, if_true, hb]; rfl
    · rw [if_pos hb]
      refine ⟨[Event.transfer [0xAC, 0x53, 0x00, 0x00] (received 4 rx)], rfl, ?_,
        fun he => by cases he⟩
      simp only [protocol, protocol_step, if_true, hb, if_false]; rfl

end Protocol

section Orders

variable {σ α β : Type}

theorem run_read_signature_byte {P : Event → Prop} {E : Err → Prop} (hP : BusOnly P) (hE : BusErr E) (t : Target σ) (addr : Nat)
    (w : World σ) : Run P E (fun _ : Nat => True) w (read_signature_byte t addr w) := by
  unfold read_signature_byte
  refine run_andThen _ _ _ (run_set_instruction _ _ _ _ _ _ (by norm_num)) (fun _ w1 _ _ => ?_)
  refine run_andThen _ _ _ (run_send_data hP hE t 4 w1 (by norm_num) (by norm_num))
    (fun _ w2 _ _ => ?_)
  exact run_ok w2 w2 _ trivial rfl

theorem run_read_fuse_bits {P : Event → Prop} {E : Err → Prop} (hP : BusOnly P) (hE : BusErr E) (t : Target σ) (high : Bool)
    (w : World σ) : Run P E (fun _ : Nat => True) w (read_fuse_bits t high w) := by
  unfold read_fuse_bits
  refine run_andThen _ _ _ (run_set_instruction _ _ _ _ _ _ (by norm_num)) (fun _ w1 _ _ => ?_)
  refine run_andThen _ _ _ (run_send_data hP hE t 4 w1 (by norm_num) (by norm_num))
    (fun _ w2 _ _ => ?_)
  exact run_ok w2 w2 _ trivial rfl

theorem run_check_signature {P : Event → Prop} {E : Err → Prop} (hP : BusOnly P) (hE : BusErr E) (t : Target σ) (w : World σ) :
    Run P E (fun _ : Unit => True) w (check_signature t w) := by
  unfold check_signature
  refine run_andThen _ _ _ (run_read_signature_byte hP hE t _ w) (fun b1 w1 _ _ => ?_)
  refine run_andThen _ _ _ (run_read_signature_byte hP hE t _ w1) (fun b2 w2 _ _ => ?_)
  refine run_andThen _ _ _ (run_read_signature_byte hP hE t _ w2) (fun b3 w3 _ _ => ?_)
  refine run_andThen _ _ _ (run_printf hP _ _ w3) (fun _ w4 _ _ => ?_)
  split
  · exact run_printf hP _ _ w4
  · exact run_exit w4 w4 _ hE.2.2.2 rfl

theorem run_erase_chip {P : Event → Prop} {E : Err → Prop} (hP : BusOnly P) (hE : BusErr E) (t : Target σ) (w : World σ) :
    Run P E (fun _ : Unit => True) w (erase_chip t w) := by
  unfold erase_chip
  refine run_andThen _ _ _ (run_printf hP _ _ w) (fun _ w1 _ _ => ?_)
  refine run_andThen _ _ _ (run_set_instruction _ _ _ _ _ _ (by norm_num)) (fun _ w2 _ _ => ?_)
  refine run_andThen _ _ _ (run_send_data hP hE t 4 w2 (by norm_num) (by norm_num))
    (fun _ w3 _ _ => ?_)
  exact run_delay hP hE t 10 w3

theorem run_write_fuse_bits {P : Event → Prop} {E : Err → Prop} (hP : BusOnly P) (hE : BusErr E) (t : Target σ) (value : Nat)
    (high : Bool) (w : World σ) : Run P E (fun _ : Unit => True) w (write_fuse_bits t value high w) := by
  unfold write_fuse_bits
  refine run_andThen _ _ _ (run_set_instruction _ _ _ _ _ _ (by norm_num)) (fun _ w1 _ _ => ?_)
  refine run_andThen _ _ _ (run_send_data hP hE t 4 w1 (by norm_num) (by norm_num))
    (fun _ w2 _ _ => ?_)
  refine run_andThen _ _ _ (run_printf hP _ _ w2) (fun _ w3 _ _ => ?_)
  exact run_delay hP hE t 10 w3

theorem run_verify {P : Event → Prop} {E : Err → Prop} (hP : BusOnly P) (file_data flash_data : List Nat)
    (len : Nat) (w : World σ) (h1 : len ≤ file_data.length) (h2 : len ≤ flash_data.length) :
    Run P E (fun _ : Unit => True) w (write_flash_from_file_verify file_data flash_data len w) := by
  unfold write_flash_from_file_verify
  rw [compare_ok file_data flash_data len 0 false w (by omega) (by omega)]
  simp only [Result.andThen]
  have hw : Run P E (fun _ : Unit => True) w (.ok ()
      ({ w with trace := (w.trace ++
        ((List.range' 0 len).filter (fun x => file_data.getD x 0 != flash_data.getD x 0)).map
          (fun x => Event.print "data mismatch at byte %d: expected %.2X, got %.2X\n"
            [x, file_data.getD x 0, flash_data.getD x 0])) } : World σ)) := by
    refine ⟨⟨_, rfl, ?_⟩, (fun _ h => by cases h), fun _ _ _ => trivial⟩
    intro e he
    obtain ⟨x, -, rfl⟩ := List.mem_map.mp he
    exact hP.2.1 _ _
  have := run_andThen (R := fun _ : Unit => True) w _
    (fun (_ : Unit) (w1 : World σ) =>
      if (false || (List.range' 0 len).any
          (fun x => file_data.getD x 0 != flash_data.getD x 0)) = true then
        printf "flash programming faild: data mismatch\n" [] w1
      else printf "flash programming OK!\n" [] w1) hw
    (fun _ w1 _ _ => by split <;> exact run_printf hP _ _ w1)
  simpa only [Result.andThen] using this

theorem obeys_maybe (p : Phase) (c : Prop) [Decidable c] (w : World σ) (r : Result σ Unit)
    (h : Obeys p p w r) : Obeys p p w (if c then r else .ok () w) := by
  split
  · exact h
  · exact obeys_ok p w w () rfl

theorem obeys_write_flash_from_file (host : Host) (t : Target σ) (pin : Int) (path : String)
    (w : World σ) :
    Obeys Phase.enabled Phase.enabled w (write_flash_from_file host t pin path w) := by
  unfold write_flash_from_file
  split
  · exact obeys_exit _ _ w _
  · next file_len _ =>
    split
    · exact obeys_exit _ _ w _
    · next hle =>
      have hfs : flash_size = 8192 := rfl
      have hlen : file_len ≤ 8192 := by
        rw [hfs] at hle; omega
      split
      · exact obeys_exit _ _ w _
      · next stream _ =>
        split
        · exact obeys_exit _ _ w _
        · next file_data hfd =>
          have hfl : file_data.length = 8192 := by
            rw [fread_length _ stream 0 _ file_data (Nat.le_refl _) hfd, List.length_replicate,
              hfs]
          refine obeys_andThen _ Phase.enabled _ _ _ _
            (obeys_of_run w _ (run_erase_chip quiet_busOnly any_busErr t w)) (fun _ w1 _ => ?_)
          refine obeys_andThen _ Phase.enabled _ _ _ _
            (obeys_of_run w1 _ (run_write_flash quiet_busOnly any_busErr t file_data file_len true w1
              (by omega))) (fun _ w2 _ => ?_)
          refine obeys_andThen _ Phase.fresh _ _ _ _
            (obeys_reset_short_pulse _ t pin w2) (fun _ w3 _ => ?_)
          refine obeys_andThen _ Phase.enabled _ _ _ _
            (obeys_enable_programming t w3) (fun _ w4 _ => ?_)
          have hread := run_read_program_memory quiet_busOnly any_busErr t 0 (List.replicate flash_size 0)
            file_len true w4 (by rw [List.length_replicate, hfs]; omega)
          refine obeys_andThen _ Phase.enabled _ _ _ _ (obeys_of_run w4 _ hread)
            (fun flash_data w5 hr => ?_)
          have hfl2 : flash_data.length = 8192 := by
            rw [(hread.2.2 flash_data w5 hr).1, List.length_replicate, hfs]
          exact obeys_of_run (E := fun _ => True) w5 _ (run_verify quiet_busOnly file_data flash_data file_len w5
            (by omega) (by omega))

theorem obeys_main (params : Params) (host : Host) (t : Target σ) (w : World σ) :
    Obeys Phase.fresh Phase.fresh w (main params host t w) := by
  unfold main
  refine obeys_andThen _ Phase.fresh _ _ _ _ (obeys_gpio_init_out _ _ w) (fun _ w0 _ => ?_)
  split
  · exact obeys_exit _ _ w0 _
  split
  · exact obeys_exit _ _ w0 _
  split
  · exact obeys_exit _ _ w0 _
  split
  · exact obeys_exit _ _ w0 _
  split
  · exact obeys_exit _ _ w0 _
  refine obeys_andThen _ Phase.fresh _ _ _ _
    (obeys_reset_short_pulse _ t _ w0) (fun _ w1 _ => ?_)
  refine obeys_andThen _ Phase.enabled _ _ _ _ (obeys_enable_programming t w1) (fun _ w2 _ => ?_)
  refine obeys_andThen _ Phase.enabled _ _ _ _
    (obeys_of_run w2 _ (run_check_signature quiet_busOnly any_busErr t w2)) (fun _ w3 _ => ?_)
  refine obeys_andThen _ Phase.enabled _ _ _ _
    (obeys_of_run w3 _ (run_read_fuse_bits quiet_busOnly any_busErr t false w3)) (fun lfuse w4 _ => ?_)
  refine obeys_andThen _ Phase.enabled _ _ _ _
    (obeys_of_run w4 _ (run_read_fuse_bits quiet_busOnly any_busErr t true w4)) (fun hfuse w5 _ => ?_)
  refine obeys_andThen _ Phase.enabled _ _ _ _
    (obeys_of_run (E := fun _ => True) w5 _ (run_printf quiet_busOnly _ _ w5)) (fun _ w6 _ => ?_)
  refine obeys_andThen _ Phase.enabled _ _ _ _
    (obeys_maybe _ _ w6 _ (obeys_of_run w6 _ (run_write_fuse_bits quiet_busOnly any_busErr t _ false w6)))
    (fun _ w7 _ => ?_)
  refine obeys_andThen _ Phase.enabled _ _ _ _
    (obeys_maybe _ _ w7 _ (obeys_of_run w7 _ (run_write_fuse_bits quiet_busOnly any_busErr t _ true w7)))
    (fun _ w8 _ => ?_)
  refine obeys_andThen _ Phase.enabled _ _ _ _
    (obeys_maybe _ _ w8 _ (obeys_write_flash_from_file host t _ _ w8)) (fun _ w9 _ => ?_)
  refine obeys_andThen _ Phase.fresh _ _ _ _
    (obeys_reset_short_pulse _ t _ w9) (fun _ w10 _ => ?_)
  refine obeys_andThen _ Phase.fresh _ _ _ _ (obeys_gpio_set _ _ 1 w10) (fun _ w11 _ => ?_)
  exact obeys_ok _ w11 w11 0 rfl

theorem andThen_ok (r : Result σ α) (f : α → World σ → Result σ β) (b : β) (w2 : World σ)
    (h : r.andThen f = .ok b w2) : ∃ a w1, r = .ok a w1 ∧ f a w1 = .ok b w2 := by
  cases r with
  | ok a w1 => exact ⟨a, w1, rfl, h⟩
  | exit e w1 => cases h

theorem cleanup_suffix (t : Target σ) (pin : Int) (w : World σ) (code : Int) (w2 : World σ)
    (h : ((reset_short_pulse t pin w).andThen fun _ w =>
      (gpio_set pin 1 w).andThen fun _ w => .ok (0 : Int) w) = .ok code w2) :
    w2.trace = w.trace ++
      [Event.gpio pin 1, Event.delay 100, Event.gpio pin 0, Event.gpio pin 1] := by
  unfold reset_short_pulse at h
  simp only [gpio_set, Result.andThen] at h
  rcases ht : t.sleep w.dev 100 with _ | d
  · have hd : delay t 100 { w with trace := w.trace ++ [Event.gpio pin 1] }
        = .exit Err.sleep_error { w with trace := w.trace ++ [Event.gpio pin 1] } := by
      simp [delay, ht, print_error_end_exit]
    rw [hd] at h
    cases h
  · rw [delay_some t 100 { w with trace := w.trace ++ [Event.gpio pin 1] } d ht] at h
    simp only [Result.ok.injEq] at h
    rw [← h.2]
    simp

end Orders

section Returns

variable {σ α β : Type}

theorem error_andThen (r : Result σ α) (f : α → World σ → Result σ β) (h : r.error = none)
    (hf : ∀ a w1, r = .ok a w1 → (f a w1).error = none) : (r.andThen f).error = none := by
  cases r with
  | ok a w1 => exact hf a w1 rfl
  | exit e w1 => cases h

theorem ok_of_error (r : Result σ α) (h : r.error = none) : ∃ a w1, r = .ok a w1 := by
  cases r with
  | ok a w1 => exact ⟨a, w1, rfl⟩
  | exit e w1 => cases h

theorem run_trace {P : Event → Prop} {E : Err → Prop} {Q : α → Prop} (w : World σ)
    (r : Result σ α) (h : Run P E Q w r) : r.world.trace = w.trace ++ added w r := by
  obtain ⟨⟨evs, ht, -⟩, -, -⟩ := h
  rw [added_of_trace w r evs ht, ht]

theorem erase_chip_some (t : Target σ) (w : World σ) (d1 d2 : σ) (rx : List Nat)
    (h1 : t.transfer w.dev [0xAC, 0x80, 0x00, 0x00] = some (d1, rx))
    (h2 : t.sleep d1 10 = some d2) :
    ∃ w1, erase_chip t w = .ok () w1 ∧ w1.dev = d2 ∧
      w1.trace = w.trace ++
        [Event.print " # performing chip erase\n" [],
         Event.transfer [0xAC, 0x80, 0x00, 0x00] (received 4 rx), Event.delay 10] := by
  have hs := send_data_some t 4
    { w with tx_buf := put4 w.tx_buf 0 0xAC 0x80 0x00 0x00,
             trace := w.trace ++ [Event.print " # performing chip erase\n" []] }
    d1 rx (by norm_num) (by simpa [range4, put4] using h1)
  simp only [erase_chip, printf, Result.andThen,
    set_instruction_put4 0 _ _ _ _ _ (show 0 + 3 < 256 by norm_num), hs]
  rw [delay_some t 10 _ d2 h2]
  refine ⟨_, rfl, rfl, ?_⟩
  simp [range4, put4]

theorem reset_short_pulse_some (t : Target σ) (pin : Int) (w : World σ) (d : σ)
    (h : t.sleep w.dev 100 = some d) :
    ∃ w1, reset_short_pulse t pin w = .ok () w1 ∧ w1.dev = d ∧
      w1.trace = w.trace ++ [Event.gpio pin 1, Event.delay 100, Event.gpio pin 0] := by
  simp only [reset_short_pulse, gpio_set, Result.andThen]
  rw [delay_some t 100 { w with trace := w.trace ++ [Event.gpio pin 1] } d h]
  exact ⟨_, rfl, rfl, by simp⟩

theorem enable_programming_some (t : Target σ) (w : World σ) (d : σ) (rx : List Nat)
    (h : t.transfer w.dev [0xAC, 0x53, 0x00, 0x00] = some (d, rx))
    (hack : rx.getD 2 0 % 256 = 0x53) :
    ∃ w1, enable_programming t w = .ok () w1 ∧ w1.dev = d ∧
      w1.trace = w.trace ++ [Event.transfer [0xAC, 0x53, 0x00, 0x00] (received 4 rx)] := by
  have hs := send_data_some t 4 { w with tx_buf := put4 w.tx_buf 0 0xAC 0x53 0x00 0x00 } d rx
    (by norm_num) (by simpa [range4, put4] using h)
  have htx : List.map (put4 w.tx_buf 0 0xAC 0x53 0x00 0x00) (List.range 4)
      = [0xAC, 0x53, 0x00, 0x00] := by simp [range4, put4]
  have hb : (received 4 rx).getD 2 0 = 0x53 := by
    rw [received_getD 4 2 rx (by norm_num)]; exact hack
  simp only [enable_programming, set_instruction_put4 0 _ _ _ _ w (by norm_num),
    Result.andThen, hs, print_error_end_exit, htx]
  simp only [show (2 : Nat) < 4 by norm_num, if_true]
  rw [if_neg (not_not.mpr hb)]
  exact ⟨_, rfl, rfl, rfl⟩

theorem write_flash_returns (t : Target σ) (hrel : t.reliable) (data : List Nat) (len : Nat)
    (progress : Bool) (w : World σ) (hd : len ≤ data.length) :
    ∃ w1, write_flash t data len progress w = .ok () w1 := by
  obtain ⟨w1, hrun, -⟩ :=
    write_flash_pages_run t hrel data len progress hd ((len + 63) / 64) 0 0 w (by simp)
  exact ⟨w1, hrun⟩

theorem transfers_prints (f : Nat → String × List Nat) (l : List Nat) :
    transfers (l.map (fun x => Event.print (f x).1 (f x).2)) = [] := by
  induction l with
  | nil => rfl
  | cons a l ih => simpa [transfers] using ih

theorem verify_returns (file_data flash_data : List Nat) (len : Nat) (w : World σ)
    (h1 : len ≤ file_data.length) (h2 : len ≤ flash_data.length) :
    ∃ w1, write_flash_from_file_verify file_data flash_data len w = .ok () w1 ∧
      transfers (added w (write_flash_from_file_verify file_data flash_data len w)) = [] := by
  obtain ⟨L, m, hcmp, htp⟩ : ∃ (L : List Event) (m : Bool),
      write_flash_from_file_compare file_data flash_data len 0 false w =
        .ok m { w with trace := (w.trace ++ L) } ∧ transfers L = [] :=
    ⟨_, _, compare_ok file_data flash_data len 0 false w (by omega) (by omega),
      transfers_prints
        (fun x => ("data mismatch at byte %d: expected %.2X, got %.2X\n",
          [x, file_data.getD x 0, flash_data.getD x 0]))
        ((List.range' 0 len).filter (fun x => file_data.getD x 0 != flash_data.getD x 0))⟩
  simp only [write_flash_from_file_verify, hcmp, Result.andThen, printf]
  split
  · refine ⟨_, rfl, ?_⟩
    rw [added_of_trace w _ (L ++ [Event.print "flash programming faild: data mismatch\n" []])
      (by simp only [Result.world, List.append_assoc]), transfers_append, htp]
    rfl
  · refine ⟨_, rfl, ?_⟩
    rw [added_of_trace w _ (L ++ [Event.print "flash programming OK!\n" []])
      (by simp only [Result.world, List.append_assoc]), transfers_append, htp]
    rfl

theorem fread_image (image : List Nat) (h : image.length ≤ flash_size) :
    write_flash_from_file_fread image 0 (List.replicate flash_size 0) =
      some (image ++ List.replicate (flash_size - image.length) 0) := by
  rw [fread_all image.length image 0 _ (Nat.le_refl _)
    (by rw [List.length_replicate]; omega)]
  rw [List.take_zero, List.nil_append, Nat.zero_add, List.drop_replicate]

theorem padded_getElem? (image : List Nat) (n x : Nat) (hx : x < image.length) :
    (image ++ List.replicate n 0)[x]? = image[x]? :=
  List.getElem?_append_left hx

end Returns

section Orchestrator

variable {σ : Type}

theorem write_flash_from_file_steps (host : Host) (t : Target σ) (hrel : t.reliable)
    (hack : t.acks) (pin : Int) (path : String) (w : World σ) (image : List Nat)
    (hstat : host.stat path = some image.length) (hopen : host.fopen path = some image)
    (hlen : image.length ≤ flash_size) :
    ∃ (rx1 : List Nat) (w1 w2 w3 : World σ) (rx2 : List Nat) (w4 : World σ)
      (flash_data : List Nat) (w5 w6 : World σ),
      erase_chip t w = .ok () w1 ∧
      w1.trace = w.trace ++
        [Event.print " # performing chip erase\n" [],
         Event.transfer [0xAC, 0x80, 0x00, 0x00] rx1, Event.delay 10] ∧
      write_flash t image image.length true w1 = .ok () w2 ∧
      reset_short_pulse t pin w2 = .ok () w3 ∧
      w3.trace = w2.trace ++ [Event.gpio pin 1, Event.delay 100, Event.gpio pin 0] ∧
      enable_programming t w3 = .ok () w4 ∧
      w4.trace = w3.trace ++ [Event.transfer [0xAC, 0x53, 0x00, 0x00] rx2] ∧
      read_program_memory t 0 (List.replicate flash_size 0) image.length true w4
        = .ok flash_data w5 ∧
      write_flash_from_file_verify (image ++ List.replicate (flash_size - image.length) 0)
        flash_data image.length w5 = .ok () w6 ∧
      transfers (added w5 (write_flash_from_file_verify
        (image ++ List.replicate (flash_size - image.length) 0) flash_data image.length w5)) = [] ∧
      write_flash_from_file host t pin path w = .ok () w6 := by
  have hfs : flash_size = 8192 := rfl
  -- erase
  obtain ⟨⟨d1, rx1⟩, h1⟩ := Option.isSome_iff_exists.mp (hrel.1 w.dev [0xAC, 0x80, 0x00, 0x00])
  obtain ⟨d2, h2⟩ := Option.isSome_iff_exists.mp (hrel.2 d1 10)
  obtain ⟨w1, he, -, hte⟩ := erase_chip_some t w d1 d2 rx1 h1 h2
  -- write
  obtain ⟨w2, hw⟩ := write_flash_returns t hrel image image.length true w1 (Nat.le_refl _)
  have hw2 : write_flash t (image ++ List.replicate (flash_size - image.length) 0) image.length
      true w1 = .ok () w2 := by
    rw [write_flash_congr t _ image image.length true w1
      (fun x hx => padded_getElem? image _ x hx)]
    exact hw
  -- reset and enable
  obtain ⟨d3, h3⟩ := Option.isSome_iff_exists.mp (hrel.2 w2.dev 100)
  obtain ⟨w3, hr, hd3, htr⟩ := reset_short_pulse_some t pin w2 d3 h3
  obtain ⟨⟨d4, rx2⟩, h4⟩ := Option.isSome_iff_exists.mp (hrel.1 w3.dev [0xAC, 0x53, 0x00, 0x00])
  obtain ⟨w4, hen, -, hten⟩ := enable_programming_some t w3 d4 rx2 h4 (hack _ _ _ h4)
  -- read back
  obtain ⟨flash_data, w5, -, hrd, -, hfl, -⟩ := read_program_memory_issued t hrel 0
    (List.replicate flash_size 0) image.length true w4 (by rw [List.length_replicate]; exact hlen)
  -- compare
  obtain ⟨w6, hv, htv⟩ := verify_returns (image ++ List.replicate (flash_size - image.length) 0)
    flash_data image.length w5
    (by rw [List.length_append]; omega)
    (by rw [hfl, List.length_replicate]; exact hlen)
  refine ⟨received 4 rx1, w1, w2, w3, received 4 rx2, w4, flash_data, w5, w6, he, hte, hw, hr, htr,
    hen, hten, hrd, hv, htv, ?_⟩
  unfold write_flash_from_file
  simp only [hstat, hopen, fread_image image hlen, if_neg (Nat.not_lt.mpr hlen), gt_iff_lt]
  rw [he]
  simp only [Result.andThen]
  rw [hw2]
  simp only []
  rw [hr]
  simp only []
  rw [hen]
  simp only []
  rw [hrd]
  simp only []
  exact hv

end Orchestrator

section Traces

variable {σ α : Type}

theorem any_busOnly : BusOnly (fun _ => True) :=
  ⟨fun _ => trivial, fun _ _ => trivial, fun _ _ _ _ => trivial⟩

theorem trace_of_ok {P : Event → Prop} {E : Err → Prop} {Q : α → Prop} (w w1 : World σ)
    (r : Result σ α) (a : α) (h : Run P E Q w r) (hr : r = .ok a w1) :
    w1.trace = w.trace ++ added w r := by
  have := run_trace w r h
  rw [hr] at this ⊢
  exact this

theorem sim_acks : sim.acks := by
  intro s d rx h
  have e : (d, rx) = sim_transfer s [0xAC, 0x53, 0x00, 0x00] := (Option.some.inj h).symm
  have hrx : rx = [0, 0xAC, 0x53, 0] := by
    rw [show rx = (d, rx).2 from rfl, e]; rfl
  rw [hrx]; rfl

theorem blank_reliable : blank.reliable :=
  ⟨fun _ _ => rfl, fun _ _ => rfl⟩

theorem blank_acks : blank.acks := by
  intro s d rx h
  have e : (d, rx) = (s, blank_transfer [0xAC, 0x53, 0x00, 0x00]) := (Option.some.inj h).symm
  have hrx : rx = blank_transfer [0xAC, 0x53, 0x00, 0x00] := by
    rw [show rx = (d, rx).2 from rfl, e]
  rw [hrx]; rfl

theorem blank_signed : blank.signed := by
  refine ⟨?_, ?_, ?_⟩ <;>
  · intro s d rx h
    have e := (Option.some.inj h).symm
    have hrx : rx = (d, rx).2 := rfl
    rw [hrx, e]; rfl

end Traces

section MainRuns

variable {σ : Type}

theorem main_ok_steps (params : Params) (host : Host) (t : Target σ) (w : World σ)
    (code : Int) (w1 : World σ) (h : main params host t w = .ok code w1) :
    ∃ wh wi, (if params.enabled_operations_bitset &&& OP_WRITE_FLASH ≠ 0 then
        write_flash_from_file host t params.reset_gpio_pin params.flash_file wh
      else .ok () wh) = .ok () wi ∧
      code = 0 ∧
      w1.trace = wi.trace ++
        [Event.gpio params.reset_gpio_pin 1, Event.delay 100,
         Event.gpio params.reset_gpio_pin 0, Event.gpio params.reset_gpio_pin 1] := by
  unfold main at h
  obtain ⟨_, w0, -, h⟩ := andThen_ok _ _ _ _ h
  split at h
  · cases h
  split at h
  · cases h
  split at h
  · cases h
  split at h
  · cases h
  split at h
  · cases h
  obtain ⟨_, wa, -, h⟩ := andThen_ok _ _ _ _ h
  obtain ⟨_, wb, -, h⟩ := andThen_ok _ _ _ _ h
  obtain ⟨_, wc, -, h⟩ := andThen_ok _ _ _ _ h
  obtain ⟨_, wd, -, h⟩ := andThen_ok _ _ _ _ h
  obtain ⟨_, we, -, h⟩ := andThen_ok _ _ _ _ h
  obtain ⟨_, wf, -, h⟩ := andThen_ok _ _ _ _ h
  obtain ⟨_, wg, -, h⟩ := andThen_ok _ _ _ _ h
  obtain ⟨_, wh, -, h⟩ := andThen_ok _ _ _ _ h
  obtain ⟨_, wi, hflash, h⟩ := andThen_ok _ _ _ _ h
  refine ⟨wh, wi, hflash, ?_, cleanup_suffix t params.reset_gpio_pin wi code w1 h⟩
  obtain ⟨_, wj, -, h⟩ := andThen_ok _ _ _ _ h
  obtain ⟨_, wk, -, h⟩ := andThen_ok _ _ _ _ h
  simp only [Result.ok.injEq] at h
  exact h.1.symm

theorem main_ok_suffix (params : Params) (host : Host) (t : Target σ) (w : World σ)
    (code : Int) (w1 : World σ) (h : main params host t w = .ok code w1) :
    ∃ before, w1.trace = before ++
      [Event.gpio params.reset_gpio_pin 1, Event.delay 100, Event.gpio params.reset_gpio_pin 0,
       Event.gpio params.reset_gpio_pin 1] := by
  obtain ⟨_, wi, -, -, ht⟩ := main_ok_steps params host t w code w1 h
  exact ⟨wi.trace, ht⟩

theorem send_data_returns (t : Target σ) (hrel : t.reliable) (len : Nat) (w : World σ)
    (hlen : len ≤ 256) : (send_data t len w).error = none := by
  obtain ⟨⟨d, rx⟩, h⟩ := Option.isSome_iff_exists.mp
    (hrel.1 w.dev ((List.range len).map w.tx_buf))
  rw [send_data_some t len w d rx hlen h]
  rfl

theorem delay_returns (t : Target σ) (hrel : t.reliable) (ms : Nat) (w : World σ) :
    (delay t ms w).error = none := by
  obtain ⟨d, h⟩ := Option.isSome_iff_exists.mp (hrel.2 w.dev ms)
  rw [delay_some t ms w d h]
  rfl

theorem reset_short_pulse_returns (t : Target σ) (hrel : t.reliable) (pin : Int)
    (w : World σ) : (reset_short_pulse t pin w).error = none := by
  obtain ⟨d, h⟩ := Option.isSome_iff_exists.mp (hrel.2 w.dev 100)
  obtain ⟨w1, h1, -, -⟩ := reset_short_pulse_some t pin w d h
  rw [h1]
  rfl

theorem enable_programming_returns (t : Target σ) (hrel : t.reliable) (hack : t.acks)
    (w : World σ) : (enable_programming t w).error = none := by
  obtain ⟨⟨d, rx⟩, h⟩ := Option.isSome_iff_exists.mp (hrel.1 w.dev [0xAC, 0x53, 0x00, 0x00])
  obtain ⟨w1, h1, -, -⟩ := enable_programming_some t w d rx h (hack _ _ _ h)
  rw [h1]
  rfl

theorem read_fuse_bits_returns (t : Target σ) (hrel : t.reliable) (high : Bool)
    (w : World σ) : (read_fuse_bits t high w).error = none := by
  obtain ⟨⟨d, rx⟩, h⟩ := Option.isSome_iff_exists.mp
    (hrel.1 w.dev [if high then 0x58 else 0x50, 0x00, 0x00, 0x00])
  obtain ⟨w1, h1, -, -⟩ := read_fuse_bits_some t high w d rx h
  rw [h1]
  rfl

theorem write_fuse_bits_returns (t : Target σ) (hrel : t.reliable) (value : Nat) (high : Bool)
    (w : World σ) : (write_fuse_bits t value high w).error = none := by
  unfold write_fuse_bits
  rw [set_instruction_put4 0 _ _ _ _ w (by norm_num)]
  refine error_andThen _ _ rfl (fun _ w1 _ => ?_)
  refine error_andThen _ _ (send_data_returns t hrel 4 w1 (by norm_num)) (fun _ w2 _ => ?_)
  refine error_andThen _ _ rfl (fun _ w3 _ => ?_)
  exact delay_returns t hrel 10 w3

theorem check_signature_returns (t : Target σ) (hrel : t.reliable) (hsig : t.signed)
    (w : World σ) : (check_signature t w).error = none := by
  obtain ⟨⟨d1, rx1⟩, h1⟩ := Option.isSome_iff_exists.mp (hrel.1 w.dev [0x30, 0x00, 0x00, 0x00])
  obtain ⟨w1, e1, hd1, -⟩ := read_signature_byte_some t 0x00 w d1 rx1 (by norm_num) h1
  obtain ⟨⟨d2, rx2⟩, h2⟩ := Option.isSome_iff_exists.mp (hrel.1 w1.dev [0x30, 0x00, 0x01, 0x00])
  obtain ⟨w2, e2, hd2, -⟩ := read_signature_byte_some t 0x01 w1 d2 rx2 (by norm_num) h2
  obtain ⟨⟨d3, rx3⟩, h3⟩ := Option.isSome_iff_exists.mp (hrel.1 w2.dev [0x30, 0x00, 0x02, 0x00])
  obtain ⟨w3, e3, hd3, -⟩ := read_signature_byte_some t 0x02 w2 d3 rx3 (by norm_num) h3
  have b1 : (received 4 rx1).getD 3 0 = 0x1E := by
    rw [received_getD 4 3 rx1 (by norm_num)]; exact hsig.1 _ _ _ h1
  have b2 : (received 4 rx2).getD 3 0 = 0x93 := by
    rw [received_getD 4 3 rx2 (by norm_num)]; exact hsig.2.1 _ _ _ h2
  have b3 : (received 4 rx3).getD 3 0 = 0x07 := by
    rw [received_getD 4 3 rx3 (by norm_num)]; exact hsig.2.2 _ _ _ h3
  unfold check_signature
  rw [e1, b1]
  simp only [Result.andThen]
  rw [e2, b2]
  simp only [Result.andThen]
  rw [e3, b3]
  simp only [Result.andThen, printf]
  rfl

theorem main_returns (params : Params) (host : Host) (t : Target σ) (hrel : t.reliable)
    (hack : t.acks) (hsig : t.signed)
    (hhost : host.open_spi = true ∧ host.rd_mode = true ∧ host.wr_mode = true ∧
      host.wr_max_speed = true ∧ host.rd_max_speed = true)
    (hflash : ∀ w0 : World σ, params.enabled_operations_bitset &&& OP_WRITE_FLASH ≠ 0 →
      (write_flash_from_file host t params.reset_gpio_pin params.flash_file w0).error = none)
    (w : World σ) : (main params host t w).error = none := by
  obtain ⟨o1, o2, o3, o4, o5⟩ := hhost
  unfold main
  refine error_andThen _ _ rfl (fun _ w0 _ => ?_)
  rw [if_neg (by simp [o1]), if_neg (by simp [o2]), if_neg (by simp [o3]),
    if_neg (by simp [o4]), if_neg (by simp [o5])]
  refine error_andThen _ _ (reset_short_pulse_returns t hrel _ w0) (fun _ wa _ => ?_)
  refine error_andThen _ _ (enable_programming_returns t hrel hack wa) (fun _ wb _ => ?_)
  refine error_andThen _ _ (check_signature_returns t hrel hsig wb) (fun _ wc _ => ?_)
  refine error_andThen _ _ (read_fuse_bits_returns t hrel false wc) (fun lfuse wd _ => ?_)
  refine error_andThen _ _ (read_fuse_bits_returns t hrel true wd) (fun hfuse we _ => ?_)
  refine error_andThen _ _ rfl (fun _ wf _ => ?_)
  refine error_andThen _ _ ?_ (fun _ wg _ => ?_)
  · split
    · exact write_fuse_bits_returns t hrel _ _ wf
    · rfl
  refine error_andThen _ _ ?_ (fun _ wh _ => ?_)
  · split
    · exact write_fuse_bits_returns t hrel _ _ wg
    · rfl
  refine error_andThen _ _ ?_ (fun _ wi _ => ?_)
  · split
    · rename_i hb
      exact hflash wh hb
    · rfl
  refine error_andThen _ _ (reset_short_pulse_returns t hrel _ wi) (fun _ wj _ => ?_)
  rfl

end MainRuns


section FileSize

variable {σ : Type}

theorem run_gpio_set {P : Event → Prop} {E : Err → Prop} (hg : ∀ pin v, P (Event.gpio pin v))
    (pin : Int) (value : Nat) (w : World σ) :
    Run P E (fun _ : Unit => True) w (gpio_set pin value w) :=
  run_event w _ () _ trivial (hg pin value) rfl

theorem run_reset_short_pulse {P : Event → Prop} {E : Err → Prop} (hP : BusOnly P)
    (hE : BusErr E) (hg : ∀ pin v, P (Event.gpio pin v)) (t : Target σ) (pin : Int)
    (w : World σ) : Run P E (fun _ : Unit => True) w (reset_short_pulse t pin w) := by
  unfold reset_short_pulse
  refine run_andThen _ _ _ (run_gpio_set hg pin 1 w) (fun _ w1 _ _ => ?_)
  refine run_andThen _ _ _ (run_delay hP hE t 100 w1) (fun _ w2 _ _ => ?_)
  exact run_gpio_set hg pin 0 w2

theorem run_enable_programming {P : Event → Prop} {E : Err → Prop} (hP : BusOnly P)
    (hE : BusErr E) (t : Target σ) (w : World σ) :
    Run P E (fun _ : Unit => True) w (enable_programming t w) := by
  unfold enable_programming
  refine run_andThen _ _ _ (run_set_instruction _ _ _ _ _ _ (by norm_num)) (fun _ w1 _ _ => ?_)
  refine run_andThen _ _ _ (run_send_data hP hE t 4 w1 (by norm_num) (by norm_num))
    (fun _ w2 _ _ => ?_)
  split
  · exact run_exit w2 w2 _ hE.2.2.1 rfl
  · exact run_ok w2 w2 _ trivial rfl

theorem run_write_flash_from_file {P : Event → Prop} {E : Err → Prop} (hP : BusOnly P)
    (hE : BusErr E) (hg : ∀ pin v, P (Event.gpio pin v)) (hfo : E Err.file_open_failed)
    (hoob : E Err.out_of_bounds) (host : Host) (t : Target σ) (pin : Int) (path : String)
    (w : World σ) (size : Nat) (hstat : host.stat path = some size)
    (hle : size ≤ flash_size) :
    Run P E (fun _ : Unit => True) w (write_flash_from_file host t pin path w) := by
  have hfs : flash_size = 8192 := rfl
  have hlen : size ≤ 8192 := by rw [hfs] at hle; exact hle
  unfold write_flash_from_file
  rw [hstat]
  simp only []
  rw [if_neg (by omega)]
  split
  · exact run_exit w w _ hfo rfl
  · next stream _ =>
    split
    · exact run_exit w w _ hoob rfl
    · next file_data hfd =>
      have hfl : file_data.length = 8192 := by
        rw [fread_length _ stream 0 _ file_data (Nat.le_refl _) hfd, List.length_replicate, hfs]
      refine run_andThen _ _ _ (run_erase_chip hP hE t w) (fun _ w1 _ _ => ?_)
      refine run_andThen _ _ _ (run_write_flash hP hE t file_data size true w1 (by omega))
        (fun _ w2 _ _ => ?_)
      refine run_andThen _ _ _ (run_reset_short_pulse hP hE hg t pin w2) (fun _ w3 _ _ => ?_)
      refine run_andThen _ _ _ (run_enable_programming hP hE t w3) (fun _ w4 _ _ => ?_)
      refine run_andThen _ _ _ (run_read_program_memory hP hE t 0 (List.replicate flash_size 0)
        size true w4 (by rw [List.length_replicate, hfs]; omega)) (fun flash_data w5 _ hq => ?_)
      have hfl2 : flash_data.length = 8192 := by
        rw [hq.1, List.length_replicate, hfs]
      exact run_verify hP file_data flash_data size w5 (by omega) (by omega)

end FileSize


section Compare

variable {σ α : Type}

theorem verify_trace (source readback : List Nat) (len : Nat) (w : World σ)
    (hs : len ≤ source.length) (hr : len ≤ readback.length) :
    (write_flash_from_file_verify source readback len w).world.trace = w.trace ++
      ((List.range len).filter (fun i => source.getD i 0 != readback.getD i 0)).map
        (fun i => Event.print "data mismatch at byte %d: expected %.2X, got %.2X\n"
          [i, source.getD i 0, readback.getD i 0]) ++
      [Event.print
        (if (List.range len).filter (fun i => source.getD i 0 != readback.getD i 0) = [] then
          "flash programming OK!\n" else "flash programming faild: data mismatch\n") []] := by
  have hcmp := compare_ok source readback len 0 false w (by omega) (by omega)
  rw [← List.range_eq_range'] at hcmp
  have hany : (List.range len).any (fun x => source.getD x 0 != readback.getD x 0) = true ↔
      ¬ (List.range len).filter (fun i => source.getD i 0 != readback.getD i 0) = [] := by
    rw [List.filter_eq_nil_iff, List.any_eq_true]
    push_neg
    rfl
  simp only [write_flash_from_file_verify, hcmp, Result.andThen, Bool.false_or, printf]
  split
  · next h => rw [if_neg (hany.mp h)]; simp [Result.world]
  · next h =>
    have hnil : (List.range len).filter (fun i => source.getD i 0 != readback.getD i 0) = [] := by
      by_contra hne
      exact h (hany.mpr hne)
    rw [if_pos hnil]
    simp [Result.world]

theorem padded_getD (image : List Nat) (n x : Nat) (hx : x < image.length) :
    (image ++ List.replicate n 0).getD x 0 = image.getD x 0 := by
  rw [List.getD_eq_getElem?_getD, List.getD_eq_getElem?_getD, padded_getElem? image n x hx]

theorem mismatch_lines_congr (a b readback : List Nat) (len : Nat)
    (h : ∀ x, x < len → a.getD x 0 = b.getD x 0) :
    ((List.range len).filter (fun i => a.getD i 0 != readback.getD i 0)).map
        (fun i => Event.print "data mismatch at byte %d: expected %.2X, got %.2X\n"
          [i, a.getD i 0, readback.getD i 0]) ++
      [Event.print
        (if (List.range len).filter (fun i => a.getD i 0 != readback.getD i 0) = [] then
          "flash programming OK!\n" else "flash programming faild: data mismatch\n") []] =
    ((List.range len).filter (fun i => b.getD i 0 != readback.getD i 0)).map
        (fun i => Event.print "data mismatch at byte %d: expected %.2X, got %.2X\n"
          [i, b.getD i 0, readback.getD i 0]) ++
      [Event.print
        (if (List.range len).filter (fun i => b.getD i 0 != readback.getD i 0) = [] then
          "flash programming OK!\n" else "flash programming faild: data mismatch\n") []] := by
  have hf : (List.range len).filter (fun i => a.getD i 0 != readback.getD i 0) =
      (List.range len).filter (fun i => b.getD i 0 != readback.getD i 0) :=
    List.filter_congr (fun x hx => by rw [h x (List.mem_range.mp hx)])
  rw [hf]
  congr 1
  apply List.map_congr_left
  intro x hx
  rw [h x (List.mem_range.mp (List.mem_filter.mp hx).1)]

theorem sent_of_added (w : World σ) (r : Result σ α) (evs : List Event)
    (h : r.world.trace = w.trace ++ evs) : sent w r = (transfers evs).map Prod.fst := by
  rw [sent, issued_of_added w r evs h]

theorem transfers_mismatch_lines (source readback : List Nat) (l : List Nat) :
    transfers (l.map
      (fun i => Event.print "data mismatch at byte %d: expected %.2X, got %.2X\n"
        [i, source.getD i 0, readback.getD i 0])) = [] :=
  transfers_prints
    (fun x => ("data mismatch at byte %d: expected %.2X, got %.2X\n",
      [x, source.getD x 0, readback.getD x 0])) l

end Compare


/-! ## The claims -/

section Claims

variable {σ : Type}

/-- C1: for a buffer of bytes and a page-aligned length `len ≤ 8192`, `write_flash` followed
by `read_program_memory(0, out, len)` on the simulated target, started in any state, both
return, and the buffer read back agrees with `data` at every offset below `len`: the set of
mismatching offsets is empty.  The write takes `len / 64` load transfers and as many
commits. -/
theorem write_read_back_page_aligned (data : List Nat) (len : Nat) (buffer : List Nat)
    (progress1 progress2 : Bool) (w : World Sim) (hbytes : is_bytes data)
    (hd : len ≤ data.length) (hl : len ≤ flash_size) (hbuf : len ≤ buffer.length)
    (haligned : len % page_size_in_bytes = 0) :
    ∃ (w1 : World Sim) (out : List Nat) (w2 : World Sim),
      write_flash sim data len progress1 w = .ok () w1 ∧
      read_program_memory sim 0 buffer len progress2 w1 = .ok out w2 ∧
      (∀ i, i < len → out[i]? = data[i]?) ∧
      (List.range len).filter (fun i => out[i]? != data[i]?) = [] ∧
      (sent w (write_flash sim data len progress1 w)).length = 2 * (len / 64) := by
  obtain ⟨w1, out, w2, hw, hr, hout⟩ :=
    sim_write_then_read data len buffer progress1 progress2 w hbytes hd hl hbuf
  refine ⟨w1, out, w2, hw, hr, hout, ?_, ?_⟩
  · rw [List.filter_eq_nil_iff]
    intro i hi
    simp [hout i (List.mem_range.mp hi)]
  · rw [(write_flash_sent sim sim_reliable data len progress1 w hd).2, pairs_length]
    simp only [page_size_in_bytes] at haligned
    omega

/-- Witness for C1: the 128-byte image `0x00..0x7F`, two full pages. -/
theorem write_read_back_page_aligned_witness :
    ∃ (w1 : World Sim) (out : List Nat) (w2 : World Sim),
      write_flash sim (List.range 128) 128 false sim0 = .ok () w1 ∧
      read_program_memory sim 0 (List.replicate 128 0) 128 false w1 = .ok out w2 ∧
      (∀ i, i < 128 → out[i]? = (List.range 128)[i]?) ∧
      (List.range 128).filter (fun i => out[i]? != (List.range 128)[i]?) = [] ∧
      (sent sim0 (write_flash sim (List.range 128) 128 false sim0)).length = 4 :=
  write_read_back_page_aligned (List.range 128) 128 (List.replicate 128 0) false false sim0
    (range_is_bytes 128 (by decide)) (by simp) (by decide) (by simp) (by decide)

/-- C2: for a buffer of bytes and a length `0 < len ≤ 8192` that is not a multiple of the
64-byte page, `write_flash` followed by `read_program_memory(0, out, len)` on the simulated
target, started in any state, both return, and the buffer read back agrees with `data` at
every offset below `len`, the bytes of the partial last page included; that page is written
by a load transfer of `len mod 64` instructions, the last of `len / 64 + 1`. -/
theorem write_read_back_partial_page (data : List Nat) (len : Nat) (buffer : List Nat)
    (progress1 progress2 : Bool) (w : World Sim) (hbytes : is_bytes data)
    (hd : len ≤ data.length) (hl : len ≤ flash_size)
    (hbuf : len ≤ buffer.length) (hrem : len % page_size_in_bytes ≠ 0) :
    ∃ (w1 : World Sim) (out : List Nat) (w2 : World Sim),
      write_flash sim data len progress1 w = .ok () w1 ∧
      read_program_memory sim 0 buffer len progress2 w1 = .ok out w2 ∧
      (∀ i, i < len → out[i]? = data[i]?) ∧
      (List.range len).filter (fun i => out[i]? != data[i]?) = [] ∧
      (sent w (write_flash sim data len progress1 w)).length = 2 * (len / 64 + 1) ∧
      ∃ load, (sent w (write_flash sim data len progress1 w))[2 * (len / 64)]? = some load ∧
        load.length = 4 * (len % 64) := by
  obtain ⟨w1, out, w2, hw, hr, hout⟩ :=
    sim_write_then_read data len buffer progress1 progress2 w hbytes hd hl hbuf
  simp only [page_size_in_bytes] at hrem
  refine ⟨w1, out, w2, hw, hr, hout, ?_, ?_, ?_⟩
  · rw [List.filter_eq_nil_iff]
    intro i hi
    simp [hout i (List.mem_range.mp hi)]
  · rw [(write_flash_sent sim sim_reliable data len progress1 w hd).2, pairs_length]
    omega
  · refine ⟨_, (write_flash_transfers sim sim_reliable data len progress1 w hd (len / 64)
      (by omega)).1, ?_⟩
    rw [load_tx_length]
    omega

/-- Witness for C2: the 70-byte image `0x00..0x45`, one full page and 6 bytes. -/
theorem write_read_back_partial_page_witness :
    ∃ (w1 : World Sim) (out : List Nat) (w2 : World Sim),
      write_flash sim (List.range 70) 70 true sim0 = .ok () w1 ∧
      read_program_memory sim 0 (List.replicate 70 0) 70 true w1 = .ok out w2 ∧
      (∀ i, i < 70 → out[i]? = (List.range 70)[i]?) ∧
      (List.range 70).filter (fun i => out[i]? != (List.range 70)[i]?) = [] ∧
      (sent sim0 (write_flash sim (List.range 70) 70 true sim0)).length = 4 ∧
      ∃ load, (sent sim0 (write_flash sim (List.range 70) 70 true sim0))[2]? = some load ∧
        load.length = 24 :=
  write_read_back_partial_page (List.range 70) 70 (List.replicate 70 0) true true sim0
    (range_is_bytes 70 (by decide)) (by simp) (by decide) (by simp) (by decide)


/-- C3: on a target that answers, for a buffer of at least `len` bytes, `write_flash` returns
after sending exactly `ceil(len / 64)` page-commit instructions (opcode `0x4C`) in
`2 * ceil(len / 64)` transfers; the load transfer of page `p` is the transfer number `2 * p`
and holds one load instruction per byte `64 * p + j` of `data`, for `j` below 64 on every
page but the last and below `len mod 64` (64 when that is zero) on the last; all these
offsets are below `len`. -/
theorem write_flash_page_commits (t : Target σ) (hrel : t.reliable) (data : List Nat) (len : Nat)
    (progress : Bool) (w : World σ) (hbytes : is_bytes data) (hd : len ≤ data.length) :
    (write_flash t data len progress w).error = none ∧
    (instructions w (write_flash t data len progress w)).countP
      (fun f => decide (f.head? = some 0x4C)) = (len + 63) / 64 ∧
    (sent w (write_flash t data len progress w)).length = 2 * ((len + 63) / 64) ∧
    ∀ p, p < (len + 63) / 64 →
      64 * p + (if p + 1 < (len + 63) / 64 then 64 else if len % 64 = 0 then 64 else len % 64)
        ≤ len ∧
      (sent w (write_flash t data len progress w))[2 * p]? = some
        ((List.range
            (if p + 1 < (len + 63) / 64 then 64 else if len % 64 = 0 then 64 else len % 64)).flatMap
          (fun j => [if j % 2 = 0 then 0x40 else 0x48, 0x00, j / 2, data.getD (64 * p + j) 0])) := by
  obtain ⟨hok, hsent⟩ := write_flash_sent t hrel data len progress w hd
  refine ⟨hok, ?_, ?_, ?_⟩
  · rw [instructions, hsent, commit_count]
  · rw [hsent, pairs_length]
  · intro p hp
    have hcnt : (if p + 1 < (len + 63) / 64 then 64 else if len % 64 = 0 then 64 else len % 64)
        = min (len - 64 * p) 64 := by
      split_ifs <;> omega
    rw [hcnt]
    refine ⟨by omega, ?_⟩
    rw [(write_flash_transfers t hrel data len progress w hd p hp).1, load_tx_bytes data hbytes]

/-- Witness for C3: the 70-byte image `0x00..0x45` on the simulated target. -/
theorem write_flash_page_commits_witness :
    (instructions sim0 (write_flash sim (List.range 70) 70 false sim0)).countP
      (fun f => decide (f.head? = some 0x4C)) = 2 :=
  (write_flash_page_commits sim sim_reliable (List.range 70) 70 false sim0
    (range_is_bytes 70 (by decide)) (by simp)).2.1


/-- C4: on a target that answers, for `len > 0` and a buffer of at least `len` bytes, the
transfers of `write_flash` are, for `p = 0, 1, .., ceil(len / 64) - 1` in this order, the load
transfer of page `p` (one load instruction per byte `64 * p + j` of the page) immediately
followed by the page-commit frame that `write_program_memory_page(p)` builds, and nothing
else: the page number goes up by one per page whatever the size of the last page.  Below
2048 pages the two address bytes of the frame give `p` back. -/
theorem write_flash_page_numbers (t : Target σ) (hrel : t.reliable) (data : List Nat) (len : Nat)
    (progress : Bool) (w : World σ) (hd : len ≤ data.length) (hpos : 0 < len) :
    0 < (len + 63) / 64 ∧
    (sent w (write_flash t data len progress w)).length = 2 * ((len + 63) / 64) ∧
    ∀ p, p < (len + 63) / 64 →
      (sent w (write_flash t data len progress w))[2 * p]? = some
        ((List.range (min (len - 64 * p) 64)).flatMap
          (fun j => [if j % 2 = 0 then 0x40 else 0x48, 0x00, j / 2,
            data.getD (64 * p + j) 0 % 256])) ∧
      (sent w (write_flash t data len progress w))[2 * p + 1]? =
        some [0x4C, (p >>> 3) &&& 0xFF, (p <<< 5) &&& 0xFF, 0x00] ∧
      (p < 2048 → ((p >>> 3) &&& 0xFF) * 8 + ((p <<< 5) &&& 0xFF) / 32 = p) := by
  refine ⟨by omega, ?_, ?_⟩
  · rw [(write_flash_sent t hrel data len progress w hd).2, pairs_length]
  · intro p hp
    refine ⟨(write_flash_transfers t hrel data len progress w hd p hp).1,
      (write_flash_transfers t hrel data len progress w hd p hp).2, ?_⟩
    intro h2048
    rw [and_255, and_255, Nat.shiftRight_eq_div_pow, Nat.shiftLeft_eq]
    norm_num
    omega

/-- Witness for C4: the 70-byte image `0x00..0x45` gives four transfers, the second and the
fourth being the commits of pages 0 and 1. -/
theorem write_flash_page_numbers_witness :
    (sent sim0 (write_flash sim (List.range 70) 70 false sim0)).length = 4 ∧
    (sent sim0 (write_flash sim (List.range 70) 70 false sim0))[1]? = some [0x4C, 0x00, 0x00, 0x00] ∧
    (sent sim0 (write_flash sim (List.range 70) 70 false sim0))[3]? = some [0x4C, 0x00, 0x20, 0x00] :=
  ⟨(write_flash_page_numbers sim sim_reliable (List.range 70) 70 false sim0 (by simp)
      (by decide)).2.1,
    ((write_flash_page_numbers sim sim_reliable (List.range 70) 70 false sim0 (by simp)
      (by decide)).2.2 0 (by decide)).2.1,
    ((write_flash_page_numbers sim sim_reliable (List.range 70) 70 false sim0 (by simp)
      (by decide)).2.2 1 (by decide)).2.1⟩

/-- C5: when the transport answers the frame `(0xAC, 0x53, 0x00, 0x00)`, `enable_programming`
adds exactly that one 4-byte transfer to the trace and nothing after it; it ends the process
with the handshake error if and only if byte 2 of the response differs from `0x53`, and
returns if and only if that byte is `0x53`. -/
theorem enable_programming_handshake (t : Target σ) (w : World σ) (d : σ) (rx : List Nat)
    (h : t.transfer w.dev [0xAC, 0x53, 0x00, 0x00] = some (d, rx)) :
    (enable_programming t w).world.trace
        = w.trace ++ [Event.transfer [0xAC, 0x53, 0x00, 0x00] (received 4 rx)] ∧
      (enable_programming t w).world.dev = d ∧
      ((enable_programming t w).error = some Err.handshake ↔ (received 4 rx).getD 2 0 ≠ 0x53) ∧
      ((enable_programming t w).error = none ↔ (received 4 rx).getD 2 0 = 0x53) := by
  have hs := send_data_some t 4 { w with tx_buf := (fun k =>
        if k = 0 + 3 then 0x00 % 256
        else if k = 0 + 2 then 0x00 % 256
        else if k = 0 + 1 then 0x53 % 256
        else if k = 0 + 0 then 0xAC % 256
        else w.tx_buf k) } d rx (by norm_num) (by simpa [range4] using h)
  simp only [enable_programming, set_instruction_ok 0 _ _ _ _ w (by norm_num), Result.andThen, hs,
    print_error_end_exit]
  split_ifs with hb <;> simp_all [Result.world, Result.error, range4]

/-- Witness for C5: a target whose response has `0x00` where `0x53` is expected. -/
theorem enable_programming_handshake_witness :
    (enable_programming scripted
      { tx_buf := fun _ => 0, rx_buf := fun _ => 0, dev := [[0xFF, 0xAC, 0x00, 0x00]],
        trace := [] }).error = some Err.handshake :=
  (enable_programming_handshake scripted
    { tx_buf := fun _ => 0, rx_buf := fun _ => 0, dev := [[0xFF, 0xAC, 0x00, 0x00]], trace := [] }
    [] [0xFF, 0xAC, 0x00, 0x00] rfl).2.2.1.mpr (by decide)

/-- C6: when the transport answers them, `check_signature` sends the three frames
`(0x30, 0x00, addr, 0x00)` for `addr = 0, 1, 2` in this order and no other transfer; with
`b0, b1, b2` the 4th bytes of the three responses, it returns if and only if
`(b0, b1, b2) = (0x1E, 0x93, 0x07)` and ends the process with the signature error for every
other triple. -/
theorem check_signature_spec (t : Target σ) (w : World σ) (d0 d1 d2 : σ) (rx0 rx1 rx2 : List Nat)
    (h0 : t.transfer w.dev [0x30, 0x00, 0x00, 0x00] = some (d0, rx0))
    (h1 : t.transfer d0 [0x30, 0x00, 0x01, 0x00] = some (d1, rx1))
    (h2 : t.transfer d1 [0x30, 0x00, 0x02, 0x00] = some (d2, rx2)) :
    issued w (check_signature t w) =
        [([0x30, 0x00, 0x00, 0x00], received 4 rx0), ([0x30, 0x00, 0x01, 0x00], received 4 rx1),
         ([0x30, 0x00, 0x02, 0x00], received 4 rx2)] ∧
      ((check_signature t w).error = none ↔
        ((received 4 rx0).getD 3 0 = 0x1E ∧ (received 4 rx1).getD 3 0 = 0x93 ∧
          (received 4 rx2).getD 3 0 = 0x07)) ∧
      ((check_signature t w).error = some Err.signature_mismatch ↔
        ¬ ((received 4 rx0).getD 3 0 = 0x1E ∧ (received 4 rx1).getD 3 0 = 0x93 ∧
          (received 4 rx2).getD 3 0 = 0x07)) := by
  obtain ⟨w1, e1, hd1, ht1⟩ := read_signature_byte_some t 0 w d0 rx0 (by norm_num) h0
  obtain ⟨w2, e2, hd2, ht2⟩ := read_signature_byte_some t 1 w1 d1 rx1 (by norm_num) (hd1 ▸ h1)
  obtain ⟨w3, e3, hd3, ht3⟩ := read_signature_byte_some t 2 w2 d2 rx2 (by norm_num) (hd2 ▸ h2)
  simp only [check_signature, e1, e2, e3, Result.andThen, printf, print_error_end_exit]
  split_ifs with hb <;>
    simp_all [issued, Result.world, Result.error, transfers_append, transfers]

/-- Witness for C6: a target that answers with the signature of the ATmega8. -/
theorem check_signature_spec_witness :
    (check_signature scripted
      { tx_buf := fun _ => 0, rx_buf := fun _ => 0,
        dev := [[0, 0x30, 0, 0x1E], [0, 0x30, 0, 0x93], [0, 0x30, 0, 0x07]],
        trace := [] }).error = none :=
  (check_signature_spec scripted
    { tx_buf := fun _ => 0, rx_buf := fun _ => 0,
      dev := [[0, 0x30, 0, 0x1E], [0, 0x30, 0, 0x93], [0, 0x30, 0, 0x07]], trace := [] }
    [[0, 0x30, 0, 0x93], [0, 0x30, 0, 0x07]] [[0, 0x30, 0, 0x07]] []
    [0, 0x30, 0, 0x1E] [0, 0x30, 0, 0x93] [0, 0x30, 0, 0x07] rfl rfl rfl).2.1.mpr (by decide)


/-- C7: on a target that answers, for an output buffer of at least `len` bytes,
`read_program_memory` returns after exactly `ceil(len / 64)` transfers; every transfer but the
last holds 64 instructions of 4 bytes, the last holds `len - 64 * (ceil(len / 64) - 1)`, and
instruction `j` of transfer `c` has opcode `0x20` when the byte offset `64 * c + j` is even
and `0x28` when it is odd. -/
theorem read_program_memory_transfers (t : Target σ) (hrel : t.reliable) (word_addres : Nat)
    (buffer : List Nat) (len : Nat) (progress : Bool) (w : World σ) (hb : len ≤ buffer.length) :
    (read_program_memory t word_addres buffer len progress w).error = none ∧
    (sent w (read_program_memory t word_addres buffer len progress w)).length = (len + 63) / 64 ∧
    ∀ c, c < (len + 63) / 64 →
      ∃ tx, (sent w (read_program_memory t word_addres buffer len progress w))[c]? = some tx ∧
        tx.length =
          4 * (if c + 1 < (len + 63) / 64 then 64 else len - 64 * ((len + 63) / 64 - 1)) ∧
        (frames tx).length =
          (if c + 1 < (len + 63) / 64 then 64 else len - 64 * ((len + 63) / 64 - 1)) ∧
        ∀ j, j < (frames tx).length →
          ((frames tx)[j]?).bind List.head? = some (if (64 * c + j) % 2 = 0 then 0x20 else 0x28) := by
  obtain ⟨hok, hsent⟩ := read_program_memory_sent t hrel word_addres buffer len progress w hb
  refine ⟨hok, by rw [hsent]; simp, ?_⟩
  intro c hc
  have hcnt : (if c + 1 < (len + 63) / 64 then 64 else len - 64 * ((len + 63) / 64 - 1))
      = min (len - 64 * c) 64 := by
    split_ifs <;> omega
  rw [hcnt]
  refine ⟨read_tx word_addres (64 * c) (min (len - 64 * c) 64), ?_, read_tx_length _ _ _, ?_, ?_⟩
  · rw [hsent, List.getElem?_map, List.getElem?_range hc]
    rfl
  · rw [frames_read_tx]; simp
  · intro j hj
    rw [frames_read_tx] at hj ⊢
    simp only [List.length_map, List.length_range] at hj
    rw [List.getElem?_map, List.getElem?_range hj]
    rfl

/-- Witness for C7: reading 128 bytes from the simulated target takes exactly 2 transfers. -/
theorem read_program_memory_transfers_witness :
    (sent sim0 (read_program_memory sim 0 (List.replicate 128 0) 128 false sim0)).length = 2 :=
  (read_program_memory_transfers sim sim_reliable 0 (List.replicate 128 0) 128 false sim0
    (by simp)).2.1

/-- C8: on a target that answers, for an output buffer of at least `len` bytes and every
offset `i < len`, frame `i mod 64` of transfer `i div 64` of `read_program_memory` is
`(0x20, a >> 8, a & 0xFF, 0x00)` when `i` is even and `(0x28, a >> 8, a & 0xFF, 0x00)` when
`i` is odd, with `a = (word_addres + i div 2) mod 2^16`. -/
theorem read_program_memory_instruction (t : Target σ) (hrel : t.reliable) (word_addres : Nat)
    (buffer : List Nat) (len : Nat) (progress : Bool) (w : World σ) (hb : len ≤ buffer.length)
    (i : Nat) (hi : i < len) :
    ∃ tx, (sent w (read_program_memory t word_addres buffer len progress w))[i / 64]? = some tx ∧
      (frames tx)[i % 64]? = some
        [if i % 2 = 0 then 0x20 else 0x28,
         ((word_addres + i / 2) % 2 ^ 16) >>> 8,
         ((word_addres + i / 2) % 2 ^ 16) &&& 0xFF,
         0x00] := by
  obtain ⟨h1, h2⟩ := read_program_memory_frame t hrel word_addres buffer len progress w hb
    (i / 64) (i % 64) (by omega) (by omega)
  refine ⟨_, h1, ?_⟩
  rw [h2, show 64 * (i / 64) + i % 64 = i by omega]
  rfl

/-- Witness for C8: byte 65 of a 70-byte read at word address `0xFFF0` on the simulated
target is asked for with `(0x28, 0x00, 0x10, 0x00)`: the address wraps modulo `2^16`. -/
theorem read_program_memory_instruction_witness :
    ∃ tx, (sent sim0 (read_program_memory sim 0xFFF0 (List.replicate 70 0) 70 false sim0))[1]?
        = some tx ∧
      (frames tx)[1]? = some [0x28, 0x00, 0x10, 0x00] :=
  read_program_memory_instruction sim sim_reliable 0xFFF0 (List.replicate 70 0) 70 false sim0
    (by simp) 65 (by decide)


/-- C9: on a target that answers, for an output buffer of at least `len` bytes,
`read_program_memory` returns a buffer of the same length in which, for every `i < len`,
byte `i` is byte `4 * (i mod 64) + 3` of the response of transfer `i div 64`, the transfer
whose frame `i mod 64` is the read instruction built for byte `i`; the bytes from `len` on
are left as they were. -/
theorem read_program_memory_results (t : Target σ) (hrel : t.reliable) (word_addres : Nat)
    (buffer : List Nat) (len : Nat) (progress : Bool) (w : World σ) (hb : len ≤ buffer.length) :
    ∃ (out : List Nat) (w1 : World σ),
      read_program_memory t word_addres buffer len progress w = .ok out w1 ∧
      out.length = buffer.length ∧
      (∀ i, i < len → ∃ tx rx,
        (issued w (read_program_memory t word_addres buffer len progress w))[i / 64]?
          = some (tx, rx) ∧
        (frames tx)[i % 64]? = some
          [if i % 2 = 0 then 0x20 else 0x28, ((word_addres + i / 2) % 2 ^ 16) >>> 8,
           ((word_addres + i / 2) % 2 ^ 16) &&& 0xFF, 0x00] ∧
        4 * (i % 64) + 3 < rx.length ∧
        out[i]? = rx[4 * (i % 64) + 3]?) ∧
      (∀ i, len ≤ i → out[i]? = buffer[i]?) := by
  obtain ⟨out, w1, rxs, hrun, hiss, hlen, hrl, hval, hrest⟩ :=
    read_program_memory_issued t hrel word_addres buffer len progress w hb
  refine ⟨out, w1, hrun, hlen, ?_, hrest⟩
  intro i hi
  have hc : i / 64 < (len + 63) / 64 := by omega
  have hl := hrl (i / 64) hc
  have hidx : 4 * (i % 64) + 3 < (rxs.getD (i / 64) []).length := by omega
  refine ⟨read_tx word_addres (64 * (i / 64)) (min (len - 64 * (i / 64)) 64),
    rxs.getD (i / 64) [], ?_, ?_, hidx, ?_⟩
  · rw [hiss, List.getElem?_map, List.getElem?_range hc]
    rfl
  · rw [frames_read_tx, List.getElem?_map, List.getElem?_range (by omega),
      Option.map_some', show 64 * (i / 64) + i % 64 = i by omega]
    rfl
  · rw [hval i hi, List.getD_eq_getElem?_getD, List.getElem?_eq_getElem hidx]
    rfl

/-- Witness for C9: a 70-byte read from the simulated target. -/
theorem read_program_memory_results_witness :
    ∃ (out : List Nat) (w1 : World Sim),
      read_program_memory sim 0 (List.replicate 70 0) 70 false sim0 = .ok out w1 ∧
      out.length = (List.replicate 70 0).length ∧
      (∀ i, i < 70 → ∃ tx rx,
        (issued sim0 (read_program_memory sim 0 (List.replicate 70 0) 70 false sim0))[i / 64]?
          = some (tx, rx) ∧
        (frames tx)[i % 64]? = some
          [if i % 2 = 0 then 0x20 else 0x28, ((0 + i / 2) % 2 ^ 16) >>> 8,
           ((0 + i / 2) % 2 ^ 16) &&& 0xFF, 0x00] ∧
        4 * (i % 64) + 3 < rx.length ∧
        out[i]? = rx[4 * (i % 64) + 3]?) ∧
      (∀ i, 70 ≤ i → out[i]? = (List.replicate 70 0)[i]?) :=
  read_program_memory_results sim sim_reliable 0 (List.replicate 70 0) 70 false sim0 (by simp)

/-- C10: on a target that answers, for a buffer of at least `len` bytes and every offset
`i < len`, with `j = i mod 64`, frame `j` of the load transfer of page `i div 64` (transfer
number `2 * (i div 64)` of `write_flash`) is `(0x40, 0x00, j div 2, data[i])` when `j` is
even and `(0x48, 0x00, j div 2, data[i])` when `j` is odd: the address is the word offset
inside the page and the alternation starts at low on every page. -/
theorem write_flash_load_instruction (t : Target σ) (hrel : t.reliable) (data : List Nat)
    (len : Nat) (progress : Bool) (w : World σ) (hbytes : is_bytes data) (hd : len ≤ data.length)
    (i : Nat) (hi : i < len) :
    ∃ load, (sent w (write_flash t data len progress w))[2 * (i / 64)]? = some load ∧
      (frames load)[i % 64]? = some
        [if i % 64 % 2 = 0 then 0x40 else 0x48, 0x00, i % 64 / 2, data.getD i 0] ∧
      some (data.getD i 0) = data[i]? := by
  have hp : i / 64 < (len + 63) / 64 := by omega
  refine ⟨_, (write_flash_transfers t hrel data len progress w hd (i / 64) hp).1, ?_, ?_⟩
  · rw [frames_load_tx, List.getElem?_map, List.getElem?_range (by omega), Option.map_some',
      load_frame, show 64 * (i / 64) + i % 64 = i by omega, is_bytes_getD data hbytes]
  · rw [List.getD_eq_getElem?_getD, List.getElem?_eq_getElem (by omega)]
    rfl

/-- Witness for C10: byte 65 of the 70-byte image `0x00..0x45` is loaded by frame 1 of the
load transfer of page 1, `(0x48, 0x00, 0x00, 0x41)`. -/
theorem write_flash_load_instruction_witness :
    ∃ load, (sent sim0 (write_flash sim (List.range 70) 70 false sim0))[2]? = some load ∧
      (frames load)[1]? = some [0x48, 0x00, 0x00, 0x41] ∧
      some 0x41 = (List.range 70)[65]? :=
  write_flash_load_instruction sim sim_reliable (List.range 70) 70 false sim0
    (range_is_bytes 70 (by decide)) (by simp) 65 (by decide)


/-- C11: for every page number `p < 128`, when the transport answers and the wait succeeds,
`write_program_memory_page(p)` returns after exactly one transfer, the frame
`(0x4C, (p >> 3) & 0xFF, (p << 5) & 0xFF, 0x00)`, followed by the 10 ms wait, and the address
`byte2 * 256 + byte3` of that frame is `p * page_size_in_words`. -/
theorem write_program_memory_page_address (t : Target σ) (page : Nat) (w : World σ) (d1 d2 : σ)
    (rx : List Nat) (hp : page < 128)
    (h1 : t.transfer w.dev [0x4C, (page >>> 3) &&& 0xFF, (page <<< 5) &&& 0xFF, 0x00] = some (d1, rx))
    (h2 : t.sleep d1 10 = some d2) :
    (write_program_memory_page t page w).error = none ∧
    (write_program_memory_page t page w).world.trace = w.trace ++
      [Event.transfer [0x4C, (page >>> 3) &&& 0xFF, (page <<< 5) &&& 0xFF, 0x00] (received 4 rx),
       Event.delay 10] ∧
    ((page >>> 3) &&& 0xFF) * 256 + ((page <<< 5) &&& 0xFF) = page * page_size_in_words := by
  obtain ⟨w1, hrun, -, htr⟩ := write_program_memory_page_some t page w d1 d2 rx h1 h2
  rw [hrun]
  refine ⟨rfl, htr, ?_⟩
  rw [and_255, and_255, Nat.shiftRight_eq_div_pow, Nat.shiftLeft_eq, page_size_in_words]
  norm_num
  omega

/-- Witness for C11: page 127, the last page of the flash, on the simulated target; its
commit frame is `(0x4C, 0x0F, 0xE0, 0x00)` and `0x0FE0 = 127 * 32`. -/
theorem write_program_memory_page_address_witness :
    (write_program_memory_page sim 127 sim0).world.trace =
      [Event.transfer [0x4C, 0x0F, 0xE0, 0x00] (received 4 [0, 0x4C, 0x0F, 0]), Event.delay 10] ∧
    0x0F * 256 + 0xE0 = 127 * page_size_in_words :=
  ⟨(write_program_memory_page_address sim 127 sim0 _ _ [0, 0x4C, 0x0F, 0] (by decide) rfl rfl).2.1,
   (write_program_memory_page_address sim 127 sim0 _ _ [0, 0x4C, 0x0F, 0] (by decide) rfl rfl).2.2⟩

/-- C15: for every fuse value `v < 256`, when the transport answers and the wait succeeds,
`write_fuse_bits(v, high)` returns after exactly one transfer, the frame
`(0xAC, 0xA0, 0x00, v)` when `high` is false and `(0xAC, 0xA8, 0x00, v)` when it is true,
which is `(0xAC, 0xA0 | (high << 3), 0x00, v)`; the only other things it does are the line
it prints and the 10 ms wait that ends it. -/
theorem write_fuse_bits_frame (t : Target σ) (value : Nat) (high : Bool) (w : World σ)
    (d1 d2 : σ) (rx : List Nat) (hv : value < 256)
    (h1 : t.transfer w.dev [0xAC, if high then 0xA8 else 0xA0, 0x00, value] = some (d1, rx))
    (h2 : t.sleep d1 10 = some d2) :
    (write_fuse_bits t value high w).error = none ∧
    (write_fuse_bits t value high w).world.trace = w.trace ++
      [Event.transfer [0xAC, if high then 0xA8 else 0xA0, 0x00, value] (received 4 rx),
       Event.print (" # writting fuse " ++ (if high then "high" else "low") ++ ": 0x%.2X\n") [value],
       Event.delay 10] ∧
    issued w (write_fuse_bits t value high w) =
      [([0xAC, if high then 0xA8 else 0xA0, 0x00, value], received 4 rx)] ∧
    (0xA0 ||| (b2n high <<< 3)) = (if high then 0xA8 else 0xA0) := by
  obtain ⟨w1, hrun, -, htr⟩ := write_fuse_bits_some t value high w d1 d2 rx hv h1 h2
  rw [hrun]
  refine ⟨rfl, htr, ?_, by cases high <;> rfl⟩
  apply issued_of_transfers
  simp [Result.world, htr, transfers_append, transfers]

/-- Witness for C15: the high fuse written with `0xD9` on the simulated target. -/
theorem write_fuse_bits_frame_witness :
    issued sim0 (write_fuse_bits sim 0xD9 true sim0) =
      [([0xAC, 0xA8, 0x00, 0xD9], received 4 [0, 0xAC, 0xA8, 0])] :=
  (write_fuse_bits_frame sim 0xD9 true sim0 _ _ [0, 0xAC, 0xA8, 0] (by decide) rfl rfl).2.2.1


/-- C12: for a source buffer and a read-back buffer of at least `len` bytes, the verification
pass of `write_flash_from_file` returns after printing one mismatch line
`(i, source[i], readback[i])` for each offset `i < len` at which the two differ, in
increasing order of `i` and nothing in between, followed by one final line, which is the
success line if and only if the two buffers agree at every offset below `len`. -/
theorem verify_reports_every_mismatch (source readback : List Nat) (len : Nat) (w : World σ)
    (hs : len ≤ source.length) (hr : len ≤ readback.length) :
    (write_flash_from_file_verify source readback len w).error = none ∧
    (write_flash_from_file_verify source readback len w).world.trace = w.trace ++
      ((List.range len).filter (fun i => source.getD i 0 != readback.getD i 0)).map
        (fun i => Event.print "data mismatch at byte %d: expected %.2X, got %.2X\n"
          [i, source.getD i 0, readback.getD i 0]) ++
      [Event.print
        (if (List.range len).filter (fun i => source.getD i 0 != readback.getD i 0) = [] then
          "flash programming OK!\n" else "flash programming faild: data mismatch\n") []] ∧
    ((List.range len).filter (fun i => source.getD i 0 != readback.getD i 0) = [] ↔
      ∀ i, i < len → source[i]? = readback[i]?) := by
  have hcmp := compare_ok source readback len 0 false w (by omega) (by omega)
  rw [← List.range_eq_range'] at hcmp
  have hany : (List.range len).any (fun x => source.getD x 0 != readback.getD x 0) = true ↔
      ¬ (List.range len).filter (fun i => source.getD i 0 != readback.getD i 0) = [] := by
    rw [List.filter_eq_nil_iff, List.any_eq_true]
    push_neg
    rfl
  refine ⟨?_, ?_, ?_⟩
  · simp only [write_flash_from_file_verify, hcmp, Result.andThen, Bool.false_or, printf]
    split <;> rfl
  · simp only [write_flash_from_file_verify, hcmp, Result.andThen, Bool.false_or, printf]
    split
    · next h => rw [if_neg (hany.mp h)]; simp [Result.world]
    · next h =>
        have : (List.range len).filter (fun i => source.getD i 0 != readback.getD i 0) = [] := by
          by_contra hc
          exact h (hany.mpr hc)
        rw [if_pos this]; simp [Result.world]
  · rw [List.filter_eq_nil_iff]
    constructor
    · intro h i hi
      have := h i (List.mem_range.mpr hi)
      rw [List.getElem?_eq_getElem (by omega), List.getElem?_eq_getElem (by omega)]
      simp only [List.getD_eq_getElem?_getD, List.getElem?_eq_getElem (show i < source.length by omega),
        List.getElem?_eq_getElem (show i < readback.length by omega), Option.getD_some, bne_iff_ne,
        ne_eq, not_not] at this
      rw [this]
    · intro h i hi
      have := h i (List.mem_range.mp hi)
      simp [List.getD_eq_getElem?_getD, this]

/-- Witness for C12: two mismatches, at offsets 1 and 3, both reported. -/
theorem verify_reports_every_mismatch_witness :
    (write_flash_from_file_verify [1, 2, 3, 4] [1, 0, 3, 9] 4 sim0).world.trace =
      [Event.print "data mismatch at byte %d: expected %.2X, got %.2X\n" [1, 2, 0],
       Event.print "data mismatch at byte %d: expected %.2X, got %.2X\n" [3, 4, 9],
       Event.print "flash programming faild: data mismatch\n" []] :=
  (verify_reports_every_mismatch [1, 2, 3, 4] [1, 0, 3, 9] 4 sim0 (by decide) (by decide)).2.1


/-- C19: whatever the target answers, for every `len` and every buffer of at least `len` bytes
(in particular one of exactly `len` bytes), `write_flash` and `read_program_memory` never end
on an access outside `tx_buf`, `rx_buf` or the caller's buffer; every transfer they issue has at
most `buffer_size = 256` bytes and a whole number of 4-byte instructions; `write_flash` runs
as it does on the first `len` bytes alone; and when `read_program_memory` returns, the buffer
has kept its length and its bytes from `len` on. -/
theorem flash_loops_stay_in_bounds (t : Target σ) (word_addres : Nat) (data buffer : List Nat)
    (len : Nat) (progress : Bool) (w : World σ) (hd : len ≤ data.length)
    (hb : len ≤ buffer.length) :
    (write_flash t data len progress w).error ≠ some Err.out_of_bounds ∧
    (∀ x ∈ issued w (write_flash t data len progress w),
      x.1.length ≤ buffer_size ∧ x.1.length % instruction_size = 0) ∧
    write_flash t data len progress w = write_flash t (data.take len) len progress w ∧
    (read_program_memory t word_addres buffer len progress w).error ≠ some Err.out_of_bounds ∧
    (∀ x ∈ issued w (read_program_memory t word_addres buffer len progress w),
      x.1.length ≤ buffer_size ∧ x.1.length % instruction_size = 0) ∧
    (∀ out w1, read_program_memory t word_addres buffer len progress w = .ok out w1 →
      out.length = buffer.length ∧ ∀ x, len ≤ x → out[x]? = buffer[x]?) := by
  have hw := run_write_flash fits_busOnly in_bounds_busErr t data len progress w hd
  have hr := run_read_program_memory fits_busOnly in_bounds_busErr t word_addres buffer len
    progress w hb
  exact ⟨fun h => hw.2.1 _ h rfl, run_fits_issued w _ hw, write_flash_take t data len progress w,
    fun h => hr.2.1 _ h rfl, run_fits_issued w _ hr, hr.2.2⟩

/-- Witness for C19: the 70-byte image in a buffer of exactly 70 bytes, on the scripted target
that stops answering after two transfers. -/
theorem flash_loops_stay_in_bounds_witness :
    (write_flash scripted (List.range 70) 70 true (script [[], []])).error
      ≠ some Err.out_of_bounds :=
  (flash_loops_stay_in_bounds scripted 0 (List.range 70) (List.replicate 70 0) 70 true
    (script [[], []]) (by simp) (by simp)).1





/-- C18: in every run of `main`, whatever operations are selected and whatever the host and
the target answer, the events of the run keep to the order reset, enable, commands: from the
start and from every change of the reset line on, the first transfer is the
enable-programming frame on its own, and no other transfer follows unless byte 2 of its
response was `0x53`; and a run that returns ends with the reset pulse and the reset pin
driven high, with no transfer after that pulse. -/
theorem main_keeps_reset_enable_order (params : Params) (host : Host) (t : Target σ)
    (w : World σ) :
    (protocol Phase.fresh (added w (main params host t w))).isSome = true ∧
    ∀ code w1, main params host t w = .ok code w1 →
      ∃ before, w1.trace = before ++
        [Event.gpio params.reset_gpio_pin 1, Event.delay 100, Event.gpio params.reset_gpio_pin 0,
         Event.gpio params.reset_gpio_pin 1] := by
  constructor
  · obtain ⟨evs, ht, hs, -⟩ := obeys_main params host t w
    rw [added_of_trace w _ evs ht]
    exact hs
  · intro code w1 h
    exact main_ok_suffix params host t w code w1 h




/-- C13: for an image of at most 8192 bytes, on a target that answers and on which no
handshake fails, `write_flash_from_file` returns, and the events it adds to the trace are
exactly, in this order: the chip-erase line and frame `(0xAC, 0x80, 0x00, 0x00)` with its
10 ms wait; the events of `write_flash` for the bytes of the image; the reset pulse (pin high,
100 ms wait, pin low); the enable-programming frame; the events of `read_program_memory` for
word address 0 and the same length; and then the byte-compare of the image with the bytes
read back: one mismatch line `(i, image[i], flash_data[i])` for each offset below the length
at which they differ, in increasing order, and the final line, which is the success line
exactly when there is no such offset.  The byte sequences sent on the bus in that run are,
in order and with nothing else: the chip-erase frame; for each page the load transfer and the
page-commit frame; the enable-programming frame; and for each chunk of 64 bytes the read
transfer. -/
theorem write_flash_from_file_sequence (host : Host) (t : Target σ) (hrel : t.reliable)
    (hack : t.acks) (pin : Int) (path : String) (w : World σ) (image : List Nat)
    (hstat : host.stat path = some image.length) (hopen : host.fopen path = some image)
    (hlen : image.length ≤ flash_size) :
    ∃ (rx1 : List Nat) (w1 w2 w3 : World σ) (rx2 : List Nat) (w4 : World σ)
      (flash_data : List Nat) (w5 : World σ),
      erase_chip t w = .ok () w1 ∧
      write_flash t image image.length true w1 = .ok () w2 ∧
      reset_short_pulse t pin w2 = .ok () w3 ∧
      enable_programming t w3 = .ok () w4 ∧
      read_program_memory t 0 (List.replicate flash_size 0) image.length true w4
        = .ok flash_data w5 ∧
      (write_flash_from_file host t pin path w).error = none ∧
      added w (write_flash_from_file host t pin path w) =
        [Event.print " # performing chip erase\n" [],
         Event.transfer [0xAC, 0x80, 0x00, 0x00] rx1, Event.delay 10] ++
        added w1 (write_flash t image image.length true w1) ++
        [Event.gpio pin 1, Event.delay 100, Event.gpio pin 0] ++
        [Event.transfer [0xAC, 0x53, 0x00, 0x00] rx2] ++
        added w4 (read_program_memory t 0 (List.replicate flash_size 0) image.length true w4) ++
        ((List.range image.length).filter (fun i => image.getD i 0 != flash_data.getD i 0)).map
          (fun i => Event.print "data mismatch at byte %d: expected %.2X, got %.2X\n"
            [i, image.getD i 0, flash_data.getD i 0]) ++
        [Event.print
          (if (List.range image.length).filter
              (fun i => image.getD i 0 != flash_data.getD i 0) = [] then
            "flash programming OK!\n" else "flash programming faild: data mismatch\n") []] ∧
      sent w (write_flash_from_file host t pin path w) =
        [[0xAC, 0x80, 0x00, 0x00]] ++
        (List.range ((image.length + 63) / 64)).flatMap (fun p =>
          [(List.range (min (image.length - 64 * p) 64)).flatMap
              (fun j => [if j % 2 = 0 then 0x40 else 0x48, 0x00, j / 2,
                image.getD (64 * p + j) 0 % 256]),
           [0x4C, (p >>> 3) &&& 0xFF, (p <<< 5) &&& 0xFF, 0x00]]) ++
        [[0xAC, 0x53, 0x00, 0x00]] ++
        (List.range ((image.length + 63) / 64)).map (fun c =>
          (List.range (min (image.length - 64 * c) 64)).flatMap
            (fun j => [if (64 * c + j) % 2 = 0 then 0x20 else 0x28,
              ((0 + (64 * c + j) / 2) % 65536) >>> 8,
              ((0 + (64 * c + j) / 2) % 65536) &&& 0xFF, 0x00])) := by
  obtain ⟨rx1, w1, w2, w3, rx2, w4, flash_data, w5, w6, he, hte, hw, hr, htr, hen, hten, hrd, hv,
    htv, hrun⟩ := write_flash_from_file_steps host t hrel hack pin path w image hstat hopen hlen
  have hfs : flash_size = 8192 := rfl
  have hfl : flash_data.length = 8192 := by
    have := (run_read_program_memory any_busOnly any_busErr t 0 (List.replicate flash_size 0)
      image.length true w4 (by rw [List.length_replicate]; exact hlen)).2.2 flash_data w5 hrd
    rw [this.1, List.length_replicate, hfs]
  have t2 := trace_of_ok w1 w2 _ () (run_write_flash any_busOnly any_busErr t image image.length
    true w1 (Nat.le_refl _)) hw
  have t5 := trace_of_ok w4 w5 _ flash_data (run_read_program_memory any_busOnly any_busErr t 0
    (List.replicate flash_size 0) image.length true w4
    (by rw [List.length_replicate]; exact hlen)) hrd
  have t6 := verify_trace (image ++ List.replicate (flash_size - image.length) 0) flash_data
    image.length w5 (by rw [List.length_append]; omega) (by omega)
  rw [hv, List.append_assoc, mismatch_lines_congr _ image flash_data image.length
    (fun x hx => padded_getD image _ x hx), ← List.append_assoc] at t6
  have htot : (write_flash_from_file host t pin path w).world.trace = w.trace ++
      ([Event.print " # performing chip erase\n" [],
         Event.transfer [0xAC, 0x80, 0x00, 0x00] rx1, Event.delay 10] ++
        added w1 (write_flash t image image.length true w1) ++
        [Event.gpio pin 1, Event.delay 100, Event.gpio pin 0] ++
        [Event.transfer [0xAC, 0x53, 0x00, 0x00] rx2] ++
        added w4 (read_program_memory t 0 (List.replicate flash_size 0) image.length true w4) ++
        ((List.range image.length).filter (fun i => image.getD i 0 != flash_data.getD i 0)).map
          (fun i => Event.print "data mismatch at byte %d: expected %.2X, got %.2X\n"
            [i, image.getD i 0, flash_data.getD i 0]) ++
        [Event.print
          (if (List.range image.length).filter
              (fun i => image.getD i 0 != flash_data.getD i 0) = [] then
            "flash programming OK!\n" else "flash programming faild: data mismatch\n") []]) := by
    rw [hrun]
    show w6.trace = _
    have t6b : w6.trace = _ := t6
    rw [t6b, t5, hten, htr, t2, hte]
    simp only [List.append_assoc]
  refine ⟨rx1, w1, w2, w3, rx2, w4, flash_data, w5, he, hw, hr, hen, hrd, by rw [hrun]; rfl,
    added_of_trace _ _ _ htot, ?_⟩
  have s2 : (transfers (added w1 (write_flash t image image.length true w1))).map Prod.fst =
      sent w1 (write_flash t image image.length true w1) :=
    (sent_of_added w1 _ _ (run_trace w1 _ (run_write_flash any_busOnly any_busErr t image
      image.length true w1 (Nat.le_refl _)))).symm
  have s5 : (transfers (added w4 (read_program_memory t 0 (List.replicate flash_size 0)
      image.length true w4))).map Prod.fst =
      sent w4 (read_program_memory t 0 (List.replicate flash_size 0) image.length true w4) :=
    (sent_of_added w4 _ _ (run_trace w4 _ (run_read_program_memory any_busOnly any_busErr t 0
      (List.replicate flash_size 0) image.length true w4
      (by rw [List.length_replicate]; exact hlen)))).symm
  rw [sent_of_added w _ _ htot]
  simp only [transfers_append, List.map_append, s2, s5, transfers_mismatch_lines]
  rw [(write_flash_sent t hrel image image.length true w1 (Nat.le_refl _)).2,
    (read_program_memory_sent t hrel 0 (List.replicate flash_size 0) image.length true w4
      (by rw [List.length_replicate]; exact hlen)).2]
  simp only [transfers, List.map_cons, List.map_nil, List.append_nil, List.nil_append]
  rfl

/-- Witness for C13: the 70-byte image `0x00..0x45` on the simulated target: two pages
written, two chunks read back. -/
theorem write_flash_from_file_sequence_witness :
    ∃ (rx1 : List Nat) (w1 w2 w3 : World Sim) (rx2 : List Nat) (w4 : World Sim)
      (flash_data : List Nat) (w5 : World Sim),
      erase_chip sim sim0 = .ok () w1 ∧
      write_flash sim (List.range 70) 70 true w1 = .ok () w2 ∧
      reset_short_pulse sim 22 w2 = .ok () w3 ∧
      enable_programming sim w3 = .ok () w4 ∧
      read_program_memory sim 0 (List.replicate flash_size 0) 70 true w4 = .ok flash_data w5 ∧
      (write_flash_from_file (host_with (List.range 70)) sim 22 "image.bin" sim0).error = none ∧
      added sim0 (write_flash_from_file (host_with (List.range 70)) sim 22 "image.bin" sim0) =
        [Event.print " # performing chip erase\n" [],
         Event.transfer [0xAC, 0x80, 0x00, 0x00] rx1, Event.delay 10] ++
        added w1 (write_flash sim (List.range 70) 70 true w1) ++
        [Event.gpio 22 1, Event.delay 100, Event.gpio 22 0] ++
        [Event.transfer [0xAC, 0x53, 0x00, 0x00] rx2] ++
        added w4 (read_program_memory sim 0 (List.replicate flash_size 0) 70 true w4) ++
        ((List.range 70).filter
            (fun i => (List.range 70).getD i 0 != flash_data.getD i 0)).map
          (fun i => Event.print "data mismatch at byte %d: expected %.2X, got %.2X\n"
            [i, (List.range 70).getD i 0, flash_data.getD i 0]) ++
        [Event.print
          (if (List.range 70).filter
              (fun i => (List.range 70).getD i 0 != flash_data.getD i 0) = [] then
            "flash programming OK!\n" else "flash programming faild: data mismatch\n") []] ∧
      sent sim0 (write_flash_from_file (host_with (List.range 70)) sim 22 "image.bin" sim0) =
        [[0xAC, 0x80, 0x00, 0x00]] ++
        (List.range ((70 + 63) / 64)).flatMap (fun p =>
          [(List.range (min (70 - 64 * p) 64)).flatMap
              (fun j => [if j % 2 = 0 then 0x40 else 0x48, 0x00, j / 2,
                (List.range 70).getD (64 * p + j) 0 % 256]),
           [0x4C, (p >>> 3) &&& 0xFF, (p <<< 5) &&& 0xFF, 0x00]]) ++
        [[0xAC, 0x53, 0x00, 0x00]] ++
        (List.range ((70 + 63) / 64)).map (fun c =>
          (List.range (min (70 - 64 * c) 64)).flatMap
            (fun j => [if (64 * c + j) % 2 = 0 then 0x20 else 0x28,
              ((0 + (64 * c + j) / 2) % 65536) >>> 8,
              ((0 + (64 * c + j) / 2) % 65536) &&& 0xFF, 0x00])) :=
  write_flash_from_file_sequence (host_with (List.range 70)) sim sim_reliable sim_acks
    22 "image.bin" sim0 (List.range 70) rfl rfl (by decide)


/-- C14: a verification mismatch never aborts.  The verification pass returns for every source
and every read-back content, equal or not; so on a target that answers, acknowledges the
handshake and carries the ATmega8 signature, with a host on which every call succeeds and an
image of at most 8192 bytes, `write_flash_from_file` returns from every state, whatever the
target reads back, and `main` with the flash operation selected returns 0 after it: the events
of `main` after the return of `write_flash_from_file` are exactly the reset pulse and the
reset pin driven high. -/
theorem mismatch_does_not_abort (params : Params) (host : Host) (t : Target σ)
    (hrel : t.reliable) (hack : t.acks) (hsig : t.signed)
    (hhost : host.open_spi = true ∧ host.rd_mode = true ∧ host.wr_mode = true ∧
      host.wr_max_speed = true ∧ host.rd_max_speed = true)
    (hbit : params.enabled_operations_bitset &&& OP_WRITE_FLASH ≠ 0)
    (image : List Nat) (hstat : host.stat params.flash_file = some image.length)
    (hopen : host.fopen params.flash_file = some image) (hlen : image.length ≤ flash_size)
    (w : World σ) :
    (∀ (source readback : List Nat) (len : Nat) (w0 : World σ),
      len ≤ source.length → len ≤ readback.length →
      (write_flash_from_file_verify source readback len w0).error = none) ∧
    (∀ w0 : World σ,
      (write_flash_from_file host t params.reset_gpio_pin params.flash_file w0).error = none) ∧
    ∃ wh wi w2,
      write_flash_from_file host t params.reset_gpio_pin params.flash_file wh = .ok () wi ∧
      main params host t w = .ok 0 w2 ∧
      w2.trace = wi.trace ++
        [Event.gpio params.reset_gpio_pin 1, Event.delay 100,
         Event.gpio params.reset_gpio_pin 0, Event.gpio params.reset_gpio_pin 1] := by
  have hfile : ∀ w0 : World σ,
      (write_flash_from_file host t params.reset_gpio_pin params.flash_file w0).error
        = none := by
    intro w0
    obtain ⟨_, _, _, _, _, _, _, _, w6, -, -, -, -, -, -, -, -, -, -, h⟩ :=
      write_flash_from_file_steps host t hrel hack params.reset_gpio_pin params.flash_file w0
        image hstat hopen hlen
    rw [h]
    rfl
  refine ⟨?_, hfile, ?_⟩
  · intro source readback len w0 h1 h2
    obtain ⟨w1, h, -⟩ := verify_returns source readback len w0 h1 h2
    rw [h]
    rfl
  · obtain ⟨code, w2, hm⟩ := ok_of_error _
      (main_returns params host t hrel hack hsig hhost (fun w0 _ => hfile w0) w)
    obtain ⟨wh, wi, hf, hc, ht⟩ := main_ok_steps params host t w code w2 hm
    rw [if_pos hbit] at hf
    rw [hc] at hm
    exact ⟨wh, wi, w2, hf, hm, ht⟩

/-- Witness for C14: the 70-byte image `0x00..0x45` written to a target whose flash reads
`0xFF` at every offset, so that the read-back differs from the source at each of the 70
offsets. -/
theorem mismatch_does_not_abort_witness :
    ∃ wh wi w2,
      write_flash_from_file (host_with (List.range 70)) blank 22 "image.bin" wh = .ok () wi ∧
      main ⟨4, 0, 0, "image.bin", 22⟩ (host_with (List.range 70)) blank blank0 = .ok 0 w2 ∧
      w2.trace = wi.trace ++
        [Event.gpio 22 1, Event.delay 100, Event.gpio 22 0, Event.gpio 22 1] :=
  (mismatch_does_not_abort ⟨4, 0, 0, "image.bin", 22⟩ (host_with (List.range 70)) blank
    blank_reliable blank_acks blank_signed ⟨rfl, rfl, rfl, rfl, rfl⟩ (by decide)
    (List.range 70) rfl rfl (by decide) blank0).2.2


/-- C16: when `stat` reports `size` bytes for the image, `write_flash_from_file` ends with
the file-too-large error if and only if `size` exceeds 8192, whatever the target and the
rest of the host do; a rejected call ends in the state it started from, so nothing was sent
on the bus and nothing was printed or waited for before the exit; and an image of exactly
8192 bytes is accepted: on a target that answers and acknowledges the handshake the call
returns, and the first transfer it issues is the chip-erase frame. -/
theorem file_too_large_iff (host : Host) (t : Target σ) (pin : Int) (path : String)
    (w : World σ) (size : Nat) (hstat : host.stat path = some size) :
    ((write_flash_from_file host t pin path w).error = some Err.file_too_large ↔
      8192 < size) ∧
    (8192 < size → write_flash_from_file host t pin path w = .exit Err.file_too_large w) ∧
    (size = 8192 → t.reliable → t.acks →
      ∀ image, host.fopen path = some image → image.length = size →
        (write_flash_from_file host t pin path w).error = none ∧
        ((transfers (added w (write_flash_from_file host t pin path w))).head?.map Prod.fst
          = some [0xAC, 0x80, 0x00, 0x00])) := by
  have hfs : flash_size = 8192 := rfl
  have hrej : 8192 < size →
      write_flash_from_file host t pin path w = .exit Err.file_too_large w := by
    intro h
    unfold write_flash_from_file
    rw [hstat]
    simp only []
    rw [if_pos (by rw [hfs]; exact h)]
    rfl
  refine ⟨⟨?_, fun h => by rw [hrej h]; rfl⟩, hrej, ?_⟩
  · intro h
    by_contra hn
    have hrun := run_write_flash_from_file (P := fun _ => True)
      (E := fun e => e ≠ Err.file_too_large) any_busOnly
      ⟨by decide, by decide, by decide, by decide⟩ (fun _ _ => trivial) (by decide) (by decide)
      host t pin path w size hstat (by rw [hfs]; omega)
    exact hrun.2.1 _ h rfl
  · intro hsz hrel hack image hopen hil
    rw [← hil] at hstat
    obtain ⟨rx1, w1, w2, w3, rx2, w4, flash_data, w5, w6, he, hte, hw, hr, htr, hen, hten, hrd,
      hv, htv, h⟩ := write_flash_from_file_steps host t hrel hack pin path w image hstat hopen
        (by rw [hfs, hil, hsz])
    refine ⟨by rw [h]; rfl, ?_⟩
    have hw2 := run_trace w1 _ (run_write_flash (P := fun _ => True) (E := fun _ => True)
      any_busOnly any_busErr t image image.length true w1 (Nat.le_refl _))
    rw [hw] at hw2
    have hr5 := run_trace w4 _ (run_read_program_memory (P := fun _ => True)
      (E := fun _ => True) any_busOnly any_busErr t 0 (List.replicate flash_size 0)
      image.length true w4 (by rw [List.length_replicate, hfs, hil, hsz]))
    rw [hrd] at hr5
    have hv6 := run_trace w5 _ (run_verify (P := fun _ => True) (E := fun _ => True)
      any_busOnly (image ++ List.replicate (flash_size - image.length) 0) flash_data
      image.length w5 (by simp) (by
        have := (run_read_program_memory (P := fun _ => True)
          (E := fun _ => True) any_busOnly any_busErr t 0 (List.replicate flash_size 0)
          image.length true w4 (by rw [List.length_replicate, hfs, hil, hsz])).2.2
            flash_data w5 hrd
        rw [this.1, List.length_replicate, hfs, hil, hsz]))
    rw [hv] at hv6
    have htot : w6.trace = w.trace ++
        ([Event.print " # performing chip erase\n" [],
          Event.transfer [0xAC, 0x80, 0x00, 0x00] rx1, Event.delay 10] ++
          (added w1 (Result.ok () w2 : Result σ Unit) ++
            ([Event.gpio pin 1, Event.delay 100, Event.gpio pin 0] ++
              ([Event.transfer [0xAC, 0x53, 0x00, 0x00] rx2] ++
                (added w4 (Result.ok flash_data w5 : Result σ (List Nat)) ++
                  added w5 (Result.ok () w6 : Result σ Unit)))))) := by
      simp only [Result.world] at hw2 hr5 hv6
      rw [hv6, hr5, hten, htr, hw2, hte]
      simp only [List.append_assoc]
    rw [h, added_of_trace w _ _ (by simpa only [Result.world] using htot)]
    simp [transfers]

/-- Witness for C16: a file of 8193 bytes is rejected before anything is sent, and a file of
8192 bytes is accepted by the simulated target. -/
theorem file_too_large_iff_witness :
    write_flash_from_file (host_with (List.replicate 8193 0)) sim 22 "image.bin" sim0
      = .exit Err.file_too_large sim0 ∧
    (write_flash_from_file (host_with (List.replicate 8192 0)) sim 22 "image.bin" sim0).error
      = none :=
  ⟨(file_too_large_iff (host_with (List.replicate 8193 0)) sim 22 "image.bin" sim0 8193
    (by
      show (if "image.bin" = "image.bin" then some (List.replicate 8193 0).length else none)
        = some 8193
      rw [if_pos rfl, List.length_replicate])).2.1 (by decide),
   ((file_too_large_iff (host_with (List.replicate 8192 0)) sim 22 "image.bin" sim0 8192
    (by
      show (if "image.bin" = "image.bin" then some (List.replicate 8192 0).length else none)
        = some 8192
      rw [if_pos rfl, List.length_replicate])).2.2 rfl sim_reliable sim_acks
        (List.replicate 8192 0) rfl (List.length_replicate _ _)).1⟩


/-- C20: on a target that answers, for every `len ≤ 8192` and every byte offset `i < len`
(buffers of at least `len` bytes): in the run of `write_flash`, byte `i` is loaded by frame
`i mod 64` of transfer `2 * (i div 64)`, which is followed by the page-commit frame of page
`i div 64`, and the commit address (byte 1 `* 256 +` byte 2 of the commit frame) plus the
address field of the load frame is `i div 2`, which is below 4096, half of `flash_size`; in the
run of `read_program_memory(0, ..)`, the read instruction for byte `i` carries that same
address `i div 2` in its bytes 1 and 2, and the 16-bit reduction of `0 + i div 2` changes
nothing; and the opcodes are `0x40 | (i mod 2) << 3` for the load and `0x20 | (i mod 2) << 3`
for the read, so that bit 3 of both, the high-byte selector, is set exactly when `i` is odd. -/
theorem writer_and_reader_addresses_agree (t : Target σ) (hrel : t.reliable)
    (data buffer : List Nat) (len : Nat) (progress : Bool) (w wr : World σ)
    (hlen : len ≤ 8192) (hd : len ≤ data.length) (hb : len ≤ buffer.length)
    (i : Nat) (hi : i < len) :
    ∃ load lf cf rd rf,
      (sent w (write_flash t data len progress w))[2 * (i / 64)]? = some load ∧
      (frames load)[i % 64]? = some lf ∧
      (sent w (write_flash t data len progress w))[2 * (i / 64) + 1]? = some cf ∧
      (sent wr (read_program_memory t 0 buffer len progress wr))[i / 64]? = some rd ∧
      (frames rd)[i % 64]? = some rf ∧
      cf.getD 0 0 = 0x4C ∧
      cf.getD 1 0 * 256 + cf.getD 2 0 + lf.getD 2 0 = i / 2 ∧
      i / 2 < flash_size / 2 ∧ flash_size / 2 = 4096 ∧
      rf.getD 1 0 * 256 + rf.getD 2 0 = i / 2 ∧
      (0 + i / 2) % 2 ^ 16 = 0 + i / 2 ∧
      lf.getD 0 0 = 0x40 ||| ((i % 2) <<< 3) ∧
      rf.getD 0 0 = 0x20 ||| ((i % 2) <<< 3) ∧
      (lf.getD 0 0 / 8 % 2 = 1 ↔ i % 2 = 1) ∧
      (rf.getD 0 0 / 8 % 2 = 1 ↔ i % 2 = 1) := by
  have hfs : flash_size / 2 = 4096 := rfl
  have hp : i / 64 < (len + 63) / 64 := by omega
  obtain ⟨hl, hc⟩ := write_flash_transfers t hrel data len progress w hd (i / 64) hp
  obtain ⟨hr, hrf⟩ := read_program_memory_frame t hrel 0 buffer len progress wr hb
    (i / 64) (i % 64) hp (by omega)
  rw [show 64 * (i / 64) + i % 64 = i by omega] at hrf
  have hlf : (frames (load_tx data (64 * (i / 64)) (min (len - 64 * (i / 64)) 64)))[i % 64]?
      = some (load_frame data (64 * (i / 64)) (i % 64)) := by
    rw [frames_load_tx, List.getElem?_map, List.getElem?_range (by omega), Option.map_some']
  refine ⟨_, _, _, _, _, hl, hlf, hc, hr, hrf, rfl, ?_, by rw [hfs]; omega, hfs, ?_, by omega,
    ?_, ?_, ?_, ?_⟩
  · show ((i / 64) >>> 3 &&& 0xFF) * 256 + ((i / 64) <<< 5 &&& 0xFF) + i % 64 / 2 = i / 2
    rw [and_255, and_255, Nat.shiftRight_eq_div_pow, Nat.shiftLeft_eq]
    norm_num
    omega
  · show (((0 + i / 2) % 65536) >>> 8) * 256 + (((0 + i / 2) % 65536) &&& 0xFF) = i / 2
    rw [and_255, shr_8]
    omega
  · show (if i % 64 % 2 = 0 then 0x40 else 0x48) = 0x40 ||| ((i % 2) <<< 3)
    rcases Nat.mod_two_eq_zero_or_one i with h | h
    · rw [if_pos (by omega), h]; rfl
    · rw [if_neg (by omega), h]; rfl
  · show (if i % 2 = 0 then 0x20 else 0x28) = 0x20 ||| ((i % 2) <<< 3)
    rcases Nat.mod_two_eq_zero_or_one i with h | h
    · rw [if_pos h, h]; rfl
    · rw [if_neg (by omega), h]; rfl
  · show (if i % 64 % 2 = 0 then 0x40 else 0x48) / 8 % 2 = 1 ↔ i % 2 = 1
    rcases Nat.mod_two_eq_zero_or_one i with h | h
    · rw [if_pos (by omega), h]
    · rw [if_neg (by omega), h]
  · show (if i % 2 = 0 then 0x20 else 0x28) / 8 % 2 = 1 ↔ i % 2 = 1
    rcases Nat.mod_two_eq_zero_or_one i with h | h
    · rw [if_pos h, h]
    · rw [if_neg (by omega), h]

/-- Witness for C20: byte 65 of a 70-byte image, the high byte of word 32, the first word of
page 1. -/
theorem writer_and_reader_addresses_agree_witness :
    ∃ load lf cf rd rf,
      (sent sim0 (write_flash sim (List.range 70) 70 false sim0))[2 * (65 / 64)]? = some load ∧
      (frames load)[65 % 64]? = some lf ∧
      (sent sim0 (write_flash sim (List.range 70) 70 false sim0))[2 * (65 / 64) + 1]?
        = some cf ∧
      (sent sim0 (read_program_memory sim 0 (List.replicate 70 0) 70 false sim0))[65 / 64]?
        = some rd ∧
      (frames rd)[65 % 64]? = some rf ∧
      cf.getD 0 0 = 0x4C ∧
      cf.getD 1 0 * 256 + cf.getD 2 0 + lf.getD 2 0 = 65 / 2 ∧
      65 / 2 < flash_size / 2 ∧ flash_size / 2 = 4096 ∧
      rf.getD 1 0 * 256 + rf.getD 2 0 = 65 / 2 ∧
      (0 + 65 / 2) % 2 ^ 16 = 0 + 65 / 2 ∧
      lf.getD 0 0 = 0x40 ||| ((65 % 2) <<< 3) ∧
      rf.getD 0 0 = 0x20 ||| ((65 % 2) <<< 3) ∧
      (lf.getD 0 0 / 8 % 2 = 1 ↔ 65 % 2 = 1) ∧
      (rf.getD 0 0 / 8 % 2 = 1 ↔ 65 % 2 = 1) :=
  writer_and_reader_addresses_agree sim sim_reliable (List.range 70) (List.replicate 70 0) 70
    false sim0 sim0 (by decide) (by simp) (by simp) 65 (by decide)

end Claims

end Atmega8
